import Mathlib

/-!
Verification of the `perm` permutation-chunk generation engine.

The Rust source is shallowly embedded:
* `HashMap<T, usize>` becomes an association list `List (T × Nat)`;
  iteration order of a Rust `HashMap` is unspecified, the embedding fixes
  the list order (all verified properties are order-insensitive).
* the fixed `[usize; 128]` arrays of the compact engine become `List Nat`
  of length 128; Rust's panicking indexed writes are modelled by
  `List.set` (writes out of range are proved never to happen separately,
  through the `Checked` variants, which return `none` exactly where Rust
  would panic or where a `usize` subtraction would underflow).
* `Vec<Job<T>>` used as a stack (`pop` takes the last element, `extend`
  appends) becomes a `List` whose head is the top of the stack; `extend`
  therefore prepends the reversed batch.
* Rust panics are modelled by an explicit `Panic` error value in `Except`;
  the panic message format arguments are elided.
* the two `Iterator::next` bodies of `IntoChunks` and
  `IntoOptimizedChunks` are textually identical up to the job type; they
  are embedded once (`nextLoop`, `runChunks`) parametrised by the job
  expansion `step`, the readiness test `ready` and the permutation
  extraction `out`, and instantiated twice.
* the iterator loops are modelled with explicit fuel; `none` means the
  fuel ran out; theorems quantify over every completing fuel and exhibit
  one.
-/

set_option maxRecDepth 4000
set_option maxHeartbeats 1000000
set_option linter.unusedSectionVars false

namespace PermEngine

/-- Model of Rust panics (`panic!` aborts the process; it is not a typed,
recoverable error value). -/
structure Panic where
  message : String
deriving Repr, DecidableEq

variable {T : Type} [DecidableEq T]

/-! ## General engine (src/permutations/into_chunks.rs) -/

/-- Embeds `*values_with_frequency.entry(value).or_insert(0) += 1` on an
association list: bump the count of `v`, inserting it at count 1 when absent. -/
def incrEntry : List (T × Nat) → T → List (T × Nat)
  | [], v => [(v, 1)]
  | (k, c) :: rest, v =>
    if k = v then (k, c + 1) :: rest else (k, c) :: incrEntry rest v

/-- Embeds `values_with_frequency` (src/permutations/into_chunks.rs): the
frequency map of a list of values. -/
def values_with_frequency (values : List T) : List (T × Nat) :=
  values.foldl incrEntry []

/-- Embeds `decrease_or_remove_positive_frequency`
(src/permutations/into_chunks.rs): decrement the count of `v`, removing the
entry when the count was 1; no-op when `v` is absent. -/
def decrease_or_remove_positive_frequency : List (T × Nat) → T → List (T × Nat)
  | [], _ => []
  | (k, c) :: rest, v =>
    if k = v then (if c = 1 then rest else (k, c - 1) :: rest)
    else (k, c) :: decrease_or_remove_positive_frequency rest v

/-- Embeds `Job<T>` (src/permutations/into_chunks.rs). -/
structure Job (T : Type) where
  values_with_positive_frequency : List (T × Nat)
  permutation : List T
  permutation_length : Nat
deriving Repr, DecidableEq

/-- Embeds `Job::new`: keep only the entries with positive frequency, start
with the empty partial permutation. -/
def Job.new (values_with_frequency : List (T × Nat)) (permutation_length : Nat) :
    Job T :=
  { values_with_positive_frequency :=
      values_with_frequency.filter fun p => decide (0 < p.2)
    permutation := []
    permutation_length := permutation_length }

/-- Embeds `Job::with_new_value`: decrement the frequency of `value` and push
it onto the partial permutation. -/
def Job.with_new_value (j : Job T) (value : T) : Job T :=
  { values_with_positive_frequency :=
      decrease_or_remove_positive_frequency j.values_with_positive_frequency value
    permutation := j.permutation ++ [value]
    permutation_length := j.permutation_length }

/-- Embeds `Job::compute_next_jobs`: one child per map entry. -/
def Job.compute_next_jobs (j : Job T) : List (Job T) :=
  j.values_with_positive_frequency.map fun p => j.with_new_value p.1

/-- Embeds `Job::is_ready`. -/
def Job.is_ready (j : Job T) : Bool :=
  j.permutation.length == j.permutation_length

/-- Embeds `Chunk<T>` (src/permutations/into_chunks.rs). -/
structure Chunk (T : Type) where
  permutations : List (List T)
  size : Nat
deriving Repr, DecidableEq

/-- Embeds `Chunk::new`. -/
def Chunk.new (size : Nat) : Chunk T :=
  { permutations := [], size := size }

/-- Embeds `Chunk::is_full`. -/
def Chunk.is_full (c : Chunk T) : Bool :=
  c.permutations.length == c.size

/-- Embeds `Chunk::is_empty`. -/
def Chunk.is_empty (c : Chunk T) : Bool :=
  c.permutations.isEmpty

/-! ## The shared iterator loop

The bodies of `<IntoChunks as Iterator>::next` and
`<IntoOptimizedChunks as Iterator>::next` are the same code up to the job
type: pop a job, expand it, either append the completed permutations to the
chunk under construction (returning it when full) or push the children back
on the stack; when the stack empties, return the chunk unless it is empty.
`J` is the job type, `P` the type of a stored completed permutation. -/

/-- Embeds the `while let Some(job) = self.job_queue.pop()` loop of the two
`next` implementations.  `acc` is the permutation list of the chunk under
construction (`Chunk::as_mut` / `OptimizedChunk::as_mut`), `size` its
capacity; `acc.length == size` embeds `is_full`, `acc.isEmpty` embeds
`is_empty`.  The result is the value returned by `next` (`none` = iterator
exhausted) together with the job queue left behind.  The outer `none` means
the fuel ran out. -/
def nextLoop (step : J → List J) (ready : J → Bool) (out : J → P) :
    Nat → List J → List P → Nat → Option (Option (List P) × List J)
  | 0, _, _, _ => none
  | fuel + 1, queue, acc, size =>
    match queue with
    | [] => some (if acc.isEmpty then none else some acc, [])
    | job :: rest =>
      match step job with
      | [] => nextLoop step ready out fuel rest acc size
      | first_job :: others =>
        if ready first_job then
          let acc' := acc ++ (first_job :: others).map out
          if acc'.length == size then some (some acc', rest)
          else nextLoop step ready out fuel rest acc' size
        else nextLoop step ready out fuel ((first_job :: others).reverse ++ rest) acc size

/-- Drives `next` until exhaustion, collecting the permutation list of every
yielded chunk in order.  `none` means the fuel ran out. -/
def runChunks (step : J → List J) (ready : J → Bool) (out : J → P) :
    Nat → List J → Nat → Option (List (List P))
  | 0, _, _ => none
  | fuel + 1, queue, size =>
    match nextLoop step ready out (fuel + 1) queue [] size with
    | none => none
    | some (none, _) => some []
    | some (some c, queue') =>
      match runChunks step ready out fuel queue' size with
      | none => none
      | some cs => some (c :: cs)

/-- Runs the general engine to exhaustion, returning the yielded chunks. -/
def IntoChunksRun (fuel : Nat) (queue : List (Job T)) (size : Nat) :
    Option (List (Chunk T)) :=
  (runChunks Job.compute_next_jobs Job.is_ready Job.permutation fuel queue size).map
    fun css => css.map fun ps => { permutations := ps, size := size }

/-- Embeds `IntoChunks<T>` (src/permutations/into_chunks.rs); the head of
`job_queue` is the top of the Rust `Vec` stack. -/
structure IntoChunks (T : Type) where
  job_queue : List (Job T)
  size : Nat
deriving Repr, DecidableEq

/-- Embeds `IntoChunks::new`: a single root job built from the frequency map. -/
def IntoChunks.new (values : List T) (size : Nat) : IntoChunks T :=
  { job_queue := [Job.new (values_with_frequency values) values.length]
    size := size }

/-- Exhausts a general-engine iterator, collecting its chunks. -/
def IntoChunks.run (s : IntoChunks T) (fuel : Nat) : Option (List (Chunk T)) :=
  IntoChunksRun fuel s.job_queue s.size

/-- All permutations collected across a list of chunks, in production order. -/
def collectedPerms (cs : List (Chunk T)) : List (List T) :=
  cs.flatMap Chunk.permutations

/-! ## Compact engine (src/permutations/into_optimized_chunks.rs) -/

/-- Embeds `PERMUTATION_FIXED_LENGTH`. -/
def PERMUTATION_FIXED_LENGTH : Nat := 128

/-- Embeds `zeroed_fixed_array()`; `[usize; 128]` is modelled as a
`List Nat` of length 128. -/
def zeroed_fixed_array : List Nat :=
  List.replicate PERMUTATION_FIXED_LENGTH 0

/-- Embeds the local state of `compress_values`. -/
structure CompressState (T : Type) where
  value_to_index : List (T × Nat)
  i_th_distinct_value : Nat
  compressed_values : List Nat
  index_to_value : List (Nat × T)
deriving Repr, DecidableEq

/-- Embeds one iteration of the `for value in values.iter()` loop of
`compress_values`: a seen value bumps its count, an unseen value is
assigned the next sequential id with count 1. -/
def compressStep (s : CompressState T) (value : T) : CompressState T :=
  match s.value_to_index.lookup value with
  | some idx =>
    { s with
        compressed_values :=
          s.compressed_values.set idx (s.compressed_values.getD idx 0 + 1) }
  | none =>
    { value_to_index := s.value_to_index ++ [(value, s.i_th_distinct_value)]
      i_th_distinct_value := s.i_th_distinct_value + 1
      compressed_values := s.compressed_values.set s.i_th_distinct_value 1
      index_to_value := s.index_to_value ++ [(s.i_th_distinct_value, value)] }

/-- Embeds `compress_values` (src/permutations/into_optimized_chunks.rs):
returns the count array and the id→value translation table. -/
def compress_values (values : List T) : List Nat × List (Nat × T) :=
  let s := values.foldl compressStep ⟨[], 0, zeroed_fixed_array, []⟩
  (s.compressed_values, s.index_to_value)

/-- Embeds `OptimizedJob`. -/
structure OptimizedJob where
  compressed_values : List Nat
  compressed_permutation : List Nat
  permutation_length : Nat
deriving Repr, DecidableEq

/-- Embeds `OptimizedJob::new`. -/
def OptimizedJob.new (compressed_values : List Nat) : OptimizedJob :=
  { compressed_values := compressed_values
    compressed_permutation := zeroed_fixed_array
    permutation_length := 0 }

/-- Embeds `OptimizedJob::with_new_value`: decrement the frequency of the id
`value`, write it at position `permutation_length`, bump the length.  (The
source builds the child via `Self::new` and then overwrites the remaining two
fields; the net effect is this record.) -/
def OptimizedJob.with_new_value (j : OptimizedJob) (value : Nat) : OptimizedJob :=
  { compressed_values :=
      j.compressed_values.set value (j.compressed_values.getD value 0 - 1)
    compressed_permutation :=
      j.compressed_permutation.set j.permutation_length value
    permutation_length := j.permutation_length + 1 }

/-- Embeds `OptimizedJob::compute_next_jobs`: one child per id of positive
frequency, in increasing id order (`iter().enumerate()`). -/
def OptimizedJob.compute_next_jobs (j : OptimizedJob) : List OptimizedJob :=
  (j.compressed_values.enum.filter fun p => decide (0 < p.2)).map
    fun p => j.with_new_value p.1

/-- Embeds `OptimizedJob::is_ready`: the count array is all zeros. -/
def OptimizedJob.is_ready (j : OptimizedJob) : Bool :=
  j.compressed_values == zeroed_fixed_array

/-- Embeds `OptimizedJob::permutation`. -/
def OptimizedJob.permutation (j : OptimizedJob) : List Nat :=
  j.compressed_permutation

/-- Embeds `OptimizedChunk<T>`. -/
structure OptimizedChunk (T : Type) where
  permutations_compressed : List (List Nat)
  index_to_value : List (Nat × T)
  permutation_size : Nat
  size : Nat
deriving Repr, DecidableEq

/-- Embeds `IntoOptimizedChunks<T>`; the head of `job_queue` is the top of
the Rust `Vec` stack. -/
structure IntoOptimizedChunks (T : Type) where
  job_queue : List OptimizedJob
  size : Nat
  index_to_value : List (Nat × T)
  permutation_size : Nat
deriving Repr, DecidableEq

/-- Embeds `IntoOptimizedChunks::new`. -/
def IntoOptimizedChunks.new (values : List T) (size : Nat) :
    IntoOptimizedChunks T :=
  { job_queue := [OptimizedJob.new (compress_values values).1]
    size := size
    index_to_value := (compress_values values).2
    permutation_size := values.length }

/-- Exhausts a compact-engine iterator, collecting its chunks. -/
def IntoOptimizedChunks.run (s : IntoOptimizedChunks T) (fuel : Nat) :
    Option (List (OptimizedChunk T)) :=
  (runChunks OptimizedJob.compute_next_jobs OptimizedJob.is_ready
      OptimizedJob.permutation fuel s.job_queue s.size).map
    fun css => css.map fun ps =>
      { permutations_compressed := ps
        index_to_value := s.index_to_value
        permutation_size := s.permutation_size
        size := s.size }

/-- Decodes one stored compressed permutation of a chunk: its first
`permutation_size` ids translated through the table (`none` where Rust's
table indexing would panic on a missing id). -/
def decodePermutation (table : List (Nat × T)) (permutation_size : Nat)
    (arr : List Nat) : Option (List T) :=
  (arr.take permutation_size).mapM fun i => table.lookup i

/-! ## Checked array operations (safety of the compact engine)

Rust's `a[i] = v` panics when `i` is out of range and `a[i] -= 1` on a
`usize` is an error when `a[i] == 0` (debug builds panic, release builds
wrap).  The `Checked` variants return `none` exactly in those situations
and otherwise agree with the total models above. -/

/-- Checked indexed write: `none` where Rust's `a[i] = v` would panic. -/
def setChecked (l : List Nat) (i v : Nat) : Option (List Nat) :=
  if i < l.length then some (l.set i v) else none

/-- Checked `OptimizedJob::with_new_value`: `none` where the source would
panic on an out-of-range write or underflow the `usize` decrement. -/
def OptimizedJob.with_new_value_checked (j : OptimizedJob) (value : Nat) :
    Option OptimizedJob := do
  let c ← j.compressed_values.get? value
  if c = 0 then none
  else
    let frequencies ← setChecked j.compressed_values value (c - 1)
    let new_permutation ←
      setChecked j.compressed_permutation j.permutation_length value
    some { compressed_values := frequencies
           compressed_permutation := new_permutation
           permutation_length := j.permutation_length + 1 }

/-- Checked `compressStep`: `none` where the source's count-array writes
would panic. -/
def compressStepChecked (s : CompressState T) (value : T) :
    Option (CompressState T) :=
  match s.value_to_index.lookup value with
  | some idx => do
    let updated ←
      setChecked s.compressed_values idx (s.compressed_values.getD idx 0 + 1)
    some { s with compressed_values := updated }
  | none => do
    let updated ← setChecked s.compressed_values s.i_th_distinct_value 1
    some { value_to_index := s.value_to_index ++ [(value, s.i_th_distinct_value)]
           i_th_distinct_value := s.i_th_distinct_value + 1
           compressed_values := updated
           index_to_value := s.index_to_value ++ [(s.i_th_distinct_value, value)] }

/-- Checked `compress_values`. -/
def compress_values_checked (values : List T) :
    Option (List Nat × List (Nat × T)) := do
  let s ← values.foldlM compressStepChecked ⟨[], 0, zeroed_fixed_array, []⟩
  some (s.compressed_values, s.index_to_value)

/-! ## Constructors (src/permutations.rs) -/

/-- Embeds `Permutations<T>` (src/permutations.rs). -/
structure Permutations (T : Type) where
  values : List T
deriving Repr, DecidableEq

/-- Embeds `Permutations::new`. -/
def Permutations.new (values : List T) : Permutations T :=
  { values := values }

/-- Embeds `Permutations::length`. -/
def Permutations.length (p : Permutations T) : Nat :=
  p.values.length

/-- Embeds `Permutations::can_be_optimized`. -/
def Permutations.can_be_optimized (p : Permutations T) : Bool :=
  p.values.length ≤ PERMUTATION_FIXED_LENGTH

/-- Embeds `Permutations::into_chunks`: panics when `size == 0`. -/
def Permutations.into_chunks (p : Permutations T) (size : Nat) :
    Except Panic (IntoChunks T) :=
  if size = 0 then .error ⟨"Chunks size must be at least one"⟩
  else .ok (IntoChunks.new p.values size)

/-- Embeds `Permutations::into_optimized_chunks`: panics when `size == 0`
or when the input is longer than `PERMUTATION_FIXED_LENGTH`. -/
def Permutations.into_optimized_chunks (p : Permutations T) (size : Nat) :
    Except Panic (IntoOptimizedChunks T) :=
  if size = 0 then .error ⟨"Chunks size must be at least one"⟩
  else if !p.can_be_optimized then
    .error ⟨"Cannot use optimized_chunks: the permutation exceeds the maximum length 128"⟩
  else .ok (IntoOptimizedChunks.new p.values size)

/-! ## Rendering (the two `Display` implementations) -/

/-- Embeds the body of the `try_for_each` closure of
`<Chunk as Display>::fmt` on one permutation: the values before the last are
folded with a trailing comma each, then the last value is written by index
(`none` where Rust's `permutation[len - 1]` would panic on an empty
permutation), then a line terminator. -/
def displayLine (f : T → String) (p : List T) : Option String :=
  match p.get? (p.length - 1) with
  | none => none
  | some last =>
    some ((p.take (p.length - 1)).foldl (fun acc v => acc ++ f v ++ ",") ""
      ++ f last ++ "\n")

/-- Embeds `<Chunk as Display>::fmt`: the concatenation of the lines of the
stored permutations in insertion order; `f` stands for `T::to_string`. -/
def Chunk.display (f : T → String) (c : Chunk T) : Option String :=
  (c.permutations.mapM (displayLine f)).map String.join

/-- Embeds the body of the `try_for_each` closure of
`<OptimizedChunk as Display>::fmt` on one stored compressed permutation:
the first `permutation_size - 1` ids are folded with a trailing comma each,
each id translated through the table (`none` where Rust's map indexing
would panic on a missing id), then the id at `permutation_size - 1` is
translated and written, then a line terminator. -/
def displayLineOptimized (f : T → String) (table : List (Nat × T))
    (permutation_size : Nat) (arr : List Nat) : Option String := do
  let init_values ← (arr.take (permutation_size - 1)).mapM fun i => table.lookup i
  let last_id ← arr.get? (permutation_size - 1)
  let last ← table.lookup last_id
  some (init_values.foldl (fun acc v => acc ++ f v ++ ",") "" ++ f last ++ "\n")

/-- Embeds `<OptimizedChunk as Display>::fmt`. -/
def OptimizedChunk.display (f : T → String) (c : OptimizedChunk T) :
    Option String :=
  (c.permutations_compressed.mapM
      (displayLineOptimized f c.index_to_value c.permutation_size)).map
    String.join

/-! ## Semantic functions used by the specification statements -/

/-- Multiset denoted by a frequency association list. -/
def freqM (m : List (T × Nat)) : Multiset T :=
  (m.map fun p => Multiset.replicate p.2 p.1).sum

/-- Multiset denoted by a count array: id `i` with multiplicity `arr[i]`. -/
def arrM (arr : List Nat) : Multiset Nat :=
  freqM arr.enum

/-- All compressed permutations collected across a list of compact chunks. -/
def collectedOpt (cs : List (OptimizedChunk T)) : List (List Nat) :=
  cs.flatMap OptimizedChunk.permutations_compressed

/-- The distinct values of a list in first-occurrence order. -/
def distinctInOrder (values : List T) : List T :=
  values.foldl (fun acc v => if v ∈ acc then acc else acc ++ [v]) []

/-- The canonical count array after compressing `pre`: position `i` holds
the number of occurrences in `pre` of the `i`-th distinct value, positions
at or beyond the number of distinct values hold 0. -/
def countsArr (pre : List T) : List Nat :=
  (List.range PERMUTATION_FIXED_LENGTH).map fun i =>
    ((distinctInOrder pre).get? i).elim 0 fun v => pre.count v

/-- The canonical `compress_values` loop state after processing `pre`. -/
def canonState (pre : List T) : CompressState T :=
  { value_to_index := (distinctInOrder pre).enum.map fun p => (p.2, p.1)
    i_th_distinct_value := (distinctInOrder pre).length
    compressed_values := countsArr pre
    index_to_value := (distinctInOrder pre).enum }

/-- Joins a list of strings with a separator between consecutive elements. -/
def sepBy (sep : String) : List String → String
  | [] => ""
  | [x] => x
  | x :: y :: rest => x ++ sep ++ sepBy sep (y :: rest)

/-- The canonical line rendered for one permutation: the values joined by
the separator `,` and followed by a line terminator. -/
def specLine (f : T → String) (p : List T) : String :=
  sepBy "," (p.map f) ++ "\n"

/-- Multiset of permutations inside an optional yielded chunk content. -/
def optM (res : Option (List P)) : Multiset P :=
  match res with
  | none => 0
  | some c => ↑c

/-! ## Frontier invariants and reachability -/

/-- The output of the subtree rooted at one job, with explicit fuel: the
permutations that the iterator loop will extract from this job and its
descendants. -/
def jobOutFuel (step : J → List J) (ready : J → Bool) (out : J → P) :
    Nat → J → List P
  | 0, _ => []
  | fuel + 1, j =>
    match step j with
    | [] => []
    | first_job :: others =>
      if ready first_job then (first_job :: others).map out
      else (first_job :: others).flatMap (jobOutFuel step ready out fuel)

/-- The output of the subtree rooted at one job (`rank j + 1` is enough fuel
for every job satisfying the loop invariants). -/
def jobOut (step : J → List J) (ready : J → Bool) (out : J → P)
    (rank : J → Nat) (j : J) : List P :=
  jobOutFuel step ready out (rank j + 1) j

/-- The multiset of permutations still to be produced from a job queue. -/
def mOut (step : J → List J) (ready : J → Bool) (out : J → P)
    (rank : J → Nat) (queue : List J) : Multiset P :=
  (queue.map fun j => ((jobOut step ready out rank j : List P) : Multiset P)).sum

/-- Termination weight of one job. -/
def weight (rank : J → Nat) (j : J) : Nat :=
  (rank j + 1).factorial

/-- Termination weight of a job queue. -/
def weightQ (rank : J → Nat) (queue : List J) : Nat :=
  (queue.map (weight rank)).sum

/-- The abstract hypotheses on a job expansion under which the shared
iterator loop is conservative, terminating, and fills chunks one
permutation at a time.  `Inv` is the per-job invariant, `rank` the number
of values still to place. -/
structure LoopHyps (step : J → List J) (ready : J → Bool) (out : J → P)
    (Inv : J → Prop) (rank : J → Nat) : Prop where
  inv_step : ∀ j, Inv j → ∀ j' ∈ step j, Inv j'
  rank_step : ∀ j, Inv j → ∀ j' ∈ step j, rank j' < rank j
  card_step : ∀ j, Inv j → (step j).length ≤ rank j
  ready_single : ∀ j, Inv j → ∀ first_job others, step j = first_job :: others →
    ready first_job = true → others = []

/-- Invariant of the general engine's jobs: distinct keys, positive counts,
partial permutation plus remaining counts equal to the input multiset,
shared target length. -/
structure GInv (inputM : Multiset T) (N : Nat) (j : Job T) : Prop where
  nodupKeys : (j.values_with_positive_frequency.map Prod.fst).Nodup
  pos : ∀ p ∈ j.values_with_positive_frequency, 0 < p.2
  mass : (↑j.permutation : Multiset T) + freqM j.values_with_positive_frequency = inputM
  lenEq : j.permutation_length = N
  lenLe : j.permutation.length ≤ N

/-- Invariant of the compact engine's jobs: fixed 128-length arrays, partial
permutation ids plus remaining counts equal to the input id multiset,
all-zero suffix beyond the filled length. -/
structure OInv (idM : Multiset Nat) (N : Nat) (j : OptimizedJob) : Prop where
  cvLen : j.compressed_values.length = PERMUTATION_FIXED_LENGTH
  cpLen : j.compressed_permutation.length = PERMUTATION_FIXED_LENGTH
  plLe : j.permutation_length ≤ N
  nLe : N ≤ PERMUTATION_FIXED_LENGTH
  mass : (↑(j.compressed_permutation.take j.permutation_length) : Multiset Nat)
      + arrM j.compressed_values = idM
  suffixZero : j.compressed_permutation.drop j.permutation_length
      = List.replicate (PERMUTATION_FIXED_LENGTH - j.permutation_length) 0

/-- The jobs reachable in the general engine's frontier for a given input:
the root job and everything `compute_next_jobs` produces from a reachable
job. -/
inductive GReachable (values : List T) : Job T → Prop
  | root : GReachable values (Job.new (values_with_frequency values) values.length)
  | step : ∀ j j', GReachable values j → j' ∈ j.compute_next_jobs →
      GReachable values j'

/-- The jobs reachable in the compact engine's frontier for a given input. -/
inductive OReachable (values : List T) : OptimizedJob → Prop
  | root : OReachable values (OptimizedJob.new (compress_values values).1)
  | step : ∀ j j', OReachable values j → j' ∈ j.compute_next_jobs →
      OReachable values j'


/-! ## Association-list lemmas -/

theorem mem_listSum {l : List (Multiset T)} {a : T} :
    a ∈ l.sum ↔ ∃ s ∈ l, a ∈ s := by
  induction l with
  | nil => simp
  | cons s rest ih => simp [List.sum_cons, ih]

theorem freqM_nil : freqM ([] : List (T × Nat)) = 0 := rfl

theorem freqM_cons (k : T) (c : Nat) (m : List (T × Nat)) :
    freqM ((k, c) :: m) = Multiset.replicate c k + freqM m := rfl

theorem mem_freqM {m : List (T × Nat)} {a : T} :
    a ∈ freqM m ↔ ∃ p ∈ m, p.1 = a ∧ 0 < p.2 := by
  unfold freqM
  rw [mem_listSum]
  constructor
  · rintro ⟨s, hs, ha⟩
    obtain ⟨p, hp, rfl⟩ := List.mem_map.mp hs
    refine ⟨p, hp, (Multiset.eq_of_mem_replicate ha).symm, ?_⟩
    rcases Nat.eq_zero_or_pos p.2 with h0 | h0
    · simp [h0] at ha
    · exact h0
  · rintro ⟨p, hp, rfl, hpos⟩
    exact ⟨Multiset.replicate p.2 p.1, List.mem_map_of_mem _ hp,
      Multiset.mem_replicate.mpr ⟨Nat.pos_iff_ne_zero.mp hpos, rfl⟩⟩

theorem freqM_card (m : List (T × Nat)) :
    Multiset.card (freqM m) = (m.map Prod.snd).sum := by
  induction m with
  | nil => simp [freqM_nil]
  | cons p rest ih =>
    obtain ⟨k, c⟩ := p
    simp [freqM_cons, ih]

theorem length_le_sum {l : List Nat} (h : ∀ x ∈ l, 1 ≤ x) :
    l.length ≤ l.sum := by
  induction l with
  | nil => simp
  | cons x rest ih =>
    have hx := h x (List.mem_cons_self x rest)
    have := ih fun y hy => h y (List.mem_cons_of_mem x hy)
    simp only [List.length_cons, List.sum_cons]
    omega

theorem replicate_succ_add (k : T) (c : Nat) :
    Multiset.replicate (c + 1) k = Multiset.replicate c k + {k} := by
  rw [← Multiset.replicate_one, ← Multiset.replicate_add]

theorem freqM_incrEntry (m : List (T × Nat)) (v : T) :
    freqM (incrEntry m v) = freqM m + {v} := by
  induction m with
  | nil =>
    simp [incrEntry, freqM_cons, freqM_nil]
  | cons p rest ih =>
    obtain ⟨k, c⟩ := p
    by_cases h : k = v
    · subst h
      simp only [incrEntry, eq_self_iff_true, if_true, freqM_cons, replicate_succ_add]
      abel
    · simp only [incrEntry, if_neg h, freqM_cons, ih]
      abel

theorem keys_incrEntry (m : List (T × Nat)) (v : T) :
    (incrEntry m v).map Prod.fst =
      if v ∈ m.map Prod.fst then m.map Prod.fst else m.map Prod.fst ++ [v] := by
  induction m with
  | nil => simp [incrEntry]
  | cons p rest ih =>
    obtain ⟨k, c⟩ := p
    by_cases h : k = v
    · subst h
      simp [incrEntry]
    · simp only [incrEntry, if_neg h, List.map_cons, ih]
      by_cases hv : v ∈ rest.map Prod.fst
      · simp [hv, h, Ne.symm h]
      · simp [hv, h, Ne.symm h]

theorem pos_incrEntry (m : List (T × Nat)) (v : T)
    (hpos : ∀ p ∈ m, 0 < p.2) : ∀ p ∈ incrEntry m v, 0 < p.2 := by
  induction m with
  | nil =>
    intro p hp
    simp [incrEntry] at hp
    simp [hp]
  | cons q rest ih =>
    obtain ⟨k, c⟩ := q
    intro p hp
    by_cases h : k = v
    · subst h
      simp only [incrEntry, eq_self_iff_true, if_true] at hp
      rcases List.mem_cons.mp hp with rfl | hp
      · simp
      · exact hpos p (List.mem_cons_of_mem _ hp)
    · simp only [incrEntry, if_neg h] at hp
      rcases List.mem_cons.mp hp with rfl | hp
      · exact hpos _ (List.mem_cons_self _ _)
      · exact ih (fun q hq => hpos q (List.mem_cons_of_mem _ hq)) p hp

theorem freqM_values_with_frequency_aux (l : List T) (m : List (T × Nat)) :
    freqM (l.foldl incrEntry m) = freqM m + ↑l := by
  induction l generalizing m with
  | nil => simp
  | cons v rest ih =>
    simp only [List.foldl_cons, ih, freqM_incrEntry]
    have hl : (↑(v :: rest) : Multiset T) = {v} + ↑rest := by
      rw [← Multiset.cons_coe, ← Multiset.singleton_add]
    rw [hl]
    abel

theorem freqM_values_with_frequency (l : List T) :
    freqM (values_with_frequency l) = ↑l := by
  rw [values_with_frequency, freqM_values_with_frequency_aux]
  simp [freqM_nil]

theorem nodup_keys_values_with_frequency_aux (l : List T) (m : List (T × Nat))
    (h : (m.map Prod.fst).Nodup) :
    ((l.foldl incrEntry m).map Prod.fst).Nodup := by
  induction l generalizing m with
  | nil => exact h
  | cons v rest ih =>
    simp only [List.foldl_cons]
    refine ih _ ?_
    rw [keys_incrEntry]
    by_cases hv : v ∈ m.map Prod.fst
    · simpa [hv] using h
    · simp only [if_neg hv]
      simp [List.nodup_append, h, hv]

theorem nodup_keys_values_with_frequency (l : List T) :
    ((values_with_frequency l).map Prod.fst).Nodup :=
  nodup_keys_values_with_frequency_aux l [] (by simp)

theorem pos_values_with_frequency_aux (l : List T) (m : List (T × Nat))
    (h : ∀ p ∈ m, 0 < p.2) :
    ∀ p ∈ l.foldl incrEntry m, 0 < p.2 := by
  induction l generalizing m with
  | nil => exact h
  | cons v rest ih =>
    simp only [List.foldl_cons]
    exact ih _ (pos_incrEntry m v h)

theorem pos_values_with_frequency (l : List T) :
    ∀ p ∈ values_with_frequency l, 0 < p.2 :=
  pos_values_with_frequency_aux l [] (by simp)

theorem freqM_decrease (m : List (T × Nat)) (v : T)
    (hpos : ∀ p ∈ m, 0 < p.2) (hmem : v ∈ m.map Prod.fst) :
    freqM (decrease_or_remove_positive_frequency m v) + {v} = freqM m := by
  induction m with
  | nil => simp at hmem
  | cons p rest ih =>
    obtain ⟨k, c⟩ := p
    by_cases h : k = v
    · subst h
      by_cases hc : c = 1
      · subst hc
        simp only [decrease_or_remove_positive_frequency, eq_self_iff_true, if_true, freqM_cons]
        rw [add_comm, Multiset.replicate_one, Multiset.singleton_add]
      · have hcpos : 0 < c := hpos (k, c) (List.mem_cons_self _ _)
        simp only [decrease_or_remove_positive_frequency, eq_self_iff_true, if_true,
          if_neg hc, freqM_cons]
        have h2 : Multiset.replicate (c - 1) k + {k} = Multiset.replicate c k := by
          rw [← Multiset.replicate_one, ← Multiset.replicate_add]
          congr 1
          omega
        rw [← h2]
        abel
    · simp only [decrease_or_remove_positive_frequency, if_neg h, freqM_cons]
      have hmem' : v ∈ rest.map Prod.fst := by
        rcases List.mem_map.mp hmem with ⟨q, hq, hfst⟩
        rcases List.mem_cons.mp hq with rfl | hq
        · exact absurd hfst h
        · exact hfst ▸ List.mem_map_of_mem _ hq
      rw [add_assoc, ih (fun q hq => hpos q (List.mem_cons_of_mem _ hq)) hmem']

theorem keys_decrease_sublist (m : List (T × Nat)) (v : T) :
    ((decrease_or_remove_positive_frequency m v).map Prod.fst).Sublist
      (m.map Prod.fst) := by
  induction m with
  | nil => simp [decrease_or_remove_positive_frequency]
  | cons p rest ih =>
    obtain ⟨k, c⟩ := p
    by_cases h : k = v
    · subst h
      by_cases hc : c = 1
      · simp only [decrease_or_remove_positive_frequency, eq_self_iff_true, if_true,
          if_pos hc, List.map_cons]
        exact (List.Sublist.refl _).cons _
      · simp [decrease_or_remove_positive_frequency, hc]
    · simp only [decrease_or_remove_positive_frequency, if_neg h, List.map_cons]
      exact ih.cons₂ _

theorem pos_decrease (m : List (T × Nat)) (v : T)
    (hpos : ∀ p ∈ m, 0 < p.2) :
    ∀ p ∈ decrease_or_remove_positive_frequency m v, 0 < p.2 := by
  induction m with
  | nil => simp [decrease_or_remove_positive_frequency]
  | cons q rest ih =>
    obtain ⟨k, c⟩ := q
    intro p hp
    by_cases h : k = v
    · subst h
      by_cases hc : c = 1
      · simp only [decrease_or_remove_positive_frequency, eq_self_iff_true, if_true, if_pos hc] at hp
        exact hpos p (List.mem_cons_of_mem _ hp)
      · have hcpos : 0 < c := hpos (k, c) (List.mem_cons_self _ _)
        simp only [decrease_or_remove_positive_frequency, eq_self_iff_true, if_true, if_neg hc] at hp
        rcases List.mem_cons.mp hp with rfl | hp
        · show 0 < c - 1
          omega
        · exact hpos p (List.mem_cons_of_mem _ hp)
    · simp only [decrease_or_remove_positive_frequency, if_neg h] at hp
      rcases List.mem_cons.mp hp with rfl | hp
      · exact hpos _ (List.mem_cons_self _ _)
      · exact ih (fun q hq => hpos q (List.mem_cons_of_mem _ hq)) p hp

theorem freqM_filter_pos (m : List (T × Nat)) :
    freqM (m.filter fun p => decide (0 < p.2)) = freqM m := by
  induction m with
  | nil => rfl
  | cons p rest ih =>
    obtain ⟨k, c⟩ := p
    by_cases hc : 0 < c
    · simp [List.filter_cons, hc, freqM_cons, ih]
    · have hc0 : c = 0 := by omega
      subst hc0
      simp [List.filter_cons, freqM_cons, ih]



/-! ## Generic loop lemmas -/

theorem coe_flatten {L : List (List P)} :
    (↑L.flatten : Multiset P) = (L.map fun l => (↑l : Multiset P)).sum := by
  induction L with
  | nil => simp
  | cons l rest ih => simp [← Multiset.coe_add, ih]

theorem coe_flatMap (f : J → List P) (l : List J) :
    (↑(l.flatMap f) : Multiset P) = (l.map fun j => (↑(f j) : Multiset P)).sum := by
  induction l with
  | nil => simp
  | cons j rest ih => simp [List.flatMap_cons, ← Multiset.coe_add, ih]

theorem optM_none : optM (none : Option (List P)) = 0 := rfl

theorem optM_some (c : List P) : optM (some c) = ↑c := rfl

theorem mOut_nil (step : J → List J) (ready : J → Bool) (out : J → P)
    (rank : J → Nat) : mOut step ready out rank [] = 0 := rfl

theorem mOut_cons (step : J → List J) (ready : J → Bool) (out : J → P)
    (rank : J → Nat) (j : J) (queue : List J) :
    mOut step ready out rank (j :: queue)
      = ↑(jobOut step ready out rank j) + mOut step ready out rank queue := by
  simp [mOut]

theorem mOut_append (step : J → List J) (ready : J → Bool) (out : J → P)
    (rank : J → Nat) (q₁ q₂ : List J) :
    mOut step ready out rank (q₁ ++ q₂)
      = mOut step ready out rank q₁ + mOut step ready out rank q₂ := by
  simp [mOut]

theorem mOut_reverse (step : J → List J) (ready : J → Bool) (out : J → P)
    (rank : J → Nat) (q : List J) :
    mOut step ready out rank q.reverse = mOut step ready out rank q := by
  induction q with
  | nil => rfl
  | cons j rest ih =>
    simp [List.reverse_cons, mOut_append, mOut_cons, ih, mOut_nil]
    abel

theorem weightQ_nil (rank : J → Nat) : weightQ rank [] = 0 := rfl

theorem weightQ_cons (rank : J → Nat) (j : J) (queue : List J) :
    weightQ rank (j :: queue) = weight rank j + weightQ rank queue := by
  simp [weightQ]

theorem weightQ_append (rank : J → Nat) (q₁ q₂ : List J) :
    weightQ rank (q₁ ++ q₂) = weightQ rank q₁ + weightQ rank q₂ := by
  simp [weightQ]

theorem weightQ_reverse (rank : J → Nat) (q : List J) :
    weightQ rank q.reverse = weightQ rank q := by
  simp [weightQ, List.sum_reverse]

theorem weight_pos (rank : J → Nat) (j : J) : 0 < weight rank j :=
  Nat.factorial_pos _

theorem jobOutFuel_succ_eq (step : J → List J) (ready : J → Bool) (out : J → P)
    (fuel : Nat) (j : J) :
    jobOutFuel step ready out (fuel + 1) j =
      match step j with
      | [] => []
      | first_job :: others =>
        if ready first_job then (first_job :: others).map out
        else (first_job :: others).flatMap (jobOutFuel step ready out fuel) := rfl

theorem jobOutFuel_stable {step : J → List J} {ready : J → Bool} {out : J → P}
    {Inv : J → Prop} {rank : J → Nat}
    (H : LoopHyps step ready out Inv rank) :
    ∀ n j, rank j ≤ n → Inv j → ∀ f₁ f₂, rank j < f₁ → rank j < f₂ →
      jobOutFuel step ready out f₁ j = jobOutFuel step ready out f₂ j := by
  intro n
  induction n with
  | zero =>
    intro j hle hInv f₁ f₂ h₁ h₂
    obtain ⟨a, rfl⟩ : ∃ a, f₁ = a + 1 := ⟨f₁ - 1, by omega⟩
    obtain ⟨b, rfl⟩ : ∃ b, f₂ = b + 1 := ⟨f₂ - 1, by omega⟩
    have hnil : step j = [] := by
      have := H.card_step j hInv
      have hr : rank j = 0 := by omega
      rw [hr] at this
      exact List.length_eq_zero.mp (Nat.le_zero.mp this)
    rw [jobOutFuel_succ_eq, jobOutFuel_succ_eq, hnil]
  | succ n ih =>
    intro j hle hInv f₁ f₂ h₁ h₂
    obtain ⟨a, rfl⟩ : ∃ a, f₁ = a + 1 := ⟨f₁ - 1, by omega⟩
    obtain ⟨b, rfl⟩ : ∃ b, f₂ = b + 1 := ⟨f₂ - 1, by omega⟩
    rw [jobOutFuel_succ_eq, jobOutFuel_succ_eq]
    cases hstep : step j with
    | nil => rfl
    | cons fj os =>
      by_cases hready : ready fj
      · dsimp only
        rw [if_pos hready, if_pos hready]
      · dsimp only
        rw [if_neg hready, if_neg hready]
        have hchild : ∀ c ∈ fj :: os,
            jobOutFuel step ready out a c = jobOutFuel step ready out b c := by
          intro c hc
          have hc' : c ∈ step j := by rw [hstep]; exact hc
          have hInvc := H.inv_step j hInv c hc'
          have hrc := H.rank_step j hInv c hc'
          exact ih c (by omega) hInvc a b (by omega) (by omega)
        simp only [List.flatMap_def]
        exact congrArg List.flatten (List.map_congr_left hchild)

theorem nextLoop_zero (step : J → List J) (ready : J → Bool) (out : J → P)
    (queue : List J) (acc : List P) (size : Nat) :
    nextLoop step ready out 0 queue acc size = none := rfl

theorem nextLoop_succ_nil (step : J → List J) (ready : J → Bool) (out : J → P)
    (f : Nat) (acc : List P) (size : Nat) :
    nextLoop step ready out (f + 1) [] acc size
      = some (if acc.isEmpty then none else some acc, []) := rfl

theorem nextLoop_cons_eq (step : J → List J) (ready : J → Bool) (out : J → P)
    (f : Nat) (job : J) (rest : List J) (acc : List P) (size : Nat) :
    nextLoop step ready out (f + 1) (job :: rest) acc size =
      match step job with
      | [] => nextLoop step ready out f rest acc size
      | first_job :: others =>
        if ready first_job then
          let acc' := acc ++ (first_job :: others).map out
          if acc'.length == size then some (some acc', rest)
          else nextLoop step ready out f rest acc' size
        else nextLoop step ready out f ((first_job :: others).reverse ++ rest) acc size
    := rfl

theorem nextLoop_cons_nil {step : J → List J} (ready : J → Bool) (out : J → P)
    {job : J} (hstep : step job = []) (f : Nat) (rest : List J) (acc : List P)
    (size : Nat) :
    nextLoop step ready out (f + 1) (job :: rest) acc size =
      nextLoop step ready out f rest acc size := by
  rw [nextLoop_cons_eq, hstep]

theorem nextLoop_cons_ready {step : J → List J} {ready : J → Bool} (out : J → P)
    {job fj : J} {os : List J} (hstep : step job = fj :: os)
    (hready : ready fj = true) (f : Nat) (rest : List J) (acc : List P)
    (size : Nat) :
    nextLoop step ready out (f + 1) (job :: rest) acc size =
      (if (acc ++ (fj :: os).map out).length == size
        then some (some (acc ++ (fj :: os).map out), rest)
        else nextLoop step ready out f rest (acc ++ (fj :: os).map out) size) := by
  rw [nextLoop_cons_eq, hstep]
  dsimp only
  rw [if_pos hready]

theorem nextLoop_cons_not_ready {step : J → List J} {ready : J → Bool}
    (out : J → P) {job fj : J} {os : List J} (hstep : step job = fj :: os)
    (hready : ready fj = false) (f : Nat) (rest : List J) (acc : List P)
    (size : Nat) :
    nextLoop step ready out (f + 1) (job :: rest) acc size =
      nextLoop step ready out f ((fj :: os).reverse ++ rest) acc size := by
  rw [nextLoop_cons_eq, hstep]
  dsimp only
  rw [if_neg (by simp [hready])]

theorem jobOut_of_step_nil {step : J → List J} (ready : J → Bool) (out : J → P)
    (rank : J → Nat) {j : J} (h : step j = []) :
    jobOut step ready out rank j = [] := by
  unfold jobOut
  rw [jobOutFuel_succ_eq, h]

theorem jobOut_of_ready {step : J → List J} {ready : J → Bool} (out : J → P)
    (rank : J → Nat) {j fj : J} {os : List J} (h : step j = fj :: os)
    (hr : ready fj = true) :
    jobOut step ready out rank j = (fj :: os).map out := by
  unfold jobOut
  rw [jobOutFuel_succ_eq, h]
  dsimp only
  rw [if_pos hr]

theorem jobOut_of_not_ready {step : J → List J} {ready : J → Bool} {out : J → P}
    {Inv : J → Prop} {rank : J → Nat} (H : LoopHyps step ready out Inv rank)
    {j fj : J} {os : List J} (hInv : Inv j) (h : step j = fj :: os)
    (hr : ready fj = false) :
    jobOut step ready out rank j
      = (fj :: os).flatMap (jobOut step ready out rank) := by
  unfold jobOut
  rw [jobOutFuel_succ_eq, h]
  dsimp only
  rw [if_neg (by simp [hr])]
  simp only [List.flatMap_def]
  congr 1
  apply List.map_congr_left
  intro c hc
  have hc' : c ∈ step j := h ▸ hc
  have hInvc := H.inv_step j hInv c hc'
  have hrc := H.rank_step j hInv c hc'
  exact jobOutFuel_stable H (rank c) c le_rfl hInvc (rank j) (rank c + 1)
    (by omega) (by omega)

theorem weight_step_lt {step : J → List J} {ready : J → Bool} {out : J → P}
    {Inv : J → Prop} {rank : J → Nat} (H : LoopHyps step ready out Inv rank)
    (j : J) (hInv : Inv j) :
    ((step j).map (weight rank)).sum < weight rank j := by
  have hbound : ∀ x ∈ (step j).map (weight rank), x ≤ (rank j).factorial := by
    intro x hx
    obtain ⟨c, hc, rfl⟩ := List.mem_map.mp hx
    have hrc := H.rank_step j hInv c hc
    exact Nat.factorial_le (by omega)
  have hsum := List.sum_le_card_nsmul _ _ hbound
  have hlen : ((step j).map (weight rank)).length ≤ rank j := by
    simpa using H.card_step j hInv
  have h1 : ((step j).map (weight rank)).sum ≤ rank j * (rank j).factorial := by
    calc ((step j).map (weight rank)).sum
        ≤ ((step j).map (weight rank)).length * (rank j).factorial := by
          simpa [smul_eq_mul] using hsum
      _ ≤ rank j * (rank j).factorial := Nat.mul_le_mul_right _ hlen
  have h2 : rank j * (rank j).factorial < (rank j + 1) * (rank j).factorial := by
    have := Nat.factorial_pos (rank j)
    have hlt : rank j < rank j + 1 := Nat.lt_succ_self _
    exact Nat.mul_lt_mul_of_lt_of_le hlt (le_refl _) this
  calc ((step j).map (weight rank)).sum
      ≤ rank j * (rank j).factorial := h1
    _ < (rank j + 1) * (rank j).factorial := h2
    _ = weight rank j := by rw [weight, Nat.factorial_succ]

theorem nextLoop_spec {step : J → List J} {ready : J → Bool} {out : J → P}
    {Inv : J → Prop} {rank : J → Nat} (H : LoopHyps step ready out Inv rank) :
    ∀ fuel (queue : List J) (acc : List P) (size : Nat) res q',
      (∀ j ∈ queue, Inv j) → acc.length < size →
      nextLoop step ready out fuel queue acc size = some (res, q') →
      (∀ j ∈ q', Inv j) ∧
      optM res + mOut step ready out rank q'
        = ↑acc + mOut step ready out rank queue ∧
      weightQ rank q' ≤ weightQ rank queue ∧
      (res = none → q' = []) ∧
      (∀ c, res = some c → 1 ≤ c.length ∧ c.length ≤ size ∧
        (c.length = size ∨ q' = []) ∧
        (c.length = size → weightQ rank q' < weightQ rank queue)) := by
  intro fuel
  induction fuel with
  | zero =>
    intro queue acc size res q' hInv hacc h
    rw [nextLoop_zero] at h
    exact absurd h (by simp)
  | succ fuel ih =>
    intro queue acc size res q' hInv hacc h
    cases queue with
    | nil =>
      rw [nextLoop_succ_nil] at h
      simp only [Option.some.injEq, Prod.mk.injEq] at h
      obtain ⟨hres, hq⟩ := h
      subst hres
      subst hq
      by_cases hemp : acc.isEmpty
      · have hacc0 : acc = [] := List.isEmpty_iff.mp hemp
        subst hacc0
        refine ⟨by simp, ?_, le_refl _, fun _ => rfl, ?_⟩
        · simp [optM, mOut_nil]
        · intro c hc
          simp at hc
      · rw [if_neg hemp]
        have hlen : 0 < acc.length := by
          cases acc with
          | nil => simp at hemp
          | cons a l => simp
        refine ⟨by simp, by simp [optM_some, mOut_nil], le_refl _,
          fun hcon => by simp at hcon, ?_⟩
        intro c hc
        simp only [Option.some.injEq] at hc
        subst hc
        exact ⟨hlen, Nat.le_of_lt hacc, Or.inr rfl, fun hsz => absurd hsz (by omega)⟩
    | cons job rest =>
      have hInvJob : Inv job := hInv job (List.mem_cons_self _ _)
      have hInvRest : ∀ j ∈ rest, Inv j := fun j hj => hInv j (List.mem_cons_of_mem _ hj)
      cases hstep : step job with
      | nil =>
        rw [nextLoop_cons_nil ready out hstep] at h
        obtain ⟨h1, h2, h3, h4, h5⟩ := ih rest acc size res q' hInvRest hacc h
        have hjz : jobOut step ready out rank job = [] :=
          jobOut_of_step_nil ready out rank hstep
        refine ⟨h1, ?_, ?_, h4, ?_⟩
        · rw [h2, mOut_cons, hjz]
          simp
        · rw [weightQ_cons]
          omega
        · intro c hc
          obtain ⟨g1, g2, g3, g4⟩ := h5 c hc
          refine ⟨g1, g2, g3, fun hsz => ?_⟩
          have := g4 hsz
          rw [weightQ_cons]
          omega
      | cons fj os =>
        by_cases hready : ready fj
        · -- the children are complete: their permutations are appended
          have hos : os = [] := H.ready_single job hInvJob fj os hstep hready
          subst hos
          rw [nextLoop_cons_ready out hstep hready] at h
          have hjr : jobOut step ready out rank job = [out fj] :=
            jobOut_of_ready out rank hstep hready
          have hcoe : (↑(acc ++ [out fj]) : Multiset P) = ↑acc + ↑([out fj]) := by
            rw [Multiset.coe_add]
          by_cases hfull : (acc ++ [fj].map out).length == size
          · rw [if_pos hfull] at h
            simp only [Option.some.injEq, Prod.mk.injEq] at h
            obtain ⟨hres, hq⟩ := h
            subst hres
            subst hq
            have hsz : (acc ++ [out fj]).length = size := by
              simpa using hfull
            refine ⟨hInvRest, ?_, ?_, fun hcon => by simp at hcon, ?_⟩
            · rw [optM_some, mOut_cons, hjr]
              simp only [List.map_cons, List.map_nil] at hcoe ⊢
              rw [hcoe]
              abel
            · rw [weightQ_cons]
              omega
            · intro c hc
              simp only [Option.some.injEq] at hc
              subst hc
              simp only [List.map_cons, List.map_nil]
              refine ⟨by simp, by omega, Or.inl hsz, fun _ => ?_⟩
              rw [weightQ_cons]
              have := weight_pos rank job
              omega
          · rw [if_neg hfull] at h
            simp only [beq_iff_eq] at hfull
            have hacc' : (acc ++ [fj].map out).length < size := by
              simp only [List.map_cons, List.map_nil, List.length_append,
                List.length_cons, List.length_nil] at hfull hacc ⊢
              omega
            obtain ⟨h1, h2, h3, h4, h5⟩ := ih rest _ size res q' hInvRest hacc' h
            refine ⟨h1, ?_, ?_, h4, ?_⟩
            · rw [h2, mOut_cons, hjr]
              simp only [List.map_cons, List.map_nil] at hcoe ⊢
              rw [hcoe]
              abel
            · rw [weightQ_cons]
              omega
            · intro c hc
              obtain ⟨g1, g2, g3, g4⟩ := h5 c hc
              refine ⟨g1, g2, g3, fun hsz => ?_⟩
              have := g4 hsz
              rw [weightQ_cons]
              omega
        · -- the children are pushed back on the stack
          have hreadyF : ready fj = false := by
            cases hr : ready fj
            · rfl
            · exact absurd hr hready
          rw [nextLoop_cons_not_ready out hstep hreadyF] at h
          have hInvQ : ∀ j ∈ (fj :: os).reverse ++ rest, Inv j := by
            intro j hj
            rcases List.mem_append.mp hj with hj | hj
            · exact H.inv_step job hInvJob j (hstep ▸ List.mem_reverse.mp hj)
            · exact hInvRest j hj
          obtain ⟨h1, h2, h3, h4, h5⟩ := ih _ acc size res q' hInvQ hacc h
          have hjout : jobOut step ready out rank job
              = (fj :: os).flatMap (jobOut step ready out rank) :=
            jobOut_of_not_ready H hInvJob hstep hreadyF
          have hmout : mOut step ready out rank ((fj :: os).reverse ++ rest)
              = mOut step ready out rank (job :: rest) := by
            rw [mOut_append, mOut_reverse, mOut_cons step ready out rank job rest, hjout]
            congr 1
            rw [coe_flatMap]
            rfl
          have hwq : weightQ rank ((fj :: os).reverse ++ rest)
              < weightQ rank (job :: rest) := by
            rw [weightQ_append, weightQ_reverse, weightQ_cons rank job rest]
            have := weight_step_lt H job hInvJob
            rw [hstep] at this
            have hx : weightQ rank (fj :: os) = ((fj :: os).map (weight rank)).sum := rfl
            omega
          refine ⟨h1, by rw [h2, hmout], le_trans h3 (le_of_lt hwq), h4, ?_⟩
          intro c hc
          obtain ⟨g1, g2, g3, g4⟩ := h5 c hc
          exact ⟨g1, g2, g3, fun hsz => lt_of_le_of_lt h3 hwq⟩

theorem nextLoop_mono {step : J → List J} {ready : J → Bool} {out : J → P} :
    ∀ f f' (queue : List J) (acc : List P) (size : Nat) r,
      nextLoop step ready out f queue acc size = some r → f ≤ f' →
      nextLoop step ready out f' queue acc size = some r := by
  intro f
  induction f with
  | zero =>
    intro f' queue acc size r h
    rw [nextLoop_zero] at h
    exact absurd h (by simp)
  | succ f ihf =>
    intro f' queue acc size r h hle
    obtain ⟨f'', rfl⟩ : ∃ f'', f' = f'' + 1 := ⟨f' - 1, by omega⟩
    have hle' : f ≤ f'' := by omega
    cases queue with
    | nil =>
      rw [nextLoop_succ_nil] at h ⊢
      exact h
    | cons job rest =>
      cases hstep : step job with
      | nil =>
        rw [nextLoop_cons_nil ready out hstep] at h ⊢
        exact ihf f'' rest acc size r h hle'
      | cons fj os =>
        by_cases hready : ready fj
        · rw [nextLoop_cons_ready out hstep hready] at h ⊢
          by_cases hfull : (acc ++ (fj :: os).map out).length == size
          · rw [if_pos hfull] at h ⊢
            exact h
          · rw [if_neg hfull] at h ⊢
            exact ihf f'' rest _ size r h hle'
        · have hreadyF : ready fj = false := by
            cases hr : ready fj
            · rfl
            · exact absurd hr hready
          rw [nextLoop_cons_not_ready out hstep hreadyF] at h ⊢
          exact ihf f'' _ acc size r h hle'

theorem runChunks_zero (step : J → List J) (ready : J → Bool) (out : J → P)
    (queue : List J) (size : Nat) :
    runChunks step ready out 0 queue size = none := rfl

theorem runChunks_succ (step : J → List J) (ready : J → Bool) (out : J → P)
    (f : Nat) (queue : List J) (size : Nat) :
    runChunks step ready out (f + 1) queue size =
      match nextLoop step ready out (f + 1) queue [] size with
      | none => none
      | some (none, _) => some []
      | some (some c, queue') =>
        match runChunks step ready out f queue' size with
        | none => none
        | some cs => some (c :: cs)
    := rfl

theorem runChunks_nil_queue {step : J → List J} {ready : J → Bool} {out : J → P} :
    ∀ f (size : Nat) css, runChunks step ready out f [] size = some css →
      css = [] := by
  intro f size css h
  cases f with
  | zero =>
    rw [runChunks_zero] at h
    exact absurd h (by simp)
  | succ f =>
    rw [runChunks_succ, nextLoop_succ_nil] at h
    simp at h
    exact h

theorem runChunks_nil_some (step : J → List J) (ready : J → Bool) (out : J → P)
    (f : Nat) (size : Nat) :
    runChunks step ready out (f + 1) [] size = some [] := by
  rw [runChunks_succ, nextLoop_succ_nil]
  simp

theorem runChunks_spec {step : J → List J} {ready : J → Bool} {out : J → P}
    {Inv : J → Prop} {rank : J → Nat} (H : LoopHyps step ready out Inv rank) :
    ∀ fuel (queue : List J) (size : Nat) css,
      (∀ j ∈ queue, Inv j) → 0 < size →
      runChunks step ready out fuel queue size = some css →
      (↑css.flatten : Multiset P) = mOut step ready out rank queue ∧
      (∀ c ∈ css, 1 ≤ c.length ∧ c.length ≤ size) ∧
      (∀ c ∈ css.dropLast, c.length = size) := by
  intro fuel
  induction fuel with
  | zero =>
    intro queue size css hInv hsz h
    rw [runChunks_zero] at h
    exact absurd h (by simp)
  | succ fuel ih =>
    intro queue size css hInv hsz h
    rw [runChunks_succ] at h
    cases hnl : nextLoop step ready out (fuel + 1) queue [] size with
    | none =>
      rw [hnl] at h
      exact absurd h (by simp)
    | some r =>
      obtain ⟨res, q'⟩ := r
      rw [hnl] at h
      obtain ⟨s1, s2, s3, s4, s5⟩ :=
        nextLoop_spec H (fuel + 1) queue [] size res q' hInv (by simpa using hsz) hnl
      cases res with
      | none =>
        simp only [Option.some.injEq] at h
        subst h
        have hq : q' = [] := s4 rfl
        subst hq
        rw [optM_none, mOut_nil] at s2
        refine ⟨?_, by simp, by simp⟩
        simp only [List.flatten_nil]
        have hq0 : mOut step ready out rank queue = 0 := by
          simpa using s2.symm
        simp [hq0]
      | some c =>
        dsimp only at h
        cases hrc : runChunks step ready out fuel q' size with
        | none =>
          rw [hrc] at h
          exact absurd h (by simp)
        | some cs' =>
          rw [hrc] at h
          simp only [Option.some.injEq] at h
          subst h
          obtain ⟨i1, i2, i3⟩ := ih q' size cs' s1 hsz hrc
          obtain ⟨g1, g2, g3, _⟩ := s5 c rfl
          refine ⟨?_, ?_, ?_⟩
          · rw [optM_some] at s2
            have s2' : (↑c : Multiset P) + mOut step ready out rank q'
                = mOut step ready out rank queue := by
              simpa using s2
            rw [List.flatten_cons, ← Multiset.coe_add, i1]
            exact s2'
          · intro d hd
            rcases List.mem_cons.mp hd with rfl | hd
            · exact ⟨g1, g2⟩
            · exact i2 d hd
          · intro d hd
            cases hcs : cs' with
            | nil =>
              subst hcs
              simp at hd
            | cons e es =>
              subst hcs
              rw [List.dropLast_cons_of_ne_nil (by simp)] at hd
              rcases List.mem_cons.mp hd with rfl | hd
              · rcases g3 with hlen | hq
                · exact hlen
                · subst hq
                  exact absurd (runChunks_nil_queue fuel size _ hrc) (by simp)
              · exact i3 d hd

theorem nextLoop_total {step : J → List J} {ready : J → Bool} {out : J → P}
    {Inv : J → Prop} {rank : J → Nat} (H : LoopHyps step ready out Inv rank) :
    ∀ W (queue : List J) (acc : List P) (size : Nat),
      (∀ j ∈ queue, Inv j) → weightQ rank queue ≤ W →
      ∃ r, nextLoop step ready out (W + 1) queue acc size = some r := by
  intro W
  induction W with
  | zero =>
    intro queue acc size hInv hW
    cases queue with
    | nil => exact ⟨_, nextLoop_succ_nil step ready out 0 acc size⟩
    | cons job rest =>
      rw [weightQ_cons] at hW
      have := weight_pos rank job
      omega
  | succ W ih =>
    intro queue acc size hInv hW
    cases queue with
    | nil => exact ⟨_, nextLoop_succ_nil step ready out (W + 1) acc size⟩
    | cons job rest =>
      have hInvJob : Inv job := hInv job (List.mem_cons_self _ _)
      have hInvRest : ∀ j ∈ rest, Inv j := fun j hj => hInv j (List.mem_cons_of_mem _ hj)
      rw [weightQ_cons] at hW
      have hwj := weight_pos rank job
      cases hstep : step job with
      | nil =>
        rw [nextLoop_cons_nil ready out hstep]
        exact ih rest acc size hInvRest (by omega)
      | cons fj os =>
        by_cases hready : ready fj
        · rw [nextLoop_cons_ready out hstep hready]
          by_cases hfull : (acc ++ (fj :: os).map out).length == size
          · rw [if_pos hfull]
            exact ⟨_, rfl⟩
          · rw [if_neg hfull]
            exact ih rest _ size hInvRest (by omega)
        · have hreadyF : ready fj = false := by
            cases hr : ready fj
            · rfl
            · exact absurd hr hready
          rw [nextLoop_cons_not_ready out hstep hreadyF]
          have hInvQ : ∀ j ∈ (fj :: os).reverse ++ rest, Inv j := by
            intro j hj
            rcases List.mem_append.mp hj with hj | hj
            · exact H.inv_step job hInvJob j (hstep ▸ List.mem_reverse.mp hj)
            · exact hInvRest j hj
          have hwlt := weight_step_lt H job hInvJob
          rw [hstep] at hwlt
          have hwq : weightQ rank ((fj :: os).reverse ++ rest) ≤ W := by
            rw [weightQ_append, weightQ_reverse]
            have hx : weightQ rank (fj :: os) = ((fj :: os).map (weight rank)).sum := rfl
            omega
          exact ih _ acc size hInvQ hwq

theorem runChunks_total {step : J → List J} {ready : J → Bool} {out : J → P}
    {Inv : J → Prop} {rank : J → Nat} (H : LoopHyps step ready out Inv rank) :
    ∀ W (queue : List J) (size : Nat),
      (∀ j ∈ queue, Inv j) → 0 < size → weightQ rank queue ≤ W →
      ∃ css, runChunks step ready out (W + 2) queue size = some css := by
  intro W
  induction W with
  | zero =>
    intro queue size hInv hsz hW
    cases queue with
    | nil => exact ⟨[], runChunks_nil_some step ready out 1 size⟩
    | cons job rest =>
      rw [weightQ_cons] at hW
      have := weight_pos rank job
      omega
  | succ W ih =>
    intro queue size hInv hsz hW
    obtain ⟨⟨res, q'⟩, hnl⟩ :=
      nextLoop_total H (W + 1) queue [] size hInv (by omega)
    have hnl' : nextLoop step ready out (W + 2 + 1) queue [] size = some (res, q') :=
      nextLoop_mono (W + 1 + 1) (W + 2 + 1) queue [] size _ hnl (by omega)
    obtain ⟨s1, s2, s3, s4, s5⟩ :=
      nextLoop_spec H (W + 2) queue [] size res q' hInv (by simpa using hsz) hnl
    rw [show W + 1 + 2 = W + 2 + 1 from rfl, runChunks_succ, hnl']
    cases res with
    | none => exact ⟨[], rfl⟩
    | some c =>
      obtain ⟨g1, g2, g3, g4⟩ := s5 c rfl
      dsimp only
      rcases g3 with hlen | hq
      · have hlt := g4 hlen
        obtain ⟨css, hcss⟩ := ih q' size s1 hsz (by omega)
        rw [hcss]
        exact ⟨c :: css, rfl⟩
      · subst hq
        rw [runChunks_nil_some step ready out (W + 1) size]
        exact ⟨[c], rfl⟩

theorem runChunks_mono {step : J → List J} {ready : J → Bool} {out : J → P} :
    ∀ f f' (queue : List J) (size : Nat) css,
      runChunks step ready out f queue size = some css → f ≤ f' →
      runChunks step ready out f' queue size = some css := by
  intro f
  induction f with
  | zero =>
    intro f' queue size css h
    rw [runChunks_zero] at h
    exact absurd h (by simp)
  | succ f ihf =>
    intro f' queue size css h hle
    obtain ⟨f'', rfl⟩ : ∃ f'', f' = f'' + 1 := ⟨f' - 1, by omega⟩
    rw [runChunks_succ] at h ⊢
    cases hnl : nextLoop step ready out (f + 1) queue [] size with
    | none =>
      rw [hnl] at h
      exact absurd h (by simp)
    | some r =>
      rw [hnl] at h
      have hnl' := nextLoop_mono (f + 1) (f'' + 1) queue [] size r hnl (by omega)
      rw [hnl']
      obtain ⟨res, q'⟩ := r
      cases res with
      | none => exact h
      | some c =>
        dsimp only at h ⊢
        cases hrc : runChunks step ready out f q' size with
        | none =>
          rw [hrc] at h
          exact absurd h (by simp)
        | some cs' =>
          rw [hrc] at h
          rw [ihf f'' q' size cs' hrc (by omega)]
          exact h

/-! ## General-engine instantiation -/

theorem GInv.len_add_card {inputM : Multiset T} {N : Nat} {j : Job T}
    (hInv : GInv inputM N j) (hcard : Multiset.card inputM = N) :
    j.permutation.length
      + Multiset.card (freqM j.values_with_positive_frequency) = N := by
  have h := congrArg Multiset.card hInv.mass
  simpa [Multiset.coe_card, hcard] using h

theorem GInv.with_new_value {inputM : Multiset T} {N : Nat} {j : Job T}
    (hInv : GInv inputM N j) (hcard : Multiset.card inputM = N)
    {p : T × Nat} (hp : p ∈ j.values_with_positive_frequency) :
    GInv inputM N (j.with_new_value p.1) := by
  have hkey : p.1 ∈ j.values_with_positive_frequency.map Prod.fst :=
    List.mem_map_of_mem _ hp
  have hdec := freqM_decrease j.values_with_positive_frequency p.1 hInv.pos hkey
  have hppos : 0 < p.2 := hInv.pos p hp
  have hmem : p.1 ∈ freqM j.values_with_positive_frequency :=
    mem_freqM.mpr ⟨p, hp, rfl, hppos⟩
  have hcpos : 0 < Multiset.card (freqM j.values_with_positive_frequency) :=
    Multiset.card_pos_iff_exists_mem.mpr ⟨p.1, hmem⟩
  have hlen := hInv.len_add_card hcard
  constructor
  · exact hInv.nodupKeys.sublist (keys_decrease_sublist _ _)
  · exact pos_decrease _ _ hInv.pos
  · show (↑(j.permutation ++ [p.1]) : Multiset T)
        + freqM (decrease_or_remove_positive_frequency
            j.values_with_positive_frequency p.1) = inputM
    rw [← Multiset.coe_add]
    have : (↑([p.1] : List T) : Multiset T) = {p.1} := rfl
    rw [this, add_assoc, add_comm ({p.1})
      (freqM (decrease_or_remove_positive_frequency j.values_with_positive_frequency p.1)),
      hdec, hInv.mass]
  · exact hInv.lenEq
  · show (j.permutation ++ [p.1]).length ≤ N
    simp only [List.length_append, List.length_cons, List.length_nil]
    omega

theorem mem_compute_next_jobs {j j' : Job T} :
    j' ∈ j.compute_next_jobs ↔
      ∃ p ∈ j.values_with_positive_frequency, j' = j.with_new_value p.1 := by
  unfold Job.compute_next_jobs
  constructor
  · intro h
    obtain ⟨p, hp, rfl⟩ := List.mem_map.mp h
    exact ⟨p, hp, rfl⟩
  · rintro ⟨p, hp, rfl⟩
    exact List.mem_map_of_mem _ hp

theorem gLoopHyps (inputM : Multiset T) (N : Nat)
    (hcard : Multiset.card inputM = N) :
    LoopHyps (Job.compute_next_jobs (T := T)) Job.is_ready Job.permutation
      (GInv inputM N) (fun j => N - j.permutation.length) := by
  constructor
  · intro j hInv j' hj'
    obtain ⟨p, hp, rfl⟩ := mem_compute_next_jobs.mp hj'
    exact hInv.with_new_value hcard hp
  · intro j hInv j' hj'
    obtain ⟨p, hp, rfl⟩ := mem_compute_next_jobs.mp hj'
    have hppos : 0 < p.2 := hInv.pos p hp
    have hmem : p.1 ∈ freqM j.values_with_positive_frequency :=
      mem_freqM.mpr ⟨p, hp, rfl, hppos⟩
    have hcpos : 0 < Multiset.card (freqM j.values_with_positive_frequency) :=
      Multiset.card_pos_iff_exists_mem.mpr ⟨p.1, hmem⟩
    have hlen := hInv.len_add_card hcard
    show N - (j.permutation ++ [p.1]).length < N - j.permutation.length
    simp only [List.length_append, List.length_cons, List.length_nil]
    omega
  · intro j hInv
    have hlen := hInv.len_add_card hcard
    have h1 : (j.compute_next_jobs).length
        = j.values_with_positive_frequency.length := by
      simp [Job.compute_next_jobs]
    have h2 : j.values_with_positive_frequency.length
        ≤ (j.values_with_positive_frequency.map Prod.snd).sum := by
      have := length_le_sum (l := j.values_with_positive_frequency.map Prod.snd)
        (fun x hx => by
          obtain ⟨p, hp, rfl⟩ := List.mem_map.mp hx
          exact hInv.pos p hp)
      simpa using this
    rw [← freqM_card] at h2
    omega
  · intro j hInv first_job others hstep hready
    cases hm : j.values_with_positive_frequency with
    | nil =>
      rw [Job.compute_next_jobs, hm] at hstep
      simp at hstep
    | cons p₀ ps =>
      rw [Job.compute_next_jobs, hm] at hstep
      simp only [List.map_cons, List.cons.injEq] at hstep
      obtain ⟨hfirst, hothers⟩ := hstep
      have hlen := hInv.len_add_card hcard
      have hr : j.permutation.length + 1 = N := by
        rw [← hfirst] at hready
        simp only [Job.is_ready, Job.with_new_value, beq_iff_eq,
          List.length_append, List.length_cons, List.length_nil] at hready
        have hN := hInv.lenEq
        omega
      have hcard1 : Multiset.card (freqM j.values_with_positive_frequency) = 1 := by
        omega
      have hsum : ((j.values_with_positive_frequency).map Prod.snd).sum = 1 := by
        rw [← freqM_card]
        exact hcard1
      have hlenm : j.values_with_positive_frequency.length ≤ 1 := by
        have hl := length_le_sum
          (l := j.values_with_positive_frequency.map Prod.snd)
          (fun x hx => by
            obtain ⟨q, hq, rfl⟩ := List.mem_map.mp hx
            exact hInv.pos q hq)
        rw [hsum] at hl
        simpa using hl
      rw [hm] at hlenm
      simp only [List.length_cons] at hlenm
      have hps : ps = [] := by
        cases ps with
        | nil => rfl
        | cons a l => simp at hlenm
      subst hps
      simpa using hothers.symm

theorem gRoot_inv (values : List T) :
    GInv (↑values) values.length
      (Job.new (values_with_frequency values) values.length) := by
  constructor
  · exact (nodup_keys_values_with_frequency values).sublist
      ((List.filter_sublist _).map Prod.fst)
  · intro p hp
    have := List.of_mem_filter hp
    simpa using this
  · show (↑([] : List T) : Multiset T)
        + freqM ((values_with_frequency values).filter fun p => decide (0 < p.2))
        = ↑values
    rw [freqM_filter_pos, freqM_values_with_frequency]
    simp
  · rfl
  · simp [Job.new]

theorem freq_singleton {m : List (T × Nat)} (hpos : ∀ p ∈ m, 0 < p.2)
    (hcard1 : Multiset.card (freqM m) = 1) : ∃ v, m = [(v, 1)] := by
  have hsum : (m.map Prod.snd).sum = 1 := by
    rw [← freqM_card]
    exact hcard1
  have hlen : m.length ≤ 1 := by
    have hl := length_le_sum (l := m.map Prod.snd)
      (fun x hx => by
        obtain ⟨q, hq, rfl⟩ := List.mem_map.mp hx
        exact hpos q hq)
    rw [hsum] at hl
    simpa using hl
  cases hm : m with
  | nil =>
    rw [hm] at hcard1
    simp [freqM_nil] at hcard1
  | cons p ps =>
    rw [hm] at hlen
    simp only [List.length_cons] at hlen
    have hps : ps = [] := by
      cases ps with
      | nil => rfl
      | cons a l => simp at hlen
    subst hps
    obtain ⟨v, c⟩ := p
    rw [hm] at hsum
    simp only [List.map_cons, List.map_nil, List.sum_cons, List.sum_nil] at hsum
    exact ⟨v, by simp [hsum]; omega⟩

theorem first_child_ready_iff {inputM : Multiset T} {N : Nat} {j : Job T}
    (hInv : GInv inputM N j) {p : T × Nat} :
    (j.with_new_value p.1).is_ready = true ↔ j.permutation.length + 1 = N := by
  simp only [Job.is_ready, Job.with_new_value, beq_iff_eq, List.length_append,
    List.length_cons, List.length_nil]
  have := hInv.lenEq
  omega

theorem gjobOut_mem {inputM : Multiset T} {N : Nat}
    (hcard : Multiset.card inputM = N) :
    ∀ n (j : Job T), N - j.permutation.length ≤ n → GInv inputM N j →
      1 ≤ N - j.permutation.length →
      ∀ l, (l ∈ jobOut Job.compute_next_jobs Job.is_ready Job.permutation
            (fun j => N - j.permutation.length) j ↔
        ∃ s, l = j.permutation ++ s ∧
          (↑s : Multiset T) = freqM j.values_with_positive_frequency) := by
  intro n
  induction n with
  | zero =>
    intro j hn hInv hr
    omega
  | succ n ih =>
    intro j hn hInv hr l
    have hlen := hInv.len_add_card hcard
    have hLle := hInv.lenLe
    have hne : j.values_with_positive_frequency ≠ [] := by
      intro hnil
      rw [hnil] at hlen
      simp [freqM_nil] at hlen
      omega
    obtain ⟨p₀, ps, hm⟩ : ∃ p₀ ps, j.values_with_positive_frequency = p₀ :: ps := by
      cases hmm : j.values_with_positive_frequency with
      | nil => exact absurd hmm hne
      | cons a ll => exact ⟨a, ll, rfl⟩
    have hstep : j.compute_next_jobs
        = j.with_new_value p₀.1 :: ps.map (fun p => j.with_new_value p.1) := by
      rw [Job.compute_next_jobs, hm]
      simp
    by_cases hN : j.permutation.length + 1 = N
    · -- the children are complete permutations
      have hready : (j.with_new_value p₀.1).is_ready = true :=
        (first_child_ready_iff hInv).mpr hN
      have hcard1 : Multiset.card (freqM j.values_with_positive_frequency) = 1 := by
        omega
      obtain ⟨v, hv⟩ := freq_singleton hInv.pos hcard1
      have hp₀v : p₀ = (v, 1) ∧ ps = [] := by
        rw [hm] at hv
        exact ⟨(List.cons.injEq _ _ _ _ ▸ hv).1, (List.cons.injEq _ _ _ _ ▸ hv).2⟩
      obtain ⟨rfl, rfl⟩ := hp₀v
      rw [jobOut_of_ready Job.permutation _ hstep hready]
      have hfm : freqM j.values_with_positive_frequency = {v} := by
        rw [hv, freqM_cons, freqM_nil]
        simp [Multiset.replicate_one]
      constructor
      · intro hl
        simp only [List.map_cons, List.map_nil, List.mem_cons,
          List.not_mem_nil, or_false] at hl
        refine ⟨[v], ?_, by rw [hfm]; rfl⟩
        simpa [Job.with_new_value, Job.permutation] using hl
      · rintro ⟨s, rfl, hs⟩
        rw [hfm] at hs
        have hsv : s = [v] := Multiset.coe_eq_singleton.mp hs
        subst hsv
        simp [Job.with_new_value, Job.permutation]
    · -- every child is itself expanded further
      have hready : (j.with_new_value p₀.1).is_ready = false := by
        rcases hb : (j.with_new_value p₀.1).is_ready with _ | _
        · rfl
        · exact absurd ((first_child_ready_iff hInv).mp hb) hN
      rw [jobOut_of_not_ready (gLoopHyps inputM N hcard) hInv hstep hready]
      rw [← hstep]
      constructor
      · intro hl
        obtain ⟨child, hchild, hlc⟩ := List.mem_flatMap.mp hl
        obtain ⟨p, hp, rfl⟩ := mem_compute_next_jobs.mp hchild
        have hInvC := hInv.with_new_value hcard hp
        have hrc : 1 ≤ N - (j.with_new_value p.1).permutation.length := by
          show 1 ≤ N - (j.permutation ++ [p.1]).length
          simp only [List.length_append, List.length_cons, List.length_nil]
          omega
        have hnc : N - (j.with_new_value p.1).permutation.length ≤ n := by
          show N - (j.permutation ++ [p.1]).length ≤ n
          simp only [List.length_append, List.length_cons, List.length_nil]
          omega
        obtain ⟨s', hls', hs'⟩ := (ih _ hnc hInvC hrc l).mp hlc
        have hkey : p.1 ∈ j.values_with_positive_frequency.map Prod.fst :=
          List.mem_map_of_mem _ hp
        have hdec := freqM_decrease j.values_with_positive_frequency p.1
          hInv.pos hkey
        refine ⟨p.1 :: s', ?_, ?_⟩
        · rw [hls']
          show (j.permutation ++ [p.1]) ++ s' = j.permutation ++ p.1 :: s'
          simp
        · rw [← Multiset.cons_coe, ← Multiset.singleton_add, hs']
          rw [add_comm]
          exact hdec
      · rintro ⟨s, rfl, hs⟩
        cases s with
        | nil =>
          have h0 : Multiset.card (freqM j.values_with_positive_frequency) = 0 := by
            rw [← hs]
            simp
          omega
        | cons v s' =>
          have hvmem : v ∈ freqM j.values_with_positive_frequency := by
            rw [← hs]
            simp
          obtain ⟨p, hp, hpv, hppos⟩ := mem_freqM.mp hvmem
          subst hpv
          have hkey : p.1 ∈ j.values_with_positive_frequency.map Prod.fst :=
            List.mem_map_of_mem _ hp
          have hdec := freqM_decrease j.values_with_positive_frequency p.1
            hInv.pos hkey
          have hs' : (↑s' : Multiset T)
              = freqM (decrease_or_remove_positive_frequency
                  j.values_with_positive_frequency p.1) := by
            have h1 : ({p.1} : Multiset T) + ↑s'
                = freqM j.values_with_positive_frequency := by
              rw [← hs, ← Multiset.cons_coe, Multiset.singleton_add]
            have h2 : ({p.1} : Multiset T)
                + freqM (decrease_or_remove_positive_frequency
                    j.values_with_positive_frequency p.1)
                = freqM j.values_with_positive_frequency := by
              rw [add_comm]
              exact hdec
            exact add_left_cancel (h1.trans h2.symm)
          have hInvC := hInv.with_new_value hcard hp
          have hrc : 1 ≤ N - (j.with_new_value p.1).permutation.length := by
            show 1 ≤ N - (j.permutation ++ [p.1]).length
            simp only [List.length_append, List.length_cons, List.length_nil]
            omega
          have hnc : N - (j.with_new_value p.1).permutation.length ≤ n := by
            show N - (j.permutation ++ [p.1]).length ≤ n
            simp only [List.length_append, List.length_cons, List.length_nil]
            omega
          refine List.mem_flatMap.mpr ⟨j.with_new_value p.1,
            mem_compute_next_jobs.mpr ⟨p, hp, rfl⟩, ?_⟩
          refine (ih _ hnc hInvC hrc _).mpr ⟨s', ?_, hs'⟩
          show j.permutation ++ p.1 :: s' = (j.permutation ++ [p.1]) ++ s'
          simp


theorem gjobOut_nil_of_rank_zero {inputM : Multiset T} {N : Nat} {j : Job T}
    (hcard : Multiset.card inputM = N) (hInv : GInv inputM N j)
    (hr0 : N - j.permutation.length = 0) :
    jobOut Job.compute_next_jobs Job.is_ready Job.permutation
      (fun j => N - j.permutation.length) j = [] := by
  have hlen := hInv.len_add_card hcard
  have hm : j.values_with_positive_frequency = [] := by
    cases hmm : j.values_with_positive_frequency with
    | nil => rfl
    | cons p ps =>
      have hmem : p.1 ∈ freqM j.values_with_positive_frequency :=
        mem_freqM.mpr ⟨p, by rw [hmm]; exact List.mem_cons_self _ _, rfl,
          hInv.pos p (by rw [hmm]; exact List.mem_cons_self _ _)⟩
      have := Multiset.card_pos_iff_exists_mem.mpr ⟨p.1, hmem⟩
      omega
  have hstep : j.compute_next_jobs = [] := by
    rw [Job.compute_next_jobs, hm]
    rfl
  exact jobOut_of_step_nil Job.is_ready Job.permutation _ hstep

theorem gjobOut_nodup {inputM : Multiset T} {N : Nat}
    (hcard : Multiset.card inputM = N) :
    ∀ n (j : Job T), N - j.permutation.length ≤ n → GInv inputM N j →
      (jobOut Job.compute_next_jobs Job.is_ready Job.permutation
        (fun j => N - j.permutation.length) j).Nodup := by
  intro n
  induction n with
  | zero =>
    intro j hn hInv
    rw [gjobOut_nil_of_rank_zero hcard hInv (by omega)]
    exact List.nodup_nil
  | succ n ih =>
    intro j hn hInv
    have hlen := hInv.len_add_card hcard
    have hLle := hInv.lenLe
    by_cases hr0 : N - j.permutation.length = 0
    · rw [gjobOut_nil_of_rank_zero hcard hInv hr0]
      exact List.nodup_nil
    · have hne : j.values_with_positive_frequency ≠ [] := by
        intro hnil
        rw [hnil] at hlen
        simp [freqM_nil] at hlen
        omega
      obtain ⟨p₀, ps, hm⟩ : ∃ p₀ ps, j.values_with_positive_frequency = p₀ :: ps := by
        cases hmm : j.values_with_positive_frequency with
        | nil => exact absurd hmm hne
        | cons a ll => exact ⟨a, ll, rfl⟩
      have hstep : j.compute_next_jobs
          = j.with_new_value p₀.1 :: ps.map (fun p => j.with_new_value p.1) := by
        rw [Job.compute_next_jobs, hm]
        simp
      by_cases hN : j.permutation.length + 1 = N
      · have hready : (j.with_new_value p₀.1).is_ready = true :=
          (first_child_ready_iff hInv).mpr hN
        have hcard1 : Multiset.card (freqM j.values_with_positive_frequency) = 1 := by
          omega
        obtain ⟨v, hv⟩ := freq_singleton hInv.pos hcard1
        have hps : ps = [] := by
          rw [hm] at hv
          exact (List.cons.injEq _ _ _ _ ▸ hv).2
        subst hps
        rw [jobOut_of_ready Job.permutation _ hstep hready]
        simp
      · have hready : (j.with_new_value p₀.1).is_ready = false := by
          rcases hb : (j.with_new_value p₀.1).is_ready with _ | _
          · rfl
          · exact absurd ((first_child_ready_iff hInv).mp hb) hN
        rw [jobOut_of_not_ready (gLoopHyps inputM N hcard) hInv hstep hready]
        rw [← hstep]
        rw [List.flatMap_def, List.nodup_flatten]
        constructor
        · intro l hl
          obtain ⟨child, hchild, rfl⟩ := List.mem_map.mp hl
          obtain ⟨p, hp, rfl⟩ := mem_compute_next_jobs.mp hchild
          have hInvC := hInv.with_new_value hcard hp
          refine ih _ ?_ hInvC
          show N - (j.permutation ++ [p.1]).length ≤ n
          simp only [List.length_append, List.length_cons, List.length_nil]
          omega
        · rw [Job.compute_next_jobs, List.map_map, List.pairwise_map]
          have hkeys : List.Pairwise (fun p q : T × Nat => p.1 ≠ q.1)
              j.values_with_positive_frequency := by
            have := hInv.nodupKeys
            rw [List.Nodup, List.pairwise_map] at this
            exact this
          refine List.Pairwise.imp_of_mem ?_ hkeys
          intro p q hp hq hne'
          intro l hl₁ hl₂
          have hInvP := hInv.with_new_value hcard hp
          have hInvQ := hInv.with_new_value hcard hq
          have hrg : 1 ≤ N - (j.with_new_value p.1).permutation.length := by
            show 1 ≤ N - (j.permutation ++ [p.1]).length
            simp only [List.length_append, List.length_cons, List.length_nil]
            omega
          have hrq : 1 ≤ N - (j.with_new_value q.1).permutation.length := by
            show 1 ≤ N - (j.permutation ++ [q.1]).length
            simp only [List.length_append, List.length_cons, List.length_nil]
            omega
          obtain ⟨s₁, hls₁, _⟩ :=
            (gjobOut_mem hcard _ (j.with_new_value p.1) le_rfl hInvP hrg l).mp hl₁
          obtain ⟨s₂, hls₂, _⟩ :=
            (gjobOut_mem hcard _ (j.with_new_value q.1) le_rfl hInvQ hrq l).mp hl₂
          have heq : j.permutation ++ p.1 :: s₁ = j.permutation ++ q.1 :: s₂ := by
            have e₁ : l = j.permutation ++ p.1 :: s₁ := by
              rw [hls₁]
              show (j.permutation ++ [p.1]) ++ s₁ = _
              simp
            have e₂ : l = j.permutation ++ q.1 :: s₂ := by
              rw [hls₂]
              show (j.permutation ++ [q.1]) ++ s₂ = _
              simp
            rw [← e₁, ← e₂]
          have := List.append_cancel_left heq
          simp only [List.cons.injEq] at this
          exact hne' this.1

theorem gRootOut_mem (values : List T) (hne : values ≠ []) (l : List T) :
    (l ∈ jobOut Job.compute_next_jobs Job.is_ready Job.permutation
        (fun j => values.length - j.permutation.length)
        (Job.new (values_with_frequency values) values.length) ↔
      l.Perm values) := by
  have hcard : Multiset.card (↑values : Multiset T) = values.length :=
    Multiset.coe_card values
  have hroot := gRoot_inv values
  have hpos : 0 < values.length := List.length_pos.mpr hne
  have hr : 1 ≤ values.length
      - (Job.new (values_with_frequency values) values.length).permutation.length := by
    show 1 ≤ values.length - ([] : List T).length
    simpa using hpos
  rw [gjobOut_mem hcard values.length _ (by simp [Job.new]) hroot hr l]
  constructor
  · rintro ⟨s, hls, hs⟩
    have hs' : (↑s : Multiset T) = ↑values := by
      rw [hs]
      show freqM ((values_with_frequency values).filter fun p => decide (0 < p.2))
        = ↑values
      rw [freqM_filter_pos, freqM_values_with_frequency]
    have : l = s := by simpa [Job.new] using hls
    subst this
    exact Multiset.coe_eq_coe.mp hs'
  · intro hperm
    refine ⟨l, by simp [Job.new], ?_⟩
    show (↑l : Multiset T)
      = freqM ((values_with_frequency values).filter fun p => decide (0 < p.2))
    rw [freqM_filter_pos, freqM_values_with_frequency]
    exact Multiset.coe_eq_coe.mpr hperm

theorem gRootOut_nodup (values : List T) :
    (jobOut Job.compute_next_jobs Job.is_ready Job.permutation
      (fun j => values.length - j.permutation.length)
      (Job.new (values_with_frequency values) values.length)).Nodup := by
  have hcard : Multiset.card (↑values : Multiset T) = values.length :=
    Multiset.coe_card values
  exact gjobOut_nodup hcard values.length _ (by simp [Job.new]) (gRoot_inv values)

theorem collectedPerms_wrap (css : List (List (List T))) (size : Nat) :
    collectedPerms (css.map fun ps => ({ permutations := ps, size := size } : Chunk T))
      = css.flatten := by
  induction css with
  | nil => rfl
  | cons c rest ih =>
    simp only [List.map_cons, collectedPerms, List.flatMap_cons, List.flatten_cons] at ih ⊢
    rw [ih]

theorem general_run_spec (values : List T) (size : Nat) (hsz : 0 < size)
    (fuel : Nat) (css : List (List (List T)))
    (h : runChunks Job.compute_next_jobs Job.is_ready Job.permutation fuel
        [Job.new (values_with_frequency values) values.length] size = some css) :
    (↑css.flatten : Multiset (List T))
      = ↑(jobOut Job.compute_next_jobs Job.is_ready Job.permutation
          (fun j => values.length - j.permutation.length)
          (Job.new (values_with_frequency values) values.length)) ∧
    (∀ c ∈ css, 1 ≤ c.length ∧ c.length ≤ size) ∧
    (∀ c ∈ css.dropLast, c.length = size) := by
  have hcard : Multiset.card (↑values : Multiset T) = values.length :=
    Multiset.coe_card values
  have hq : ∀ j ∈ [Job.new (values_with_frequency values) values.length],
      GInv (↑values) values.length j := by
    intro j hj
    rcases List.mem_cons.mp hj with rfl | hj
    · exact gRoot_inv values
    · simp at hj
  obtain ⟨s1, s2, s3⟩ :=
    runChunks_spec (gLoopHyps (↑values) values.length hcard) fuel _ size css hq hsz h
  rw [mOut_cons, mOut_nil, add_zero] at s1
  exact ⟨s1, s2, s3⟩

theorem general_run_total (values : List T) (size : Nat) (hsz : 0 < size) :
    ∃ fuel css, runChunks Job.compute_next_jobs Job.is_ready Job.permutation fuel
      [Job.new (values_with_frequency values) values.length] size = some css := by
  have hcard : Multiset.card (↑values : Multiset T) = values.length :=
    Multiset.coe_card values
  have hq : ∀ j ∈ [Job.new (values_with_frequency values) values.length],
      GInv (↑values) values.length j := by
    intro j hj
    rcases List.mem_cons.mp hj with rfl | hj
    · exact gRoot_inv values
    · simp at hj
  obtain ⟨css, hcss⟩ := runChunks_total (gLoopHyps (↑values) values.length hcard)
    (weightQ (fun j => values.length - j.permutation.length)
      [Job.new (values_with_frequency values) values.length])
    _ size hq hsz le_rfl
  exact ⟨_, css, hcss⟩

/-! ## Count-array lemmas (compact engine) -/

theorem getD_set_zero (l : List Nat) (i v j : Nat) :
    (l.set i v).getD j 0 = if i = j ∧ i < l.length then v else l.getD j 0 := by
  rw [List.getD_eq_getElem?_getD, List.getElem?_set, List.getD_eq_getElem?_getD]
  by_cases h1 : i = j
  · subst h1
    by_cases h2 : i < l.length
    · simp [h2]
    · have : l[i]? = none := List.getElem?_eq_none (by omega)
      simp [h2, this]
  · simp [h1]

theorem sum_enumFrom_ite (arr : List Nat) :
    ∀ n i, ((List.enumFrom n arr).map fun p => if p.1 = i then p.2 else 0).sum
      = if n ≤ i then arr.getD (i - n) 0 else 0 := by
  induction arr with
  | nil =>
    intro n i
    simp [List.enumFrom]
  | cons c rest ih =>
    intro n i
    rw [List.enumFrom_cons]
    simp only [List.map_cons, List.sum_cons, ih (n + 1) i]
    rcases Nat.lt_trichotomy n i with h | h | h
    · rw [if_neg (by omega : ¬ n = i), if_pos (by omega : n + 1 ≤ i),
        if_pos (by omega : n ≤ i)]
      have h4 : i - n = (i - (n + 1)) + 1 := by omega
      rw [h4, List.getD_cons_succ]
      simp
    · subst h
      rw [if_pos rfl, if_neg (by omega : ¬ n + 1 ≤ n), if_pos (le_refl n)]
      try simp
    · rw [if_neg (by omega : ¬ n = i), if_neg (by omega : ¬ n + 1 ≤ i),
        if_neg (by omega : ¬ n ≤ i)]
      try simp

theorem count_freqM (m : List (T × Nat)) (a : T) :
    (freqM m).count a = (m.map fun p => if p.1 = a then p.2 else 0).sum := by
  induction m with
  | nil => simp [freqM_nil]
  | cons p rest ih =>
    obtain ⟨k, c⟩ := p
    rw [freqM_cons, Multiset.count_add, Multiset.count_replicate, ih]
    simp only [List.map_cons, List.sum_cons]

theorem count_arrM (arr : List Nat) (i : Nat) :
    (arrM arr).count i = arr.getD i 0 := by
  rw [arrM, count_freqM, show arr.enum = List.enumFrom 0 arr from rfl,
    sum_enumFrom_ite]
  simp

theorem mem_arrM {arr : List Nat} {i : Nat} :
    i ∈ arrM arr ↔ 0 < arr.getD i 0 := by
  rw [← count_arrM]
  exact Multiset.count_pos.symm

theorem card_arrM (arr : List Nat) : Multiset.card (arrM arr) = arr.sum := by
  rw [arrM, freqM_card, List.enum_map_snd]

theorem arrM_set_decrement {arr : List Nat} {i : Nat} (hi : i < arr.length)
    (hpos : 0 < arr.getD i 0) :
    arrM (arr.set i (arr.getD i 0 - 1)) + {i} = arrM arr := by
  rw [Multiset.ext]
  intro j
  rw [Multiset.count_add, count_arrM, count_arrM, Multiset.count_singleton,
    getD_set_zero]
  by_cases h : i = j
  · subst h
    rw [if_pos ⟨rfl, hi⟩, if_pos rfl]
    omega
  · rw [if_neg (fun hc => h hc.1), if_neg (fun hc : j = i => h hc.symm)]
    omega

theorem arrM_eq_zero_iff {arr : List Nat} : arrM arr = 0 ↔ arr.sum = 0 := by
  rw [← Multiset.card_eq_zero, card_arrM]

theorem optimized_is_ready_iff {j : OptimizedJob}
    (hlen : j.compressed_values.length = PERMUTATION_FIXED_LENGTH) :
    j.is_ready = true ↔ arrM j.compressed_values = 0 := by
  rw [OptimizedJob.is_ready, beq_iff_eq, zeroed_fixed_array, arrM_eq_zero_iff,
    List.eq_replicate_iff, List.sum_eq_zero_iff]
  constructor
  · rintro ⟨_, h⟩
    exact h
  · intro h
    exact ⟨hlen, h⟩

theorem mem_optimized_next_jobs {j j' : OptimizedJob} :
    j' ∈ j.compute_next_jobs ↔
      ∃ p ∈ j.compressed_values.enum.filter (fun p => decide (0 < p.2)),
        j' = j.with_new_value p.1 := by
  unfold OptimizedJob.compute_next_jobs
  constructor
  · intro h
    obtain ⟨p, hp, rfl⟩ := List.mem_map.mp h
    exact ⟨p, hp, rfl⟩
  · rintro ⟨p, hp, rfl⟩
    exact List.mem_map_of_mem _ hp

theorem mem_filter_enum_pos {arr : List Nat} {p : Nat × Nat} :
    p ∈ arr.enum.filter (fun p => decide (0 < p.2)) ↔
      arr[p.1]? = some p.2 ∧ 0 < p.2 := by
  rw [List.mem_filter, List.mem_enum_iff_getElem?]
  simp

/-! ## First-occurrence distinct-value lemmas -/

theorem distinctInOrder_concat (pre : List T) (v : T) :
    distinctInOrder (pre ++ [v])
      = if v ∈ distinctInOrder pre then distinctInOrder pre
        else distinctInOrder pre ++ [v] := by
  unfold distinctInOrder
  rw [List.foldl_concat]

theorem mem_distinct_aux (l : List T) :
    ∀ acc (v : T),
      (v ∈ l.foldl (fun acc v => if v ∈ acc then acc else acc ++ [v]) acc ↔
        v ∈ acc ∨ v ∈ l) := by
  induction l with
  | nil => intro acc v; simp
  | cons a rest ih =>
    intro acc v
    rw [List.foldl_cons, ih]
    by_cases ha : a ∈ acc
    · rw [if_pos ha]
      constructor
      · rintro (h | h)
        · exact Or.inl h
        · exact Or.inr (List.mem_cons_of_mem _ h)
      · rintro (h | h)
        · exact Or.inl h
        · rcases List.mem_cons.mp h with rfl | h
          · exact Or.inl ha
          · exact Or.inr h
    · rw [if_neg ha]
      constructor
      · rintro (h | h)
        · rcases List.mem_append.mp h with h | h
          · exact Or.inl h
          · simp at h
            subst h
            exact Or.inr (List.mem_cons_self _ _)
        · exact Or.inr (List.mem_cons_of_mem _ h)
      · rintro (h | h)
        · exact Or.inl (List.mem_append.mpr (Or.inl h))
        · rcases List.mem_cons.mp h with rfl | h
          · exact Or.inl (List.mem_append.mpr (Or.inr (by simp)))
          · exact Or.inr h

theorem mem_distinctInOrder {values : List T} {v : T} :
    v ∈ distinctInOrder values ↔ v ∈ values := by
  rw [distinctInOrder, mem_distinct_aux]
  simp

theorem nodup_distinct_aux (l : List T) :
    ∀ acc : List T, acc.Nodup →
      (l.foldl (fun acc v => if v ∈ acc then acc else acc ++ [v]) acc).Nodup := by
  induction l with
  | nil => intro acc h; exact h
  | cons a rest ih =>
    intro acc h
    rw [List.foldl_cons]
    by_cases ha : a ∈ acc
    · rw [if_pos ha]
      exact ih acc h
    · rw [if_neg ha]
      exact ih _ (by simp [List.nodup_append, h, ha])

theorem nodup_distinctInOrder (values : List T) :
    (distinctInOrder values).Nodup :=
  nodup_distinct_aux values [] List.nodup_nil

theorem length_distinct_aux (l : List T) :
    ∀ acc : List T,
      (l.foldl (fun acc v => if v ∈ acc then acc else acc ++ [v]) acc).length
        ≤ acc.length + l.length := by
  induction l with
  | nil => intro acc; simp
  | cons a rest ih =>
    intro acc
    rw [List.foldl_cons]
    by_cases ha : a ∈ acc
    · rw [if_pos ha]
      have := ih acc
      simp only [List.length_cons]
      omega
    · rw [if_neg ha]
      have := ih (acc ++ [a])
      simp only [List.length_append, List.length_cons, List.length_nil] at this
      simp only [List.length_cons]
      omega

theorem length_distinctInOrder (values : List T) :
    (distinctInOrder values).length ≤ values.length := by
  have := length_distinct_aux values []
  simpa using this

/-! ## `compress_values` canonical-state lemmas -/

theorem lookup_enumFrom_swap (d : List T) :
    ∀ n (v : T),
      (((List.enumFrom n d).map fun p => (p.2, p.1)).lookup v)
        = if v ∈ d then some (n + d.indexOf v) else none := by
  induction d with
  | nil => intro n v; simp [List.lookup]
  | cons a rest ih =>
    intro n v
    rw [List.enumFrom_cons]
    simp only [List.map_cons]
    by_cases hav : a = v
    · subst hav
      rw [if_pos (List.mem_cons_self _ _), List.indexOf_cons_self]
      simp [List.lookup]
    · have hba : (v == a) = false := beq_eq_false_iff_ne.mpr fun h => hav h.symm
      simp only [List.lookup, hba]
      rw [ih (n + 1) v]
      by_cases hv : v ∈ rest
      · rw [if_pos hv, if_pos (List.mem_cons_of_mem _ hv),
          List.indexOf_cons_ne _ (hav)]
        congr 1
        omega
      · rw [if_neg hv, if_neg (by
          intro hc
          rcases List.mem_cons.mp hc with rfl | hc
          · exact hav rfl
          · exact hv hc)]

theorem lookup_enum_swap (d : List T) (v : T) :
    ((d.enum.map fun p => (p.2, p.1)).lookup v)
      = if v ∈ d then some (d.indexOf v) else none := by
  rw [show d.enum = List.enumFrom 0 d from rfl, lookup_enumFrom_swap]
  simp

theorem lookup_enumFrom (d : List T) :
    ∀ n k, ((List.enumFrom n d).lookup k)
      = if n ≤ k then d.get? (k - n) else none := by
  induction d with
  | nil =>
    intro n k
    simp [List.lookup]
  | cons a rest ih =>
    intro n k
    rw [List.enumFrom_cons]
    by_cases hnk : n = k
    · subst hnk
      rw [if_pos (le_refl n)]
      simp [List.lookup]
    · have hba : (k == n) = false := beq_eq_false_iff_ne.mpr fun h => hnk h.symm
      simp only [List.lookup, hba]
      rw [ih (n + 1) k]
      rcases Nat.lt_trichotomy n k with h | h | h
      · rw [if_pos (by omega), if_pos (by omega)]
        have h4 : k - n = (k - (n + 1)) + 1 := by omega
        rw [h4]
        simp
      · exact absurd h hnk
      · rw [if_neg (by omega), if_neg (by omega)]

theorem lookup_enum (d : List T) (k : Nat) : (d.enum.lookup k) = d.get? k := by
  rw [show d.enum = List.enumFrom 0 d from rfl, lookup_enumFrom]
  simp

theorem getD_map_range (f : Nat → Nat) (n i : Nat) :
    (((List.range n).map f).getD i 0) = if i < n then f i else 0 := by
  rw [List.getD_eq_getElem?_getD, List.getElem?_map]
  by_cases h : i < n
  · rw [List.getElem?_range h]
    simp [h]
  · have h0 : (List.range n)[i]? = none := List.getElem?_eq_none (by simpa using h)
    simp [h0, h]

theorem countsArr_length (pre : List T) :
    (countsArr pre).length = PERMUTATION_FIXED_LENGTH := by
  simp [countsArr]

theorem countsArr_getD (pre : List T) (i : Nat) :
    (countsArr pre).getD i 0
      = if i < PERMUTATION_FIXED_LENGTH
        then ((distinctInOrder pre).get? i).elim 0 fun v => pre.count v
        else 0 := by
  rw [countsArr, getD_map_range]

theorem ext_getD_zero {l₁ l₂ : List Nat} (hlen : l₁.length = l₂.length)
    (h : ∀ i, l₁.getD i 0 = l₂.getD i 0) : l₁ = l₂ := by
  apply List.ext_getElem hlen
  intro i h₁ h₂
  have := h i
  rwa [List.getD_eq_getElem l₁ 0 h₁, List.getD_eq_getElem l₂ 0 h₂] at this

theorem CompressState.ext' {s₁ s₂ : CompressState T}
    (h1 : s₁.value_to_index = s₂.value_to_index)
    (h2 : s₁.i_th_distinct_value = s₂.i_th_distinct_value)
    (h3 : s₁.compressed_values = s₂.compressed_values)
    (h4 : s₁.index_to_value = s₂.index_to_value) : s₁ = s₂ := by
  cases s₁
  cases s₂
  simp_all

theorem get?_indexOf {d : List T} {v : T} (hv : v ∈ d) :
    d.get? (d.indexOf v) = some v := by
  rw [List.get?_eq_getElem?]
  have hlt := List.indexOf_lt_length.mpr hv
  rw [List.getElem?_eq_getElem hlt, List.getElem_indexOf hlt]

theorem enum_concat (d : List T) (v : T) :
    (d ++ [v]).enum = d.enum ++ [(d.length, v)] := by
  rw [List.enum_append]
  rfl

theorem compressStep_canon (pre : List T) (v : T)
    (hbound : (distinctInOrder (pre ++ [v])).length ≤ PERMUTATION_FIXED_LENGTH) :
    compressStep (canonState pre) v = canonState (pre ++ [v]) := by
  by_cases hv : v ∈ distinctInOrder pre
  · -- an already-seen value: its count is bumped
    have hdist : distinctInOrder (pre ++ [v]) = distinctInOrder pre := by
      rw [distinctInOrder_concat, if_pos hv]
    have hl : ((canonState pre).value_to_index).lookup v
        = some ((distinctInOrder pre).indexOf v) := by
      show (((distinctInOrder pre).enum.map fun p => (p.2, p.1)).lookup v) = _
      rw [lookup_enum_swap, if_pos hv]
    have hstep : compressStep (canonState pre) v
        = { canonState pre with
              compressed_values :=
                (countsArr pre).set ((distinctInOrder pre).indexOf v)
                  ((countsArr pre).getD ((distinctInOrder pre).indexOf v) 0 + 1) } := by
      unfold compressStep
      rw [hl]
      rfl
    rw [hstep]
    clear hstep
    have hidx : (distinctInOrder pre).indexOf v < (distinctInOrder pre).length :=
      List.indexOf_lt_length.mpr hv
    have hd128 : (distinctInOrder pre).length ≤ PERMUTATION_FIXED_LENGTH := by
      rw [← hdist]
      exact hbound
    apply CompressState.ext'
    · show (distinctInOrder pre).enum.map (fun p => (p.2, p.1))
        = (distinctInOrder (pre ++ [v])).enum.map (fun p => (p.2, p.1))
      rw [hdist]
    · show (distinctInOrder pre).length = (distinctInOrder (pre ++ [v])).length
      rw [hdist]
    · show (countsArr pre).set ((distinctInOrder pre).indexOf v)
          ((countsArr pre).getD ((distinctInOrder pre).indexOf v) 0 + 1)
        = countsArr (pre ++ [v])
      apply ext_getD_zero
      · rw [List.length_set, countsArr_length, countsArr_length]
      · intro i
        rw [getD_set_zero, countsArr_getD (pre ++ [v]) i, hdist]
        by_cases hi : (distinctInOrder pre).indexOf v = i
        · subst hi
          rw [if_pos ⟨rfl, by rw [countsArr_length]; omega⟩,
            if_pos (by omega : (distinctInOrder pre).indexOf v < PERMUTATION_FIXED_LENGTH),
            countsArr_getD pre,
            if_pos (by omega : (distinctInOrder pre).indexOf v < PERMUTATION_FIXED_LENGTH),
            get?_indexOf hv]
          simp only [Option.elim_some]
          rw [List.count_append]
          simp
        · rw [if_neg (fun hc => hi hc.1), countsArr_getD pre i]
          by_cases h128 : i < PERMUTATION_FIXED_LENGTH
          · rw [if_pos h128, if_pos h128]
            cases hget : (distinctInOrder pre).get? i with
            | none => simp
            | some w =>
              simp only [Option.elim_some]
              have hwv : w ≠ v := by
                intro hwv
                subst hwv
                have hilt : i < (distinctInOrder pre).length := by
                  by_contra hcon
                  rw [List.get?_eq_getElem?, List.getElem?_eq_none (by omega)] at hget
                  exact absurd hget (by simp)
                have : (distinctInOrder pre).indexOf w = i := by
                  have hgi : (distinctInOrder pre)[i] = w := by
                    rw [List.get?_eq_getElem?, List.getElem?_eq_getElem hilt] at hget
                    simpa using hget
                  rw [← hgi]
                  exact List.indexOf_getElem (nodup_distinctInOrder pre) i hilt
                exact hi this
              have hvw : v ≠ w := fun hc => hwv hc.symm
              rw [List.count_append]
              simp [List.count_singleton, hvw]
          · rw [if_neg h128, if_neg h128]
    · show (distinctInOrder pre).enum = (distinctInOrder (pre ++ [v])).enum
      rw [hdist]
  · -- an unseen value: it is assigned the next sequential id, with count 1
    have hdist : distinctInOrder (pre ++ [v]) = distinctInOrder pre ++ [v] := by
      rw [distinctInOrder_concat, if_neg hv]
    have hl : ((canonState pre).value_to_index).lookup v = none := by
      show (((distinctInOrder pre).enum.map fun p => (p.2, p.1)).lookup v) = _
      rw [lookup_enum_swap, if_neg hv]
    have hstep : compressStep (canonState pre) v
        = { value_to_index := (canonState pre).value_to_index
              ++ [(v, (canonState pre).i_th_distinct_value)]
            i_th_distinct_value := (canonState pre).i_th_distinct_value + 1
            compressed_values := (canonState pre).compressed_values.set
              (canonState pre).i_th_distinct_value 1
            index_to_value := (canonState pre).index_to_value
              ++ [((canonState pre).i_th_distinct_value, v)] } := by
      unfold compressStep
      rw [hl]
    rw [hstep]
    have hd128 : (distinctInOrder pre).length < PERMUTATION_FIXED_LENGTH := by
      rw [hdist] at hbound
      simp only [List.length_append, List.length_cons, List.length_nil] at hbound
      omega
    have hvpre : v ∉ pre := fun hc => hv (mem_distinctInOrder.mpr hc)
    apply CompressState.ext'
    · show (distinctInOrder pre).enum.map (fun p => (p.2, p.1))
          ++ [(v, (distinctInOrder pre).length)]
        = (distinctInOrder (pre ++ [v])).enum.map (fun p => (p.2, p.1))
      rw [hdist, enum_concat, List.map_append]
      rfl
    · show (distinctInOrder pre).length + 1 = (distinctInOrder (pre ++ [v])).length
      rw [hdist]
      simp
    · show (countsArr pre).set (distinctInOrder pre).length 1 = countsArr (pre ++ [v])
      apply ext_getD_zero
      · rw [List.length_set, countsArr_length, countsArr_length]
      · intro i
        rw [getD_set_zero, countsArr_getD (pre ++ [v]) i, hdist]
        by_cases hi : (distinctInOrder pre).length = i
        · subst hi
          rw [if_pos ⟨rfl, by rw [countsArr_length]; omega⟩, if_pos (by omega)]
          rw [List.get?_eq_getElem?, List.getElem?_concat_length]
          simp only [Option.elim_some]
          rw [List.count_append]
          have h0 : pre.count v = 0 := List.count_eq_zero.mpr hvpre
          simp [h0]
        · rw [if_neg (fun hc => hi hc.1), countsArr_getD pre i]
          by_cases h128 : i < PERMUTATION_FIXED_LENGTH
          · rw [if_pos h128, if_pos h128]
            by_cases hilt : i < (distinctInOrder pre).length
            · simp only [List.get?_eq_getElem?]
              rw [List.getElem?_append_left hilt, List.getElem?_eq_getElem hilt]
              simp only [Option.elim_some]
              have hwd : (distinctInOrder pre)[i] ∈ distinctInOrder pre :=
                List.getElem_mem _
              have hwv : v ≠ (distinctInOrder pre)[i] := fun hc => hv (hc ▸ hwd)
              rw [List.count_append]
              simp [List.count_singleton, hwv]
            · simp only [List.get?_eq_getElem?]
              rw [List.getElem?_eq_none (l := distinctInOrder pre) (by omega),
                List.getElem?_eq_none (l := distinctInOrder pre ++ [v]) (by
                  simp only [List.length_append, List.length_cons, List.length_nil]
                  omega)]
              rfl
          · rw [if_neg h128, if_neg h128]
    · show (distinctInOrder pre).enum ++ [((distinctInOrder pre).length, v)]
        = (distinctInOrder (pre ++ [v])).enum
      rw [hdist, enum_concat]

theorem compress_canon_aux :
    ∀ (suf pre : List T),
      (distinctInOrder pre).length + suf.length ≤ PERMUTATION_FIXED_LENGTH →
      suf.foldl compressStep (canonState pre) = canonState (pre ++ suf) := by
  intro suf
  induction suf with
  | nil =>
    intro pre hb
    simp
  | cons v suf' ih =>
    intro pre hb
    rw [List.foldl_cons]
    have hlen1 : (distinctInOrder (pre ++ [v])).length
        ≤ (distinctInOrder pre).length + 1 := by
      rw [distinctInOrder_concat]
      by_cases hv : v ∈ distinctInOrder pre
      · rw [if_pos hv]
        omega
      · rw [if_neg hv]
        simp
    have hstep := compressStep_canon pre v (by
      simp only [List.length_cons] at hb
      omega)
    rw [hstep, ih (pre ++ [v]) (by
      simp only [List.length_cons] at hb
      omega)]
    rw [List.append_assoc]
    rfl

theorem canonState_nil : (canonState ([] : List T)) = ⟨[], 0, zeroed_fixed_array, []⟩ := by
  apply CompressState.ext'
  · rfl
  · rfl
  · show countsArr [] = zeroed_fixed_array
    apply ext_getD_zero
    · rw [countsArr_length, zeroed_fixed_array, List.length_replicate]
    · intro i
      rw [countsArr_getD]
      show _ = (List.replicate PERMUTATION_FIXED_LENGTH 0).getD i 0
      by_cases h : i < PERMUTATION_FIXED_LENGTH
      · rw [if_pos h]
        show ((distinctInOrder ([] : List T)).get? i).elim 0 _ = _
        rw [show distinctInOrder ([] : List T) = [] from rfl]
        rw [List.getD_eq_getElem?_getD, List.getElem?_replicate]
        simp [h]
      · rw [if_neg h]
        rw [List.getD_eq_getElem?_getD,
          List.getElem?_eq_none (by rw [List.length_replicate]; omega)]
        rfl
  · rfl

theorem compress_values_eq (values : List T)
    (hlen : values.length ≤ PERMUTATION_FIXED_LENGTH) :
    compress_values values = (countsArr values, (distinctInOrder values).enum) := by
  unfold compress_values
  rw [← canonState_nil, compress_canon_aux values [] (by
    rw [show distinctInOrder ([] : List T) = [] from rfl]
    simpa using hlen)]
  rfl

/-! ## The compressed id multiset -/

theorem count_map_eq_length_filter (l : List T) (f : T → Nat) (i : Nat) :
    (l.map f).count i = (l.filter fun v => decide (f v = i)).length := by
  induction l with
  | nil => rfl
  | cons a rest ih =>
    simp only [List.map_cons, List.count_cons, List.filter_cons, ih]
    by_cases h : f a = i
    · simp [h]
    · simp [h]

theorem count_filter_beq (l : List T) (a : T) :
    l.count a = (l.filter fun v => v == a).length := by
  rw [List.count, List.countP_eq_length_filter]

theorem arrM_countsArr (values : List T)
    (hlen : values.length ≤ PERMUTATION_FIXED_LENGTH) :
    arrM (countsArr values)
      = ↑(values.map fun v => (distinctInOrder values).indexOf v) := by
  have hdlen : (distinctInOrder values).length ≤ PERMUTATION_FIXED_LENGTH :=
    le_trans (length_distinctInOrder values) hlen
  rw [Multiset.ext]
  intro i
  rw [count_arrM, Multiset.coe_count, countsArr_getD, count_map_eq_length_filter]
  by_cases hi : i < (distinctInOrder values).length
  · rw [if_pos (by omega)]
    rw [List.get?_eq_getElem?, List.getElem?_eq_getElem hi]
    simp only [Option.elim_some]
    have hfilter : (values.filter fun v => decide ((distinctInOrder values).indexOf v = i))
        = values.filter fun v => v == (distinctInOrder values)[i] := by
      apply List.filter_congr
      intro x hx
      have hxd : x ∈ distinctInOrder values := mem_distinctInOrder.mpr hx
      have hiff : (distinctInOrder values).indexOf x = i
          ↔ x = (distinctInOrder values)[i] := by
        constructor
        · intro h
          have hxe : (distinctInOrder values).get? ((distinctInOrder values).indexOf x)
              = some x := get?_indexOf hxd
          rw [h, List.get?_eq_getElem?, List.getElem?_eq_getElem hi] at hxe
          simpa using hxe.symm
        · intro h
          rw [h]
          exact List.indexOf_getElem (nodup_distinctInOrder values) i hi
      by_cases h : (distinctInOrder values).indexOf x = i
      · rw [show decide ((distinctInOrder values).indexOf x = i) = true from by simp [h],
          show (x == (distinctInOrder values)[i]) = true from by
            simp only [beq_iff_eq]
            exact hiff.mp h]
      · rw [show decide ((distinctInOrder values).indexOf x = i) = false from by simp [h],
          show (x == (distinctInOrder values)[i]) = false from by
            simp only [beq_eq_false_iff_ne]
            exact fun hc => h (hiff.mpr hc)]
    rw [hfilter, ← count_filter_beq]
  · have hfe : (values.filter fun v => decide ((distinctInOrder values).indexOf v = i))
        = [] := by
      rw [List.filter_eq_nil_iff]
      intro x hx
      have hxd : x ∈ distinctInOrder values := mem_distinctInOrder.mpr hx
      have := List.indexOf_lt_length.mpr hxd
      simp only [decide_eq_true_eq]
      omega
    rw [hfe]
    by_cases h128 : i < PERMUTATION_FIXED_LENGTH
    · rw [if_pos h128]
      have hge : (distinctInOrder values).get? i = none := by
        rw [List.get?_eq_getElem?]
        exact List.getElem?_eq_none (by omega)
      rw [hge]
      rfl
    · rw [if_neg h128]
      rfl

theorem card_idM (values : List T) (hlen : values.length ≤ PERMUTATION_FIXED_LENGTH) :
    Multiset.card (arrM (countsArr values)) = values.length := by
  rw [arrM_countsArr values hlen, Multiset.coe_card, List.length_map]

theorem toId_getElem_cancel {values : List T} {x : T} (hx : x ∈ values) :
    ∃ h : (distinctInOrder values).indexOf x < (distinctInOrder values).length,
      (distinctInOrder values)[(distinctInOrder values).indexOf x] = x := by
  have hxd : x ∈ distinctInOrder values := mem_distinctInOrder.mpr hx
  exact ⟨List.indexOf_lt_length.mpr hxd,
    List.getElem_indexOf (List.indexOf_lt_length.mpr hxd)⟩

theorem count_map_of_inj_on (l : List T) (f : T → Nat) (x : T)
    (hinj : ∀ y ∈ l, f y = f x → y = x) :
    (l.map f).count (f x) = l.count x := by
  induction l with
  | nil => rfl
  | cons a rest ih =>
    simp only [List.map_cons, List.count_cons]
    rw [ih (fun y hy => hinj y (List.mem_cons_of_mem _ hy))]
    by_cases h : a = x
    · subst h
      simp
    · have hfa : ¬ (f a == f x) = true := by
        simp only [beq_iff_eq]
        intro hc
        exact h (hinj a (List.mem_cons_self _ _) hc)
      have hax : ¬ (a == x) = true := by
        simp only [beq_iff_eq]
        exact h
      simp [hfa, hax]

/-! ## Compact-engine instantiation -/

theorem set_take_concat (l : List Nat) (n v : Nat) (h : n < l.length) :
    (l.set n v).take (n + 1) = l.take n ++ [v] := by
  rw [List.set_eq_take_append_cons_drop, if_pos h]
  rw [show n + 1 = (l.take n).length + 1 from by rw [List.length_take]; omega]
  rw [List.take_append 1, List.take_succ_cons, List.take_zero]

theorem set_drop_succ (l : List Nat) (n v : Nat) (h : n < l.length) :
    (l.set n v).drop (n + 1) = l.drop (n + 1) := by
  rw [List.set_eq_take_append_cons_drop, if_pos h]
  rw [show n + 1 = (l.take n).length + 1 from by rw [List.length_take]; omega]
  rw [List.drop_append 1]
  rfl

theorem OInv.lenAddCard {idM : Multiset Nat} {N : Nat} {j : OptimizedJob}
    (hInv : OInv idM N j) (hcard : Multiset.card idM = N) :
    j.permutation_length + Multiset.card (arrM j.compressed_values) = N := by
  have h := congrArg Multiset.card hInv.mass
  rw [Multiset.card_add, Multiset.coe_card, List.length_take, hInv.cpLen, hcard] at h
  have h1 := hInv.plLe
  have h2 := hInv.nLe
  omega

theorem OInv.withNewValueInv {idM : Multiset Nat} {N : Nat} {j : OptimizedJob}
    (hInv : OInv idM N j) (hcard : Multiset.card idM = N)
    {i c : Nat} (hic : j.compressed_values[i]? = some c) (hc : 0 < c) :
    OInv idM N (j.with_new_value i) := by
  obtain ⟨hilt, higet⟩ := List.getElem?_eq_some_iff.mp hic
  have hi128 : i < PERMUTATION_FIXED_LENGTH := by
    have := hInv.cvLen
    omega
  have hgetD : j.compressed_values.getD i 0 = c := by
    rw [List.getD_eq_getElem?_getD, hic]
    rfl
  have hmem : i ∈ arrM j.compressed_values := mem_arrM.mpr (by omega)
  have hcpos : 0 < Multiset.card (arrM j.compressed_values) :=
    Multiset.card_pos_iff_exists_mem.mpr ⟨i, hmem⟩
  have hlen := hInv.lenAddCard hcard
  have hplN : j.permutation_length < N := by omega
  have hpl128 : j.permutation_length < PERMUTATION_FIXED_LENGTH := by
    have := hInv.nLe
    omega
  have hcp : j.permutation_length < j.compressed_permutation.length := by
    rw [hInv.cpLen]
    exact hpl128
  constructor
  · rw [OptimizedJob.with_new_value]
    simp only [List.length_set]
    exact hInv.cvLen
  · rw [OptimizedJob.with_new_value]
    simp only [List.length_set]
    exact hInv.cpLen
  · show j.permutation_length + 1 ≤ N
    omega
  · exact hInv.nLe
  · show (↑((j.compressed_permutation.set j.permutation_length i).take
        (j.permutation_length + 1)) : Multiset Nat)
      + arrM (j.compressed_values.set i (j.compressed_values.getD i 0 - 1)) = idM
    rw [set_take_concat _ _ _ hcp]
    have hdec := @arrM_set_decrement j.compressed_values i
      (by rw [hInv.cvLen]; exact hi128) (by omega)
    rw [← Multiset.coe_add]
    have hsing : (↑([i] : List Nat) : Multiset Nat) = {i} := rfl
    rw [hsing, add_assoc, add_comm ({i} : Multiset Nat)
      (arrM (j.compressed_values.set i (j.compressed_values.getD i 0 - 1)))]
    rw [← add_assoc]
    conv_lhs => rw [add_assoc, hdec]
    exact hInv.mass
  · show (j.compressed_permutation.set j.permutation_length i).drop
        (j.permutation_length + 1)
      = List.replicate (PERMUTATION_FIXED_LENGTH - (j.permutation_length + 1)) 0
    rw [set_drop_succ _ _ _ hcp]
    have hdrop : j.compressed_permutation.drop (j.permutation_length + 1)
        = (j.compressed_permutation.drop j.permutation_length).drop 1 := by
      rw [List.drop_drop]
    rw [hdrop, hInv.suffixZero]
    have hrep : List.replicate (PERMUTATION_FIXED_LENGTH - j.permutation_length) 0
        = 0 :: List.replicate (PERMUTATION_FIXED_LENGTH - j.permutation_length - 1) 0 := by
      rw [← List.replicate_succ]
      congr 1
      omega
    rw [hrep]
    simp only [List.drop_succ_cons, List.drop_zero]
    congr 1

theorem filter_pos_length_le_sum (l : List (Nat × Nat)) :
    (l.filter fun p => decide (0 < p.2)).length ≤ (l.map Prod.snd).sum := by
  induction l with
  | nil => simp
  | cons p rest ih =>
    obtain ⟨k, c⟩ := p
    by_cases h : 0 < c
    · simp only [List.filter_cons, List.map_cons, List.sum_cons]
      rw [if_pos (by simpa using h)]
      simp only [List.length_cons]
      omega
    · simp only [List.filter_cons, List.map_cons, List.sum_cons]
      rw [if_neg (by simpa using h)]
      omega

theorem oLoopHyps (idM : Multiset Nat) (N : Nat)
    (hcard : Multiset.card idM = N) :
    LoopHyps OptimizedJob.compute_next_jobs OptimizedJob.is_ready
      OptimizedJob.permutation (OInv idM N)
      (fun j => N - j.permutation_length) := by
  constructor
  · intro j hInv j' hj'
    obtain ⟨p, hp, rfl⟩ := mem_optimized_next_jobs.mp hj'
    obtain ⟨hpg, hppos⟩ := mem_filter_enum_pos.mp hp
    exact hInv.withNewValueInv hcard hpg hppos
  · intro j hInv j' hj'
    obtain ⟨p, hp, rfl⟩ := mem_optimized_next_jobs.mp hj'
    obtain ⟨hpg, hppos⟩ := mem_filter_enum_pos.mp hp
    obtain ⟨hilt, _⟩ := List.getElem?_eq_some_iff.mp hpg
    have hgetD : j.compressed_values.getD p.1 0 = p.2 := by
      rw [List.getD_eq_getElem?_getD, hpg]
      rfl
    have hmem : p.1 ∈ arrM j.compressed_values := mem_arrM.mpr (by omega)
    have hcpos : 0 < Multiset.card (arrM j.compressed_values) :=
      Multiset.card_pos_iff_exists_mem.mpr ⟨p.1, hmem⟩
    have hlen := hInv.lenAddCard hcard
    show N - (j.permutation_length + 1) < N - j.permutation_length
    omega
  · intro j hInv
    have hlen := hInv.lenAddCard hcard
    have h1 : (j.compute_next_jobs).length
        = (j.compressed_values.enum.filter fun p => decide (0 < p.2)).length := by
      simp [OptimizedJob.compute_next_jobs]
    have h2 := filter_pos_length_le_sum j.compressed_values.enum
    rw [List.enum_map_snd] at h2
    have h3 : j.compressed_values.sum = Multiset.card (arrM j.compressed_values) :=
      (card_arrM _).symm
    omega
  · intro j hInv first_job others hstep hready
    have hlen := hInv.lenAddCard hcard
    obtain ⟨p₀, ps, hm⟩ : ∃ p₀ ps,
        (j.compressed_values.enum.filter fun p => decide (0 < p.2)) = p₀ :: ps := by
      cases hmm : (j.compressed_values.enum.filter fun p => decide (0 < p.2)) with
      | nil =>
        rw [OptimizedJob.compute_next_jobs, hmm] at hstep
        simp at hstep
      | cons a ll => exact ⟨a, ll, rfl⟩
    rw [OptimizedJob.compute_next_jobs, hm] at hstep
    simp only [List.map_cons, List.cons.injEq] at hstep
    obtain ⟨hfirst, hothers⟩ := hstep
    have hp₀ : p₀ ∈ j.compressed_values.enum.filter fun p => decide (0 < p.2) := by
      rw [hm]
      exact List.mem_cons_self _ _
    obtain ⟨hpg, hppos⟩ := mem_filter_enum_pos.mp hp₀
    obtain ⟨hilt, _⟩ := List.getElem?_eq_some_iff.mp hpg
    have hgetD : j.compressed_values.getD p₀.1 0 = p₀.2 := by
      rw [List.getD_eq_getElem?_getD, hpg]
      rfl
    -- the ready first child forces the whole remaining multiset to be one id
    have hchild := hInv.withNewValueInv hcard hpg hppos
    have hz : arrM (j.with_new_value p₀.1).compressed_values = 0 := by
      rw [← optimized_is_ready_iff hchild.cvLen, hfirst]
      exact hready
    have hdec := @arrM_set_decrement j.compressed_values p₀.1
      (by rw [hInv.cvLen]
          have := hInv.cvLen
          omega)
      (by omega)
    have harr : arrM j.compressed_values = {p₀.1} := by
      have : arrM (j.with_new_value p₀.1).compressed_values + {p₀.1}
          = arrM j.compressed_values := by
        show arrM (j.compressed_values.set p₀.1 (j.compressed_values.getD p₀.1 0 - 1))
            + {p₀.1} = arrM j.compressed_values
        exact hdec
      rw [hz] at this
      rw [← this]
      simp
    have hsum1 : j.compressed_values.sum = 1 := by
      have := card_arrM j.compressed_values
      rw [harr] at this
      simpa using this.symm
    have hlenm := filter_pos_length_le_sum j.compressed_values.enum
    rw [List.enum_map_snd, hsum1, hm] at hlenm
    simp only [List.length_cons] at hlenm
    have hps : ps = [] := by
      cases ps with
      | nil => rfl
      | cons a l => simp at hlenm
    subst hps
    simpa using hothers.symm

theorem oInv_set_perm_eq {idM : Multiset Nat} {N : Nat} {j : OptimizedJob}
    (hInv : OInv idM N j) (hplN : j.permutation_length < N) (v : Nat) :
    j.compressed_permutation.set j.permutation_length v
      = j.compressed_permutation.take j.permutation_length ++ v ::
        List.replicate (PERMUTATION_FIXED_LENGTH - j.permutation_length - 1) 0 := by
  have hcp : j.permutation_length < j.compressed_permutation.length := by
    rw [hInv.cpLen]
    have := hInv.nLe
    omega
  rw [List.set_eq_take_append_cons_drop, if_pos hcp]
  congr 2
  have hdrop : j.compressed_permutation.drop (j.permutation_length + 1)
      = (j.compressed_permutation.drop j.permutation_length).drop 1 := by
    rw [List.drop_drop]
  rw [hdrop, hInv.suffixZero]
  have hrep : List.replicate (PERMUTATION_FIXED_LENGTH - j.permutation_length) 0
      = 0 :: List.replicate (PERMUTATION_FIXED_LENGTH - j.permutation_length - 1) 0 := by
    rw [← List.replicate_succ]
    congr 1
    have := hInv.nLe
    omega
  rw [hrep]
  simp

theorem oChild_decrement {j : OptimizedJob} {i c : Nat}
    (hic : j.compressed_values[i]? = some c) (hc : 0 < c) :
    arrM (j.with_new_value i).compressed_values + {i} = arrM j.compressed_values := by
  obtain ⟨hilt, _⟩ := List.getElem?_eq_some_iff.mp hic
  have hgetD : j.compressed_values.getD i 0 = c := by
    rw [List.getD_eq_getElem?_getD, hic]
    rfl
  exact arrM_set_decrement hilt (by omega)

theorem oReady_child_arrM {idM : Multiset Nat} {N : Nat} {j : OptimizedJob}
    (hInv : OInv idM N j) {p₀ : Nat × Nat}
    (hp₀ : p₀ ∈ j.compressed_values.enum.filter fun p => decide (0 < p.2))
    (hready : (j.with_new_value p₀.1).is_ready = true) :
    arrM j.compressed_values = {p₀.1} := by
  obtain ⟨hpg, hppos⟩ := mem_filter_enum_pos.mp hp₀
  have hchild : ((j.with_new_value p₀.1).compressed_values).length
      = PERMUTATION_FIXED_LENGTH := by
    rw [OptimizedJob.with_new_value]
    simp only [List.length_set]
    exact hInv.cvLen
  have hz : arrM (j.with_new_value p₀.1).compressed_values = 0 :=
    (optimized_is_ready_iff hchild).mp hready
  have hdec := oChild_decrement hpg hppos
  rw [hz] at hdec
  rw [← hdec]
  simp

theorem oFirst_ready_of_rank_one {idM : Multiset Nat} {N : Nat} {j : OptimizedJob}
    (hInv : OInv idM N j) (hcard : Multiset.card idM = N) {p₀ : Nat × Nat}
    (hp₀ : p₀ ∈ j.compressed_values.enum.filter fun p => decide (0 < p.2))
    (hrank : j.permutation_length + 1 = N) :
    (j.with_new_value p₀.1).is_ready = true := by
  obtain ⟨hpg, hppos⟩ := mem_filter_enum_pos.mp hp₀
  have hlen := hInv.lenAddCard hcard
  have hcard1 : Multiset.card (arrM j.compressed_values) = 1 := by omega
  obtain ⟨w, hw⟩ := Multiset.card_eq_one.mp hcard1
  have hgetD : j.compressed_values.getD p₀.1 0 = p₀.2 := by
    rw [List.getD_eq_getElem?_getD, hpg]
    rfl
  have hpmem : p₀.1 ∈ arrM j.compressed_values := mem_arrM.mpr (by omega)
  have hpw : p₀.1 = w := by
    rw [hw] at hpmem
    simpa using hpmem
  have hdec := oChild_decrement hpg hppos
  have hz : arrM (j.with_new_value p₀.1).compressed_values = 0 := by
    rw [hw, ← hpw] at hdec
    have := congrArg Multiset.card hdec
    simp only [Multiset.card_add, Multiset.card_singleton] at this
    exact Multiset.card_eq_zero.mp (by omega)
  have hchild : ((j.with_new_value p₀.1).compressed_values).length
      = PERMUTATION_FIXED_LENGTH := by
    rw [OptimizedJob.with_new_value]
    simp only [List.length_set]
    exact hInv.cvLen
  exact (optimized_is_ready_iff hchild).mpr hz

theorem mem_arrM_to_filter {arr : List Nat} {v : Nat} (hv : v ∈ arrM arr) :
    (v, arr.getD v 0) ∈ arr.enum.filter fun p => decide (0 < p.2) := by
  have hpos : 0 < arr.getD v 0 := mem_arrM.mp hv
  have hlt : v < arr.length := by
    by_contra hcon
    rw [List.getD_eq_getElem?_getD, List.getElem?_eq_none (by omega)] at hpos
    simp at hpos
  apply mem_filter_enum_pos.mpr
  constructor
  · rw [List.getElem?_eq_getElem hlt]
    show some arr[v] = some (arr.getD v 0)
    rw [List.getD_eq_getElem arr 0 hlt]
  · exact hpos

theorem ojobOut_mem {idM : Multiset Nat} {N : Nat}
    (hcard : Multiset.card idM = N) :
    ∀ n (j : OptimizedJob), N - j.permutation_length ≤ n → OInv idM N j →
      1 ≤ N - j.permutation_length →
      ∀ arr, (arr ∈ jobOut OptimizedJob.compute_next_jobs OptimizedJob.is_ready
            OptimizedJob.permutation (fun j => N - j.permutation_length) j ↔
        ∃ s : List Nat, (↑s : Multiset Nat) = arrM j.compressed_values ∧
          arr = j.compressed_permutation.take j.permutation_length ++ s
            ++ List.replicate (PERMUTATION_FIXED_LENGTH - N) 0) := by
  intro n
  induction n with
  | zero =>
    intro j hn hInv hr
    omega
  | succ n ih =>
    intro j hn hInv hr arr
    have hlen := hInv.lenAddCard hcard
    have hplN : j.permutation_length < N := by omega
    have hcpos : 0 < Multiset.card (arrM j.compressed_values) := by omega
    obtain ⟨w₀, hw₀⟩ := Multiset.card_pos_iff_exists_mem.mp hcpos
    have hw₀f := mem_arrM_to_filter hw₀
    obtain ⟨p₀, ps, hm⟩ : ∃ p₀ ps,
        (j.compressed_values.enum.filter fun p => decide (0 < p.2)) = p₀ :: ps := by
      cases hmm : (j.compressed_values.enum.filter fun p => decide (0 < p.2)) with
      | nil =>
        rw [hmm] at hw₀f
        simp at hw₀f
      | cons a ll => exact ⟨a, ll, rfl⟩
    have hp₀ : p₀ ∈ j.compressed_values.enum.filter fun p => decide (0 < p.2) := by
      rw [hm]
      exact List.mem_cons_self _ _
    obtain ⟨hpg, hppos⟩ := mem_filter_enum_pos.mp hp₀
    have hstep : j.compute_next_jobs
        = j.with_new_value p₀.1 :: ps.map (fun p => j.with_new_value p.1) := by
      rw [OptimizedJob.compute_next_jobs, hm]
      simp
    by_cases hready : (j.with_new_value p₀.1).is_ready
    · -- the single remaining id completes the permutation
      have harr : arrM j.compressed_values = {p₀.1} :=
        oReady_child_arrM hInv hp₀ hready
      have hN : j.permutation_length + 1 = N := by
        have h1 := congrArg Multiset.card harr
        simp only [Multiset.card_singleton] at h1
        omega
      have hothers : ps.map (fun p => j.with_new_value p.1) = [] := by
        have := (oLoopHyps idM N hcard).ready_single j hInv _ _ hstep hready
        exact this
      rw [hothers] at hstep
      rw [jobOut_of_ready OptimizedJob.permutation _ hstep hready]
      have hout : OptimizedJob.permutation (j.with_new_value p₀.1)
          = j.compressed_permutation.take j.permutation_length ++ p₀.1 ::
            List.replicate (PERMUTATION_FIXED_LENGTH - N) 0 := by
        show j.compressed_permutation.set j.permutation_length p₀.1 = _
        rw [oInv_set_perm_eq hInv hplN]
        congr 3
        omega
      constructor
      · intro hl
        simp only [List.map_cons, List.map_nil, List.mem_cons, List.not_mem_nil,
          or_false] at hl
        refine ⟨[p₀.1], by rw [harr]; rfl, ?_⟩
        rw [hl, hout]
        simp
      · rintro ⟨s, hs, rfl⟩
        rw [harr] at hs
        have hsv : s = [p₀.1] := Multiset.coe_eq_singleton.mp hs
        subst hsv
        simp only [List.map_cons, List.map_nil, List.mem_cons, List.not_mem_nil,
          or_false]
        rw [hout]
        simp
    · -- no child is complete yet: recurse into each child
      have hreadyF : (j.with_new_value p₀.1).is_ready = false := by
        cases hb : (j.with_new_value p₀.1).is_ready
        · rfl
        · exact absurd hb hready
      have hr2 : j.permutation_length + 1 ≠ N := by
        intro hc
        exact hready (oFirst_ready_of_rank_one hInv hcard hp₀ hc)
      rw [jobOut_of_not_ready (oLoopHyps idM N hcard) hInv hstep hreadyF]
      rw [← hstep]
      constructor
      · intro hl
        obtain ⟨child, hchild, hlc⟩ := List.mem_flatMap.mp hl
        obtain ⟨p, hp, rfl⟩ := mem_optimized_next_jobs.mp hchild
        obtain ⟨hpg', hppos'⟩ := mem_filter_enum_pos.mp hp
        have hInvC := hInv.withNewValueInv hcard hpg' hppos'
        have hrc : 1 ≤ N - (j.with_new_value p.1).permutation_length := by
          show 1 ≤ N - (j.permutation_length + 1)
          omega
        have hnc : N - (j.with_new_value p.1).permutation_length ≤ n := by
          show N - (j.permutation_length + 1) ≤ n
          omega
        obtain ⟨s', hs', hla⟩ := (ih _ hnc hInvC hrc arr).mp hlc
        have hdec := oChild_decrement hpg' hppos'
        have hcp : j.permutation_length < j.compressed_permutation.length := by
          rw [hInv.cpLen]
          have := hInv.nLe
          omega
        refine ⟨p.1 :: s', ?_, ?_⟩
        · rw [← Multiset.cons_coe, ← Multiset.singleton_add, hs']
          rw [add_comm]
          exact hdec
        · rw [hla]
          have htake : ((j.with_new_value p.1).compressed_permutation).take
              ((j.with_new_value p.1).permutation_length)
              = j.compressed_permutation.take j.permutation_length ++ [p.1] := by
            show (j.compressed_permutation.set j.permutation_length p.1).take
              (j.permutation_length + 1) = _
            exact set_take_concat _ _ _ hcp
          rw [htake]
          simp
      · rintro ⟨s, hs, rfl⟩
        cases s with
        | nil =>
          have h0 : Multiset.card (arrM j.compressed_values) = 0 := by
            rw [← hs]
            simp
          omega
        | cons v s' =>
          have hvmem : v ∈ arrM j.compressed_values := by
            rw [← hs]
            simp
          have hvf := mem_arrM_to_filter hvmem
          have hpg' : j.compressed_values[v]? = some (j.compressed_values.getD v 0) :=
            (mem_filter_enum_pos.mp hvf).1
          have hppos' : 0 < j.compressed_values.getD v 0 :=
            (mem_filter_enum_pos.mp hvf).2
          have hdec := oChild_decrement hpg' hppos'
          have hs' : (↑s' : Multiset Nat)
              = arrM (j.with_new_value v).compressed_values := by
            have h1 : ({v} : Multiset Nat) + ↑s' = arrM j.compressed_values := by
              rw [← hs, ← Multiset.cons_coe, Multiset.singleton_add]
            have h2 : ({v} : Multiset Nat)
                + arrM (j.with_new_value v).compressed_values
                = arrM j.compressed_values := by
              rw [add_comm]
              exact hdec
            exact add_left_cancel (h1.trans h2.symm)
          have hInvC := hInv.withNewValueInv hcard hpg' hppos'
          have hrc : 1 ≤ N - (j.with_new_value v).permutation_length := by
            show 1 ≤ N - (j.permutation_length + 1)
            omega
          have hnc : N - (j.with_new_value v).permutation_length ≤ n := by
            show N - (j.permutation_length + 1) ≤ n
            omega
          have hcp : j.permutation_length < j.compressed_permutation.length := by
            rw [hInv.cpLen]
            have := hInv.nLe
            omega
          refine List.mem_flatMap.mpr ⟨j.with_new_value v,
            mem_optimized_next_jobs.mpr ⟨(v, j.compressed_values.getD v 0), hvf, rfl⟩, ?_⟩
          refine (ih _ hnc hInvC hrc _).mpr ⟨s', hs', ?_⟩
          have htake : ((j.with_new_value v).compressed_permutation).take
              ((j.with_new_value v).permutation_length)
              = j.compressed_permutation.take j.permutation_length ++ [v] := by
            show (j.compressed_permutation.set j.permutation_length v).take
              (j.permutation_length + 1) = _
            exact set_take_concat _ _ _ hcp
          rw [htake]
          simp

/-! ## Compact-engine root and run lemmas -/

theorem oRoot_inv (values : List T) (hlen : values.length ≤ PERMUTATION_FIXED_LENGTH) :
    OInv (arrM (countsArr values)) values.length
      (OptimizedJob.new (compress_values values).1) := by
  have hcv : (compress_values values).1 = countsArr values := by
    rw [compress_values_eq values hlen]
  constructor
  · show (compress_values values).1.length = PERMUTATION_FIXED_LENGTH
    rw [hcv, countsArr_length]
  · show zeroed_fixed_array.length = PERMUTATION_FIXED_LENGTH
    rw [zeroed_fixed_array, List.length_replicate]
  · exact Nat.zero_le _
  · exact hlen
  · show (↑(zeroed_fixed_array.take 0) : Multiset Nat)
        + arrM (compress_values values).1 = arrM (countsArr values)
    rw [hcv, List.take_zero]
    simp
  · show zeroed_fixed_array.drop 0 = List.replicate (PERMUTATION_FIXED_LENGTH - 0) 0
    rw [List.drop_zero, zeroed_fixed_array, Nat.sub_zero]

theorem optimized_run_spec (values : List T)
    (hlen : values.length ≤ PERMUTATION_FIXED_LENGTH) (size : Nat) (hsz : 0 < size)
    (fuel : Nat) (css : List (List (List Nat)))
    (h : runChunks OptimizedJob.compute_next_jobs OptimizedJob.is_ready
        OptimizedJob.permutation fuel
        [OptimizedJob.new (compress_values values).1] size = some css) :
    (↑css.flatten : Multiset (List Nat))
      = ↑(jobOut OptimizedJob.compute_next_jobs OptimizedJob.is_ready
          OptimizedJob.permutation (fun j => values.length - j.permutation_length)
          (OptimizedJob.new (compress_values values).1)) ∧
    (∀ c ∈ css, 1 ≤ c.length ∧ c.length ≤ size) ∧
    (∀ c ∈ css.dropLast, c.length = size) := by
  have hcard := card_idM values hlen
  have hq : ∀ j ∈ [OptimizedJob.new (compress_values values).1],
      OInv (arrM (countsArr values)) values.length j := by
    intro j hj
    rcases List.mem_cons.mp hj with rfl | hj
    · exact oRoot_inv values hlen
    · simp at hj
  obtain ⟨s1, s2, s3⟩ :=
    runChunks_spec (oLoopHyps (arrM (countsArr values)) values.length hcard)
      fuel _ size css hq hsz h
  rw [mOut_cons, mOut_nil, add_zero] at s1
  exact ⟨s1, s2, s3⟩

theorem optimized_run_total (values : List T)
    (hlen : values.length ≤ PERMUTATION_FIXED_LENGTH) (size : Nat) (hsz : 0 < size) :
    ∃ fuel css, runChunks OptimizedJob.compute_next_jobs OptimizedJob.is_ready
      OptimizedJob.permutation fuel
      [OptimizedJob.new (compress_values values).1] size = some css := by
  have hcard := card_idM values hlen
  have hq : ∀ j ∈ [OptimizedJob.new (compress_values values).1],
      OInv (arrM (countsArr values)) values.length j := by
    intro j hj
    rcases List.mem_cons.mp hj with rfl | hj
    · exact oRoot_inv values hlen
    · simp at hj
  obtain ⟨css, hcss⟩ :=
    runChunks_total (oLoopHyps (arrM (countsArr values)) values.length hcard)
      (weightQ (fun j => values.length - j.permutation_length)
        [OptimizedJob.new (compress_values values).1])
      _ size hq hsz le_rfl
  exact ⟨_, css, hcss⟩

theorem oRootOut_mem (values : List T)
    (hlen : values.length ≤ PERMUTATION_FIXED_LENGTH) (hne : values ≠ [])
    (arr : List Nat) :
    (arr ∈ jobOut OptimizedJob.compute_next_jobs OptimizedJob.is_ready
        OptimizedJob.permutation (fun j => values.length - j.permutation_length)
        (OptimizedJob.new (compress_values values).1) ↔
      ∃ s : List Nat, (↑s : Multiset Nat) = arrM (countsArr values) ∧
        arr = s ++ List.replicate (PERMUTATION_FIXED_LENGTH - values.length) 0) := by
  have hcard := card_idM values hlen
  have hpos : 0 < values.length := List.length_pos.mpr hne
  have hroot := oRoot_inv values hlen
  have hr : 1 ≤ values.length
      - (OptimizedJob.new (compress_values values).1).permutation_length := by
    show 1 ≤ values.length - 0
    omega
  rw [ojobOut_mem hcard values.length _ (by show values.length - 0 ≤ _; omega) hroot hr arr]
  constructor
  · rintro ⟨s, hs, rfl⟩
    refine ⟨s, ?_, ?_⟩
    · rw [hs]
      show arrM (compress_values values).1 = arrM (countsArr values)
      rw [compress_values_eq values hlen]
    · show (OptimizedJob.new (compress_values values).1).compressed_permutation.take 0
          ++ s ++ _ = s ++ _
      rw [List.take_zero]
      rfl
  · rintro ⟨s, hs, rfl⟩
    refine ⟨s, ?_, ?_⟩
    · rw [hs]
      show arrM (countsArr values) = arrM (compress_values values).1
      rw [compress_values_eq values hlen]
    · show s ++ _
        = (OptimizedJob.new (compress_values values).1).compressed_permutation.take 0
          ++ s ++ _
      rw [List.take_zero]
      rfl

theorem oRootOut_nil (values : List T)
    (hlen : values.length ≤ PERMUTATION_FIXED_LENGTH) (hvnil : values = []) :
    jobOut OptimizedJob.compute_next_jobs OptimizedJob.is_ready
      OptimizedJob.permutation (fun j => values.length - j.permutation_length)
      (OptimizedJob.new (compress_values values).1) = [] := by
  subst hvnil
  have hcv : (compress_values ([] : List T)).1 = countsArr ([] : List T) := by
    rw [compress_values_eq ([] : List T) (by simp)]
  have hstep : (OptimizedJob.new (compress_values ([] : List T)).1).compute_next_jobs
      = [] := by
    rw [OptimizedJob.compute_next_jobs]
    rw [List.filter_eq_nil_iff.mpr ?_]
    · simp
    · intro p hp
      show ¬ decide (0 < p.2) = true
      have : (OptimizedJob.new (compress_values ([] : List T)).1).compressed_values
          = zeroed_fixed_array := by
        show (compress_values ([] : List T)).1 = zeroed_fixed_array
        rw [hcv]
        have := canonState_nil (T := T)
        have hc : countsArr ([] : List T) = zeroed_fixed_array := by
          have h1 := congrArg CompressState.compressed_values this
          exact h1
        exact hc
      rw [this] at hp
      rw [List.mem_enum_iff_getElem?] at hp
      rw [zeroed_fixed_array] at hp
      rw [List.getElem?_replicate] at hp
      by_cases hlt : p.1 < PERMUTATION_FIXED_LENGTH
      · rw [if_pos hlt] at hp
        simp only [Option.some.injEq] at hp
        simp [← hp]
      · rw [if_neg hlt] at hp
        exact absurd hp (by simp)
  exact jobOut_of_step_nil OptimizedJob.is_ready OptimizedJob.permutation _ hstep

/-! ## Decoding lemmas -/

theorem mapM_congr_option {β : Type} {f g : Nat → Option β} :
    ∀ (s : List Nat), (∀ k ∈ s, f k = g k) → s.mapM f = s.mapM g := by
  intro s
  induction s with
  | nil => intro _; rfl
  | cons k rest ih =>
    intro h
    rw [List.mapM_cons, List.mapM_cons, h k (List.mem_cons_self _ _),
      ih fun x hx => h x (List.mem_cons_of_mem _ hx)]

theorem mapM_get_decode {values : List T} :
    ∀ (s : List Nat) (l : List T),
      s.mapM (fun k => (distinctInOrder values).get? k) = some l →
      (∀ x ∈ l, x ∈ distinctInOrder values) ∧
      l.map (fun v => (distinctInOrder values).indexOf v) = s := by
  intro s
  induction s with
  | nil =>
    intro l h
    rw [List.mapM_nil] at h
    simp only [pure, Option.some.injEq] at h
    subst h
    exact ⟨by simp, rfl⟩
  | cons k rest ih =>
    intro l h
    rw [List.mapM_cons] at h
    cases hk : (distinctInOrder values).get? k with
    | none =>
      rw [hk] at h
      simp at h
    | some x =>
      rw [hk] at h
      cases hrest : rest.mapM (fun k => (distinctInOrder values).get? k) with
      | none =>
        rw [hrest] at h
        simp at h
      | some l' =>
        rw [hrest] at h
        simp only [Option.bind_eq_bind, Option.some_bind, pure,
          Option.some.injEq] at h
        subst h
        obtain ⟨hmem, hmap⟩ := ih l' hrest
        rw [List.get?_eq_getElem?] at hk
        obtain ⟨hklt, hkx⟩ := List.getElem?_eq_some_iff.mp hk
        constructor
        · intro y hy
          rcases List.mem_cons.mp hy with rfl | hy
          · rw [← hkx]
            exact List.getElem_mem _
          · exact hmem y hy
        · simp only [List.map_cons, hmap]
          congr 1
          rw [← hkx]
          exact List.indexOf_getElem (nodup_distinctInOrder values) k hklt

theorem decode_gives_perm {values : List T}
    (hlen : values.length ≤ PERMUTATION_FIXED_LENGTH)
    {s : List Nat} {l : List T}
    (hs : (↑s : Multiset Nat) = arrM (countsArr values))
    (hmap : s.mapM (fun k => (distinctInOrder values).get? k) = some l) :
    l.Perm values := by
  obtain ⟨hmem, hmapid⟩ := mapM_get_decode s l hmap
  have hmemv : ∀ x ∈ l, x ∈ values := fun x hx =>
    mem_distinctInOrder.mp (hmem x hx)
  have hinj : ∀ (x : T), x ∈ values →
      ∀ y, y ∈ distinctInOrder values →
      (distinctInOrder values).indexOf y = (distinctInOrder values).indexOf x →
      y = x := by
    intro x hx y hy heq
    obtain ⟨h1, h2⟩ := toId_getElem_cancel hx
    obtain ⟨h1y, h2y⟩ := toId_getElem_cancel (mem_distinctInOrder.mp hy)
    rw [← h2y, ← h2]
    congr 1
  rw [List.perm_iff_count]
  intro x
  by_cases hx : x ∈ values
  · have hc1 : (l.map fun v => (distinctInOrder values).indexOf v).count
        ((distinctInOrder values).indexOf x) = l.count x :=
      count_map_of_inj_on l _ x (fun y hy heq =>
        hinj x hx y (hmem y hy) heq)
    have hc2 : (values.map fun v => (distinctInOrder values).indexOf v).count
        ((distinctInOrder values).indexOf x) = values.count x :=
      count_map_of_inj_on values _ x (fun y hy heq =>
        hinj x hx y (mem_distinctInOrder.mpr hy) heq)
    have hsc : s.count ((distinctInOrder values).indexOf x)
        = (values.map fun v => (distinctInOrder values).indexOf v).count
          ((distinctInOrder values).indexOf x) := by
      have h1 := congrArg (Multiset.count ((distinctInOrder values).indexOf x)) hs
      rw [Multiset.coe_count, arrM_countsArr values hlen, Multiset.coe_count] at h1
      exact h1
    rw [← hc1, hmapid, hsc, hc2]
  · have h1 : l.count x = 0 := List.count_eq_zero.mpr fun hc => hx (hmemv x hc)
    have h2 : values.count x = 0 := List.count_eq_zero.mpr hx
    rw [h1, h2]

theorem mapM_map_toId {values : List T} :
    ∀ (l : List T), (∀ x ∈ l, x ∈ values) →
      ((l.map fun v => (distinctInOrder values).indexOf v).mapM
        fun k => (distinctInOrder values).get? k) = some l := by
  intro l
  induction l with
  | nil => intro _; rfl
  | cons x rest ih =>
    intro h
    have hx : x ∈ values := h x (List.mem_cons_self _ _)
    have hxd : x ∈ distinctInOrder values := mem_distinctInOrder.mpr hx
    rw [List.map_cons, List.mapM_cons, get?_indexOf hxd,
      ih fun y hy => h y (List.mem_cons_of_mem _ hy)]
    rfl

theorem perm_gives_decode {values : List T}
    (hlen : values.length ≤ PERMUTATION_FIXED_LENGTH)
    {l : List T} (hperm : l.Perm values) :
    (↑(l.map fun v => (distinctInOrder values).indexOf v) : Multiset Nat)
        = arrM (countsArr values) ∧
    ((l.map fun v => (distinctInOrder values).indexOf v).mapM
      fun k => (distinctInOrder values).get? k) = some l := by
  constructor
  · rw [arrM_countsArr values hlen]
    exact Multiset.coe_eq_coe.mpr (hperm.map _)
  · exact mapM_map_toId l fun x hx => hperm.mem_iff.mp hx

theorem length_of_coe_idM {values : List T}
    (hlen : values.length ≤ PERMUTATION_FIXED_LENGTH)
    {s : List Nat} (hs : (↑s : Multiset Nat) = arrM (countsArr values)) :
    s.length = values.length := by
  have h := congrArg Multiset.card hs
  rw [Multiset.coe_card, card_idM values hlen] at h
  exact h

/-! ## Generic mapM helpers -/

theorem mapM_eq_some_map {α β : Type} (g : α → Option β) (h : α → β) :
    ∀ (l : List α), (∀ x ∈ l, g x = some (h x)) → l.mapM g = some (l.map h) := by
  intro l
  induction l with
  | nil => intro _; rfl
  | cons x rest ih =>
    intro hp
    rw [List.mapM_cons, hp x (List.mem_cons_self _ _),
      ih fun y hy => hp y (List.mem_cons_of_mem _ hy)]
    rfl

theorem mapM_isSome_of_forall {α β : Type} (g : α → Option β) :
    ∀ (l : List α), (∀ x ∈ l, ∃ y, g x = some y) → ∃ ys, l.mapM g = some ys := by
  intro l
  induction l with
  | nil => intro _; exact ⟨[], rfl⟩
  | cons x rest ih =>
    intro hp
    obtain ⟨y, hy⟩ := hp x (List.mem_cons_self _ _)
    obtain ⟨ys, hys⟩ := ih fun z hz => hp z (List.mem_cons_of_mem _ hz)
    exact ⟨y :: ys, by rw [List.mapM_cons, hy, hys]; rfl⟩

theorem mem_mapM_some {α β : Type} (g : α → Option β) :
    ∀ (l : List α) (ys : List β), l.mapM g = some ys →
      ∀ y : β, (y ∈ ys ↔ ∃ x ∈ l, g x = some y) := by
  intro l
  induction l with
  | nil =>
    intro ys h y
    rw [List.mapM_nil] at h
    simp only [pure, Option.some.injEq] at h
    subst h
    simp
  | cons x rest ih =>
    intro ys h y
    rw [List.mapM_cons] at h
    cases hx : g x with
    | none => rw [hx] at h; simp at h
    | some b =>
      rw [hx] at h
      cases hrest : rest.mapM g with
      | none => rw [hrest] at h; simp at h
      | some bs =>
        rw [hrest] at h
        simp only [Option.bind_eq_bind, Option.some_bind, pure,
          Option.some.injEq] at h
        subst h
        constructor
        · intro hy
          rcases List.mem_cons.mp hy with rfl | hy
          · exact ⟨x, List.mem_cons_self _ _, hx⟩
          · obtain ⟨z, hz, hzg⟩ := (ih bs hrest y).mp hy
            exact ⟨z, List.mem_cons_of_mem _ hz, hzg⟩
        · rintro ⟨z, hz, hzg⟩
          rcases List.mem_cons.mp hz with rfl | hz
          · rw [hx] at hzg
            simp only [Option.some.injEq] at hzg
            subst hzg
            exact List.mem_cons_self _ _
          · exact List.mem_cons_of_mem _ ((ih bs hrest y).mpr ⟨z, hz, hzg⟩)

theorem mapM_append_split {α β : Type} (g : α → Option β) :
    ∀ (l₁ l₂ : List α) (ys : List β), (l₁ ++ l₂).mapM g = some ys →
      ∃ a b, l₁.mapM g = some a ∧ l₂.mapM g = some b ∧ ys = a ++ b := by
  intro l₁
  induction l₁ with
  | nil =>
    intro l₂ ys h
    rw [List.nil_append] at h
    exact ⟨[], ys, rfl, h, rfl⟩
  | cons x rest ih =>
    intro l₂ ys h
    rw [List.cons_append, List.mapM_cons] at h
    cases hx : g x with
    | none => rw [hx] at h; simp at h
    | some b0 =>
      rw [hx] at h
      cases hrl : (rest ++ l₂).mapM g with
      | none => rw [hrl] at h; simp at h
      | some zs =>
        rw [hrl] at h
        simp only [Option.bind_eq_bind, Option.some_bind, pure,
          Option.some.injEq] at h
        subst h
        obtain ⟨a, b, ha, hb, rfl⟩ := ih l₂ zs hrl
        exact ⟨b0 :: a, b, by rw [List.mapM_cons, hx, ha]; rfl, hb, rfl⟩

/-! ## Rendering lemmas -/

theorem fold_sepBy (f : T → String) :
    ∀ (xs : List T) (b : T) (acc : String),
      xs.foldl (fun acc v => acc ++ f v ++ ",") acc ++ f b
        = acc ++ sepBy "," ((xs ++ [b]).map f) := by
  intro xs
  induction xs with
  | nil =>
    intro b acc
    simp [sepBy]
  | cons x rest ih =>
    intro b acc
    rw [List.foldl_cons, ih b (acc ++ f x ++ ",")]
    cases rest with
    | nil =>
      simp only [List.nil_append, List.cons_append, List.map_cons,
        List.map_nil, sepBy, String.append_assoc]
    | cons y t =>
      simp only [List.cons_append, List.map_cons, sepBy, String.append_assoc]
      rfl

theorem displayLine_eq (f : T → String) (p : List T) (hne : p ≠ []) :
    displayLine f p = some (specLine f p) := by
  have hget : p.get? (p.length - 1) = some (p.getLast hne) := by
    rw [← List.getLast?_eq_get?]
    exact List.getLast?_eq_getLast p hne
  rw [displayLine, hget]
  have htake : p.take (p.length - 1) = p.dropLast := (List.dropLast_eq_take p).symm
  have hfold := fold_sepBy f p.dropLast (p.getLast hne) ""
  rw [List.dropLast_append_getLast hne] at hfold
  have hmain : p.dropLast.foldl (fun acc v => acc ++ f v ++ ",") ""
      ++ f (p.getLast hne) = sepBy "," (p.map f) := by
    rw [hfold]
    rfl
  rw [htake, specLine, ← hmain]

theorem displayLineOptimized_eq (f : T → String) (table : List (Nat × T))
    (N : Nat) (hN : 1 ≤ N) (s z : List Nat) (hslen : s.length = N)
    (l : List T) (hmap : s.mapM (fun i => table.lookup i) = some l) :
    displayLineOptimized f table N (s ++ z) = some (specLine f l) := by
  have hdlen : (s.drop (N - 1)).length = 1 := by
    rw [List.length_drop, hslen]
    omega
  obtain ⟨a, ha⟩ := List.length_eq_one.mp hdlen
  have hs2 : s = s.take (N - 1) ++ [a] := by
    rw [← ha]
    exact (List.take_append_drop _ s).symm
  have htlen : (s.take (N - 1)).length = N - 1 := by
    rw [List.length_take, hslen]
    omega
  rw [hs2] at hmap
  obtain ⟨xs, b', hxs, hb', rfl⟩ := mapM_append_split _ _ _ _ hmap
  rw [List.mapM_cons, List.mapM_nil] at hb'
  cases hla : table.lookup a with
  | none => rw [hla] at hb'; simp at hb'
  | some b =>
    rw [hla] at hb'
    simp only [Option.bind_eq_bind, Option.some_bind, pure,
      Option.some.injEq] at hb'
    subst hb'
    have htake : (s ++ z).take (N - 1) = s.take (N - 1) :=
      List.take_append_of_le_length (by omega)
    have hget : (s ++ z).get? (N - 1) = some a := by
      rw [List.get?_eq_getElem?, List.getElem?_append,
        if_pos (show N - 1 < s.length by omega)]
      conv_lhs => rw [hs2]
      rw [List.getElem?_append_right (le_of_eq htlen), htlen, Nat.sub_self]
      rfl
    have hmain : xs.foldl (fun acc v => acc ++ f v ++ ",") "" ++ f b
        = sepBy "," ((xs ++ [b]).map f) := by
      rw [fold_sepBy f xs b ""]
      rfl
    rw [displayLineOptimized, htake, hxs]
    simp only [Option.bind_eq_bind, Option.some_bind]
    rw [hget]
    simp only [Option.some_bind]
    rw [hla]
    simp only [Option.some_bind]
    rw [specLine, ← hmain]

/-! ## Decoding through the translation table -/

theorem lookup_compress_table (values : List T)
    (hlen : values.length ≤ PERMUTATION_FIXED_LENGTH) (i : Nat) :
    ((compress_values values).2).lookup i = (distinctInOrder values).get? i := by
  have h2 : (compress_values values).2 = (distinctInOrder values).enum := by
    rw [compress_values_eq values hlen]
  rw [h2, lookup_enum]

theorem decode_of_idM {values : List T}
    (hlen : values.length ≤ PERMUTATION_FIXED_LENGTH)
    {s : List Nat} (hs : (↑s : Multiset Nat) = arrM (countsArr values)) :
    ∃ l : List T,
      s.mapM (fun i => ((compress_values values).2).lookup i) = some l ∧
      l.Perm values := by
  have hcongr : s.mapM (fun i => ((compress_values values).2).lookup i)
      = s.mapM (fun i => (distinctInOrder values).get? i) :=
    mapM_congr_option s fun k _ => lookup_compress_table values hlen k
  have hsucc : ∀ i ∈ s, ∃ v, (distinctInOrder values).get? i = some v := by
    intro i hi
    have him : i ∈ arrM (countsArr values) := by
      rw [← hs]
      exact Multiset.mem_coe.mpr hi
    have hpos := mem_arrM.mp him
    rw [countsArr_getD values i] at hpos
    by_cases h128 : i < PERMUTATION_FIXED_LENGTH
    · rw [if_pos h128] at hpos
      cases hg : (distinctInOrder values).get? i with
      | none => rw [hg] at hpos; simp at hpos
      | some v => exact ⟨v, rfl⟩
    · rw [if_neg h128] at hpos
      omega
  obtain ⟨l, hl⟩ :=
    mapM_isSome_of_forall (fun i => (distinctInOrder values).get? i) s hsucc
  exact ⟨l, by rw [hcongr, hl], decode_gives_perm hlen hs hl⟩

theorem collectedOpt_wrap (css : List (List (List Nat))) (table : List (Nat × T))
    (N size : Nat) :
    collectedOpt (css.map fun ps =>
        ({ permutations_compressed := ps, index_to_value := table,
           permutation_size := N, size := size } : OptimizedChunk T))
      = css.flatten := by
  induction css with
  | nil => rfl
  | cons c rest ih =>
    simp only [List.map_cons, collectedOpt, List.flatMap_cons,
      List.flatten_cons] at ih ⊢
    rw [ih]

theorem general_run_elim {values : List T} {size fuel : Nat} {cs : List (Chunk T)}
    (h : (IntoChunks.new values size).run fuel = some cs) :
    ∃ css, runChunks Job.compute_next_jobs Job.is_ready Job.permutation fuel
        [Job.new (values_with_frequency values) values.length] size = some css ∧
      cs = css.map fun ps => ({ permutations := ps, size := size } : Chunk T) := by
  have h2 : (runChunks Job.compute_next_jobs Job.is_ready Job.permutation fuel
      [Job.new (values_with_frequency values) values.length] size).map
      (fun css => css.map fun ps =>
        ({ permutations := ps, size := size } : Chunk T)) = some cs := h
  obtain ⟨css, h3, h4⟩ := Option.map_eq_some'.mp h2
  exact ⟨css, h3, h4.symm⟩

theorem optimized_run_elim {values : List T} {size fuel : Nat}
    {cs : List (OptimizedChunk T)}
    (h : (IntoOptimizedChunks.new values size).run fuel = some cs) :
    ∃ css, runChunks OptimizedJob.compute_next_jobs OptimizedJob.is_ready
        OptimizedJob.permutation fuel
        [OptimizedJob.new (compress_values values).1] size = some css ∧
      cs = css.map fun ps =>
        ({ permutations_compressed := ps,
           index_to_value := (compress_values values).2,
           permutation_size := values.length,
           size := size } : OptimizedChunk T) := by
  have h2 : (runChunks OptimizedJob.compute_next_jobs OptimizedJob.is_ready
      OptimizedJob.permutation fuel
      [OptimizedJob.new (compress_values values).1] size).map
      (fun css => css.map fun ps =>
        ({ permutations_compressed := ps,
           index_to_value := (compress_values values).2,
           permutation_size := values.length,
           size := size } : OptimizedChunk T)) = some cs := h
  obtain ⟨css, h3, h4⟩ := Option.map_eq_some'.mp h2
  exact ⟨css, h3, h4.symm⟩

theorem decode_jobOut_arr {values : List T}
    (hlen : values.length ≤ PERMUTATION_FIXED_LENGTH) (hne : values ≠ [])
    {arr : List Nat}
    (harr : arr ∈ jobOut OptimizedJob.compute_next_jobs OptimizedJob.is_ready
        OptimizedJob.permutation (fun j => values.length - j.permutation_length)
        (OptimizedJob.new (compress_values values).1)) :
    ∃ s l, arr = s ++ List.replicate (PERMUTATION_FIXED_LENGTH - values.length) 0 ∧
      s.length = values.length ∧
      s.mapM (fun i => ((compress_values values).2).lookup i) = some l ∧
      decodePermutation (compress_values values).2 values.length arr = some l ∧
      l.Perm values := by
  obtain ⟨s, hs, rfl⟩ := (oRootOut_mem values hlen hne arr).mp harr
  have hslen : s.length = values.length := length_of_coe_idM hlen hs
  obtain ⟨l, hl, hperm⟩ := decode_of_idM hlen hs
  have htake : (s ++ List.replicate (PERMUTATION_FIXED_LENGTH - values.length) 0).take
      values.length = s := by
    rw [List.take_append_of_le_length (le_of_eq hslen.symm), ← hslen, List.take_length]
  refine ⟨s, l, rfl, hslen, hl, ?_, hperm⟩
  rw [decodePermutation, htake, hl]

theorem encode_jobOut_arr {values : List T}
    (hlen : values.length ≤ PERMUTATION_FIXED_LENGTH) (hne : values ≠ [])
    {l : List T} (hperm : l.Perm values) :
    ∃ arr, arr ∈ jobOut OptimizedJob.compute_next_jobs OptimizedJob.is_ready
        OptimizedJob.permutation (fun j => values.length - j.permutation_length)
        (OptimizedJob.new (compress_values values).1) ∧
      decodePermutation (compress_values values).2 values.length arr = some l := by
  obtain ⟨hsM, hsdec⟩ := perm_gives_decode hlen hperm
  have hslen : (l.map fun v => (distinctInOrder values).indexOf v).length
      = values.length := by
    rw [List.length_map]
    exact hperm.length_eq
  refine ⟨(l.map fun v => (distinctInOrder values).indexOf v)
      ++ List.replicate (PERMUTATION_FIXED_LENGTH - values.length) 0, ?_, ?_⟩
  · exact (oRootOut_mem values hlen hne _).mpr ⟨_, hsM, rfl⟩
  · have htake : ((l.map fun v => (distinctInOrder values).indexOf v)
        ++ List.replicate (PERMUTATION_FIXED_LENGTH - values.length) 0).take
        values.length = l.map fun v => (distinctInOrder values).indexOf v := by
      rw [List.take_append_of_le_length (le_of_eq hslen.symm), ← hslen, List.take_length]
    rw [decodePermutation, htake,
      mapM_congr_option _ fun k _ => lookup_compress_table values hlen k, hsdec]

theorem mapM_compose_some {α β γ : Type} (g : α → Option β) (g2 : α → Option γ)
    (h : β → γ) :
    ∀ (l : List α) (ds : List β), l.mapM g = some ds →
      (∀ x ∈ l, ∀ d, g x = some d → g2 x = some (h d)) →
      l.mapM g2 = some (ds.map h) := by
  intro l
  induction l with
  | nil =>
    intro ds hds _
    rw [List.mapM_nil] at hds
    simp only [pure, Option.some.injEq] at hds
    subst hds
    rfl
  | cons x rest ih =>
    intro ds hds hpt
    rw [List.mapM_cons] at hds
    cases hx : g x with
    | none => rw [hx] at hds; simp at hds
    | some d =>
      rw [hx] at hds
      cases hrest : rest.mapM g with
      | none => rw [hrest] at hds; simp at hds
      | some es =>
        rw [hrest] at hds
        simp only [Option.bind_eq_bind, Option.some_bind, pure,
          Option.some.injEq] at hds
        subst hds
        rw [List.mapM_cons, hpt x (List.mem_cons_self _ _) d hx,
          ih es hrest fun y hy => hpt y (List.mem_cons_of_mem _ hy)]
        rfl

/-! ## Reachability gives the invariants -/

theorem gReachable_inv (values : List T) :
    ∀ j, GReachable values j → GInv (↑values) values.length j := by
  intro j hj
  induction hj with
  | root => exact gRoot_inv values
  | step j j' hr hmem ih =>
    exact (gLoopHyps (↑values) values.length (Multiset.coe_card values)).inv_step
      j ih j' hmem

theorem oReachable_inv (values : List T)
    (hlen : values.length ≤ PERMUTATION_FIXED_LENGTH) :
    ∀ j, OReachable values j → OInv (arrM (countsArr values)) values.length j := by
  intro j hj
  induction hj with
  | root => exact oRoot_inv values hlen
  | step j j' hr hmem ih =>
    exact (oLoopHyps (arrM (countsArr values)) values.length
      (card_idM values hlen)).inv_step j ih j' hmem

/-! ## The checked compact-engine operations succeed in bounds -/

theorem compressStepChecked_eq (pre : List T) (v : T)
    (hbound : pre.length < PERMUTATION_FIXED_LENGTH) :
    compressStepChecked (canonState pre) v
      = some (compressStep (canonState pre) v) := by
  have hdle : (distinctInOrder pre).length ≤ pre.length := length_distinctInOrder pre
  have hcvlen : (canonState pre).compressed_values.length
      = PERMUTATION_FIXED_LENGTH := by
    show (countsArr pre).length = _
    exact countsArr_length pre
  by_cases hv : v ∈ distinctInOrder pre
  · have hl : ((canonState pre).value_to_index).lookup v
        = some ((distinctInOrder pre).indexOf v) := by
      show (((distinctInOrder pre).enum.map fun p => (p.2, p.1)).lookup v) = _
      rw [lookup_enum_swap, if_pos hv]
    have hidx : (distinctInOrder pre).indexOf v < PERMUTATION_FIXED_LENGTH := by
      have := List.indexOf_lt_length.mpr hv
      omega
    unfold compressStepChecked compressStep
    rw [hl]
    dsimp only
    rw [setChecked, if_pos (by rw [hcvlen]; exact hidx)]
    rfl
  · have hl : ((canonState pre).value_to_index).lookup v = none := by
      show (((distinctInOrder pre).enum.map fun p => (p.2, p.1)).lookup v) = _
      rw [lookup_enum_swap, if_neg hv]
    have hith : (canonState pre).i_th_distinct_value < PERMUTATION_FIXED_LENGTH := by
      show (distinctInOrder pre).length < _
      omega
    unfold compressStepChecked compressStep
    rw [hl]
    dsimp only
    rw [setChecked, if_pos (by rw [hcvlen]; exact hith)]
    rfl

theorem foldlM_compress_checked :
    ∀ (l pre : List T), pre.length + l.length ≤ PERMUTATION_FIXED_LENGTH →
      l.foldlM compressStepChecked (canonState pre)
        = some (l.foldl compressStep (canonState pre)) := by
  intro l
  induction l with
  | nil => intro pre _; rfl
  | cons v rest ih =>
    intro pre hb
    have hb1 : pre.length + rest.length + 1 ≤ PERMUTATION_FIXED_LENGTH := by
      simp only [List.length_cons] at hb
      omega
    rw [List.foldlM_cons, List.foldl_cons,
      compressStepChecked_eq pre v (by omega)]
    simp only [Option.bind_eq_bind, Option.some_bind]
    have hbv : (distinctInOrder (pre ++ [v])).length ≤ PERMUTATION_FIXED_LENGTH := by
      have hd := length_distinctInOrder (pre ++ [v])
      rw [List.length_append] at hd
      simp only [List.length_singleton] at hd
      omega
    rw [compressStep_canon pre v hbv]
    exact ih (pre ++ [v]) (by
      rw [List.length_append]
      simp only [List.length_singleton]
      omega)

theorem compress_values_checked_eq (values : List T)
    (hlen : values.length ≤ PERMUTATION_FIXED_LENGTH) :
    compress_values_checked values = some (compress_values values) := by
  have h := foldlM_compress_checked values [] (by simpa using hlen)
  rw [canonState_nil] at h
  rw [compress_values_checked, h]
  rfl

theorem with_new_value_checked_eq {idM : Multiset Nat} {N : Nat} {j : OptimizedJob}
    (hInv : OInv idM N j) (hcard : Multiset.card idM = N)
    {i : Nat} (hpos : 0 < j.compressed_values.getD i 0)
    (hilt : i < j.compressed_values.length) :
    j.with_new_value_checked i = some (j.with_new_value i) := by
  have hget : j.compressed_values.get? i = some j.compressed_values[i] := by
    rw [List.get?_eq_getElem?, List.getElem?_eq_getElem hilt]
  have hgd : j.compressed_values.getD i 0 = j.compressed_values[i] :=
    List.getD_eq_getElem _ _ hilt
  have hcpos : 0 < j.compressed_values[i] := by
    rw [← hgd]
    exact hpos
  have hlenlt : j.permutation_length < j.compressed_permutation.length := by
    have hmem : i ∈ arrM j.compressed_values := mem_arrM.mpr hpos
    have hcardpos : 0 < Multiset.card (arrM j.compressed_values) :=
      Multiset.card_pos_iff_exists_mem.mpr ⟨i, hmem⟩
    have hsum := hInv.lenAddCard hcard
    have hn := hInv.nLe
    rw [hInv.cpLen]
    omega
  rw [OptimizedJob.with_new_value_checked, hget]
  simp only [Option.bind_eq_bind, Option.some_bind]
  rw [if_neg (show ¬ (j.compressed_values[i] = 0) by omega)]
  rw [setChecked, if_pos hilt]
  simp only [Option.some_bind]
  rw [setChecked, if_pos hlenlt]
  simp only [Option.some_bind]
  rw [OptimizedJob.with_new_value, hgd]

/-! ## Empty-input runs -/

theorem runChunks_of_step_nil {J P : Type} (step : J → List J) (ready : J → Bool)
    (out : J → P) (root : J) (hstep : step root = []) (size : Nat) :
    ∀ fuel, 2 ≤ fuel → runChunks step ready out fuel [root] size = some [] := by
  intro fuel hf
  obtain ⟨f2, rfl⟩ : ∃ f2, fuel = (f2 + 1) + 1 := ⟨fuel - 2, by omega⟩
  rw [runChunks_succ, nextLoop_cons_nil ready out hstep, nextLoop_succ_nil]
  rfl

theorem gRoot_step_nil :
    (Job.new (values_with_frequency ([] : List T))
      ([] : List T).length).compute_next_jobs = [] := rfl

theorem oRoot_step_nil :
    (OptimizedJob.new (compress_values ([] : List T)).1).compute_next_jobs = [] := by
  have hcv : (compress_values ([] : List T)).1 = countsArr ([] : List T) := by
    rw [compress_values_eq ([] : List T) (by simp)]
  rw [OptimizedJob.compute_next_jobs]
  rw [List.filter_eq_nil_iff.mpr ?_]
  · simp
  · intro p hp
    show ¬ decide (0 < p.2) = true
    have hz : (OptimizedJob.new (compress_values ([] : List T)).1).compressed_values
        = zeroed_fixed_array := by
      show (compress_values ([] : List T)).1 = zeroed_fixed_array
      rw [hcv]
      have h1 := congrArg CompressState.compressed_values (canonState_nil (T := T))
      exact h1
    rw [hz] at hp
    rw [List.mem_enum_iff_getElem?] at hp
    rw [zeroed_fixed_array] at hp
    rw [List.getElem?_replicate] at hp
    by_cases hlt : p.1 < PERMUTATION_FIXED_LENGTH
    · rw [if_pos hlt] at hp
      simp only [Option.some.injEq] at hp
      simp [← hp]
    · rw [if_neg hlt] at hp
      exact absurd hp (by simp)

/-! ## The claims -/

/-- C1 (corrected): for every NON-EMPTY input list and every positive chunk
size, the permutations collected across all chunks of a completed
general-engine run contain every distinct arrangement of the input multiset
exactly once: there are no duplicates, and a sequence is collected exactly
when it is a permutation (`List.Perm`) of the input.  The original claim,
stated for every finite input, fails at the empty input, where the run
collects nothing although the empty arrangement exists. -/
theorem c1_general_engine_arrangements_exactly_once (values : List T)
    (size : Nat) (hne : values ≠ []) (hsz : 0 < size) (fuel : Nat)
    (cs : List (Chunk T)) (h : (IntoChunks.new values size).run fuel = some cs) :
    (collectedPerms cs).Nodup ∧
    ∀ l : List T, l ∈ collectedPerms cs ↔ l.Perm values := by
  obtain ⟨css, hrun, rfl⟩ := general_run_elim h
  rw [collectedPerms_wrap]
  obtain ⟨s1, _, _⟩ := general_run_spec values size hsz fuel css hrun
  have hperm : css.flatten.Perm (jobOut Job.compute_next_jobs Job.is_ready
      Job.permutation (fun j => values.length - j.permutation.length)
      (Job.new (values_with_frequency values) values.length)) :=
    Multiset.coe_eq_coe.mp s1
  refine ⟨hperm.nodup_iff.mpr (gRootOut_nodup values), ?_⟩
  intro l
  rw [hperm.mem_iff, gRootOut_mem values hne l]

/-- C1 witness: the general engine on `[1, 2]` with chunk size 1 collects
`[2, 1]` and `[1, 2]`, without duplicates. -/
theorem c1_witness :
    (collectedPerms [(⟨[[2, 1]], 1⟩ : Chunk Nat), ⟨[[1, 2]], 1⟩]).Nodup ∧
    ([2, 1] ∈ collectedPerms [(⟨[[2, 1]], 1⟩ : Chunk Nat), ⟨[[1, 2]], 1⟩] ↔
      ([2, 1] : List Nat).Perm [1, 2]) :=
  ⟨(c1_general_engine_arrangements_exactly_once [1, 2] 1 (by decide) (by decide)
      20 [⟨[[2, 1]], 1⟩, ⟨[[1, 2]], 1⟩] (by decide)).1,
   (c1_general_engine_arrangements_exactly_once [1, 2] 1 (by decide) (by decide)
      20 [⟨[[2, 1]], 1⟩, ⟨[[1, 2]], 1⟩] (by decide)).2 [2, 1]⟩

/-- C1 counterexample: at the empty input the completed run yields no chunk
at all, so the empty arrangement — a genuine arrangement of the empty
multiset — is never produced, refuting completeness as originally stated
over every finite input. -/
theorem c1_counterexample_empty_input :
    (IntoChunks.new ([] : List Nat) 2).run 2 = some [] ∧
    ([] : List Nat).Perm [] ∧
    ¬ ([] ∈ collectedPerms ([] : List (Chunk Nat))) :=
  ⟨by decide, List.Perm.refl _, by decide⟩

/-- C2: for every input of length at most 128 and every chunk size of at
least 1, decoding each compressed permutation of a completed compact-engine
run through the translation table succeeds, and the decoded sequences form
exactly the same set as the permutations collected by a completed
general-engine run on the same input. -/
theorem c2_engines_produce_equal_sets (values : List T) (size : Nat)
    (hlen : values.length ≤ PERMUTATION_FIXED_LENGTH) (hsz : 0 < size)
    (fuel₁ fuel₂ : Nat) (cs₁ : List (Chunk T)) (cs₂ : List (OptimizedChunk T))
    (h₁ : (IntoChunks.new values size).run fuel₁ = some cs₁)
    (h₂ : (IntoOptimizedChunks.new values size).run fuel₂ = some cs₂) :
    ∃ decoded : List (List T),
      (collectedOpt cs₂).mapM
          (decodePermutation (compress_values values).2 values.length)
        = some decoded ∧
      ∀ l : List T, l ∈ decoded ↔ l ∈ collectedPerms cs₁ := by
  obtain ⟨css₁, hrun₁, rfl⟩ := general_run_elim h₁
  obtain ⟨css₂, hrun₂, rfl⟩ := optimized_run_elim h₂
  rw [collectedPerms_wrap, collectedOpt_wrap]
  obtain ⟨s1, _, _⟩ := general_run_spec values size hsz fuel₁ css₁ hrun₁
  obtain ⟨t1, _, _⟩ := optimized_run_spec values hlen size hsz fuel₂ css₂ hrun₂
  have hperm₁ : css₁.flatten.Perm (jobOut Job.compute_next_jobs Job.is_ready
      Job.permutation (fun j => values.length - j.permutation.length)
      (Job.new (values_with_frequency values) values.length)) :=
    Multiset.coe_eq_coe.mp s1
  have hperm₂ : css₂.flatten.Perm (jobOut OptimizedJob.compute_next_jobs
      OptimizedJob.is_ready OptimizedJob.permutation
      (fun j => values.length - j.permutation_length)
      (OptimizedJob.new (compress_values values).1)) :=
    Multiset.coe_eq_coe.mp t1
  by_cases hne : values = []
  · subst hne
    have hg : jobOut Job.compute_next_jobs Job.is_ready Job.permutation
        (fun j => ([] : List T).length - j.permutation.length)
        (Job.new (values_with_frequency ([] : List T)) ([] : List T).length)
        = [] :=
      gjobOut_nil_of_rank_zero (Multiset.coe_card []) (gRoot_inv [])
        (by simp [Job.new])
    have ho : jobOut OptimizedJob.compute_next_jobs OptimizedJob.is_ready
        OptimizedJob.permutation
        (fun j => ([] : List T).length - j.permutation_length)
        (OptimizedJob.new (compress_values ([] : List T)).1) = [] :=
      oRootOut_nil [] hlen rfl
    rw [hg] at hperm₁
    rw [ho] at hperm₂
    have h1n : css₁.flatten = [] := List.perm_nil.mp hperm₁
    have h2n : css₂.flatten = [] := List.perm_nil.mp hperm₂
    refine ⟨[], by rw [h2n]; rfl, ?_⟩
    intro l
    rw [h1n]
  · have hdec : ∀ arr ∈ css₂.flatten, ∃ l,
        decodePermutation (compress_values values).2 values.length arr
          = some l := by
      intro arr harr
      obtain ⟨s, l, _, _, _, hdl, _⟩ :=
        decode_jobOut_arr hlen hne (hperm₂.mem_iff.mp harr)
      exact ⟨l, hdl⟩
    obtain ⟨decoded, hdecoded⟩ := mapM_isSome_of_forall
      (decodePermutation (compress_values values).2 values.length)
      css₂.flatten hdec
    refine ⟨decoded, hdecoded, ?_⟩
    intro l
    rw [mem_mapM_some _ css₂.flatten decoded hdecoded l,
      hperm₁.mem_iff, gRootOut_mem values hne l]
    constructor
    · rintro ⟨arr, harr, hmapd⟩
      obtain ⟨s, l', _, _, _, hdl, hlp⟩ :=
        decode_jobOut_arr hlen hne (hperm₂.mem_iff.mp harr)
      rw [hdl] at hmapd
      rw [← Option.some.inj hmapd]
      exact hlp
    · intro hlp
      obtain ⟨arr, harrj, hdl⟩ := encode_jobOut_arr hlen hne hlp
      exact ⟨arr, hperm₂.mem_iff.mpr harrj, hdl⟩

/-- C2 witness: on `[1, 2]` with chunk size 1 the compact engine's two
compressed permutations decode to exactly the general engine's collected
permutations. -/
theorem c2_witness :
    ∃ decoded : List (List Nat),
      (collectedOpt [(⟨[1 :: 0 :: List.replicate 126 0], [(0, 1), (1, 2)], 2, 1⟩ :
            OptimizedChunk Nat),
          ⟨[0 :: 1 :: List.replicate 126 0], [(0, 1), (1, 2)], 2, 1⟩]).mapM
          (decodePermutation (compress_values ([1, 2] : List Nat)).2
            ([1, 2] : List Nat).length)
        = some decoded ∧
      ∀ l : List Nat, l ∈ decoded ↔
        l ∈ collectedPerms [(⟨[[2, 1]], 1⟩ : Chunk Nat), ⟨[[1, 2]], 1⟩] :=
  c2_engines_produce_equal_sets [1, 2] 1 (by decide) (by decide) 20 20
    [⟨[[2, 1]], 1⟩, ⟨[[1, 2]], 1⟩]
    [⟨[1 :: 0 :: List.replicate 126 0], [(0, 1), (1, 2)], 2, 1⟩,
     ⟨[0 :: 1 :: List.replicate 126 0], [(0, 1), (1, 2)], 2, 1⟩]
    (by decide) (by decide)

/-- C3 (corrected): for the empty input and any chunk size, both engines
yield NO chunks at all: any sufficiently fuelled run returns the empty
chunk list (matching the repository's own
`empty_permutation_is_computed_correctly` test).  The spec's claim of
exactly one chunk holding one empty permutation does not match the code,
whose iterator suppresses empty chunks and never pushes the root job's
empty batch. -/
theorem c3_empty_input_yields_no_chunks (size : Nat) (hsz : 0 < size)
    (fuel : Nat) (hfuel : 2 ≤ fuel) :
    (IntoChunks.new ([] : List T) size).run fuel = some [] ∧
    (IntoOptimizedChunks.new ([] : List T) size).run fuel = some [] := by
  constructor
  · have h := runChunks_of_step_nil Job.compute_next_jobs Job.is_ready
      Job.permutation
      (Job.new (values_with_frequency ([] : List T)) ([] : List T).length)
      gRoot_step_nil size fuel hfuel
    have h2 : (IntoChunks.new ([] : List T) size).run fuel
        = (runChunks Job.compute_next_jobs Job.is_ready Job.permutation fuel
            [Job.new (values_with_frequency ([] : List T)) ([] : List T).length]
            size).map
          (fun css => css.map fun ps =>
            ({ permutations := ps, size := size } : Chunk T)) := rfl
    rw [h2, h]
    rfl
  · have h := runChunks_of_step_nil OptimizedJob.compute_next_jobs
      OptimizedJob.is_ready OptimizedJob.permutation
      (OptimizedJob.new (compress_values ([] : List T)).1)
      oRoot_step_nil size fuel hfuel
    have h2 : (IntoOptimizedChunks.new ([] : List T) size).run fuel
        = (runChunks OptimizedJob.compute_next_jobs OptimizedJob.is_ready
            OptimizedJob.permutation fuel
            [OptimizedJob.new (compress_values ([] : List T)).1] size).map
          (fun css => css.map fun ps =>
            ({ permutations_compressed := ps,
               index_to_value := (compress_values ([] : List T)).2,
               permutation_size := ([] : List T).length,
               size := size } : OptimizedChunk T)) := rfl
    rw [h2, h]
    rfl

/-- C3 witness: both engines on the empty input with chunk size 2 and fuel 2
yield the empty chunk list. -/
theorem c3_witness :
    (IntoChunks.new ([] : List Nat) 2).run 2 = some [] ∧
    (IntoOptimizedChunks.new ([] : List Nat) 2).run 2 = some [] :=
  c3_empty_input_yields_no_chunks 2 (by decide) 2 (by decide)

/-- C3 counterexample: at the empty input the completed runs of both
engines contain zero chunks, not the single chunk with one empty
permutation that the spec describes. -/
theorem c3_counterexample_zero_chunks :
    (IntoChunks.new ([] : List Nat) 2).run 2 = some [] ∧
    (IntoOptimizedChunks.new ([] : List Nat) 2).run 2 = some [] ∧
    ([] : List (Chunk Nat)).length ≠ 1 :=
  ⟨by decide, by decide, by decide⟩

/-- C4 (corrected): constructing the compact engine with an input longer
than 128 PANICS (embedded as `Except.error` carrying the panic message); it
is not reported as a typed recoverable CapacityError value.  The typed
check available to callers is `can_be_optimized`, which returns `false`
exactly then; with length at most 128 (and positive chunk size)
construction succeeds, and the general engine succeeds regardless of
length. -/
theorem c4_capacity_boundary (p : Permutations T) (size : Nat)
    (hsz : 0 < size) :
    (PERMUTATION_FIXED_LENGTH < p.values.length →
      p.can_be_optimized = false ∧
      p.into_optimized_chunks size = .error
        ⟨"Cannot use optimized_chunks: the permutation exceeds the maximum length 128"⟩ ∧
      p.into_chunks size = .ok (IntoChunks.new p.values size)) ∧
    (p.values.length ≤ PERMUTATION_FIXED_LENGTH →
      p.can_be_optimized = true ∧
      p.into_optimized_chunks size
        = .ok (IntoOptimizedChunks.new p.values size)) := by
  have hsz0 : ¬ size = 0 := by omega
  constructor
  · intro hgt
    have hco : p.can_be_optimized = false := by
      rw [Permutations.can_be_optimized]
      simp only [decide_eq_false_iff_not]
      omega
    refine ⟨hco, ?_, ?_⟩
    · rw [Permutations.into_optimized_chunks, if_neg hsz0, hco]
      rfl
    · rw [Permutations.into_chunks, if_neg hsz0]
  · intro hle
    have hco : p.can_be_optimized = true := by
      rw [Permutations.can_be_optimized]
      simpa using hle
    refine ⟨hco, ?_⟩
    rw [Permutations.into_optimized_chunks, if_neg hsz0, hco]
    rfl

/-- C4 witness: length 129 is rejected by `can_be_optimized` and panics in
`into_optimized_chunks` while the general engine still constructs; length
128 passes the check and constructs the compact engine. -/
theorem c4_witness :
    ((Permutations.new (List.replicate 129 (0 : Nat))).can_be_optimized = false ∧
      (Permutations.new (List.replicate 129 (0 : Nat))).into_optimized_chunks 1
        = .error
          ⟨"Cannot use optimized_chunks: the permutation exceeds the maximum length 128"⟩ ∧
      (Permutations.new (List.replicate 129 (0 : Nat))).into_chunks 1
        = .ok (IntoChunks.new (List.replicate 129 (0 : Nat)) 1)) ∧
    ((Permutations.new (List.replicate 128 (0 : Nat))).can_be_optimized = true ∧
      (Permutations.new (List.replicate 128 (0 : Nat))).into_optimized_chunks 1
        = .ok (IntoOptimizedChunks.new (List.replicate 128 (0 : Nat)) 1)) :=
  ⟨(c4_capacity_boundary (Permutations.new (List.replicate 129 0)) 1
      (by decide)).1 (by decide),
   (c4_capacity_boundary (Permutations.new (List.replicate 128 0)) 1
      (by decide)).2 (by decide)⟩

/-- C4 counterexample: at length 129 the failure of `into_optimized_chunks`
is the panic signal (the `Panic` payload embeds Rust's `panic!`), not a
typed recoverable CapacityError value as the spec claims. -/
theorem c4_counterexample_panic_not_typed_error :
    (Permutations.new (List.replicate 129 (0 : Nat))).into_optimized_chunks 1
      = .error
        ⟨"Cannot use optimized_chunks: the permutation exceeds the maximum length 128"⟩ :=
  rfl

/-- C5: constructing either engine with chunk size 0 fails at construction
time with the contract-violation panic "Chunks size must be at least one",
before any chunk iteration happens. -/
theorem c5_zero_chunk_size_rejected (p : Permutations T) :
    p.into_chunks 0 = .error ⟨"Chunks size must be at least one"⟩ ∧
    p.into_optimized_chunks 0 = .error ⟨"Chunks size must be at least one"⟩ :=
  ⟨rfl, rfl⟩

/-- C6: in a completed run of either engine, every yielded chunk holds
between 1 and `size` permutations — no yielded chunk is empty, exhaustion
is the run ending — and every chunk except possibly the last holds exactly
`size`. -/
theorem c6_chunk_sizes (values : List T) (size : Nat) (hne : values ≠ [])
    (hsz : 0 < size) (fuel : Nat) :
    (∀ cs, (IntoChunks.new values size).run fuel = some cs →
      (∀ c ∈ cs, 1 ≤ c.permutations.length ∧ c.permutations.length ≤ size) ∧
      ∀ c ∈ cs.dropLast, c.permutations.length = size) ∧
    (values.length ≤ PERMUTATION_FIXED_LENGTH →
      ∀ cs, (IntoOptimizedChunks.new values size).run fuel = some cs →
        (∀ c ∈ cs, 1 ≤ c.permutations_compressed.length ∧
          c.permutations_compressed.length ≤ size) ∧
        ∀ c ∈ cs.dropLast, c.permutations_compressed.length = size) := by
  constructor
  · intro cs h
    obtain ⟨css, hrun, rfl⟩ := general_run_elim h
    obtain ⟨_, s2, s3⟩ := general_run_spec values size hsz fuel css hrun
    constructor
    · intro c hc
      obtain ⟨ps, hps, rfl⟩ := List.mem_map.mp hc
      exact s2 ps hps
    · intro c hc
      rw [← List.map_dropLast] at hc
      obtain ⟨ps, hps, rfl⟩ := List.mem_map.mp hc
      exact s3 ps hps
  · intro hlen cs h
    obtain ⟨css, hrun, rfl⟩ := optimized_run_elim h
    obtain ⟨_, s2, s3⟩ := optimized_run_spec values hlen size hsz fuel css hrun
    constructor
    · intro c hc
      obtain ⟨ps, hps, rfl⟩ := List.mem_map.mp hc
      exact s2 ps hps
    · intro c hc
      rw [← List.map_dropLast] at hc
      obtain ⟨ps, hps, rfl⟩ := List.mem_map.mp hc
      exact s3 ps hps

/-- C6 witness: in the run of the general engine on `[1, 2]` with size 1,
the first chunk holds exactly one permutation. -/
theorem c6_witness :
    1 ≤ (⟨[[2, 1]], 1⟩ : Chunk Nat).permutations.length ∧
    (⟨[[2, 1]], 1⟩ : Chunk Nat).permutations.length ≤ 1 :=
  ((c6_chunk_sizes [1, 2] 1 (by decide) (by decide) 20).1
    [⟨[[2, 1]], 1⟩, ⟨[[1, 2]], 1⟩] (by decide)).1
    ⟨[[2, 1]], 1⟩ (List.mem_cons_self _ _)

/-- C7: on every job reachable in the general engine's frontier, the
multiset of values of the partial permutation plus the remaining counts of
the frequency map equals the input multiset, and every stored count is at
least 1. -/
theorem c7_frontier_invariant (values : List T) (j : Job T)
    (hreach : GReachable values j) :
    (↑j.permutation : Multiset T) + freqM j.values_with_positive_frequency
      = ↑values ∧
    ∀ p ∈ j.values_with_positive_frequency, 0 < p.2 := by
  have h := gReachable_inv values j hreach
  exact ⟨h.mass, h.pos⟩

/-- C7 witness: the invariant at the root job of input `[1, 2]`. -/
theorem c7_witness :
    ((↑(Job.new (values_with_frequency ([1, 2] : List Nat))
          ([1, 2] : List Nat).length).permutation : Multiset Nat)
        + freqM (Job.new (values_with_frequency ([1, 2] : List Nat))
            ([1, 2] : List Nat).length).values_with_positive_frequency
      = ↑([1, 2] : List Nat)) ∧
    0 < (1, 1).2 :=
  ⟨(c7_frontier_invariant [1, 2] _ GReachable.root).1,
   (c7_frontier_invariant [1, 2] _ GReachable.root).2 (1, 1) (by decide)⟩

/-- C8: every chunk of a completed run of either engine renders as the
concatenation, in insertion order, of one line per stored permutation; a
line is the permutation's values — for the compact engine the values
obtained by translating each id through the table — joined by the single
separator "," and terminated by a line terminator.  The general engine is
covered for inputs of any length; the 128-length bound guards only the
compact conjunct, whose construction requires it. -/
theorem c8_display_renders_lines (f : T → String) (values : List T)
    (size : Nat) (hne : values ≠ []) (hsz : 0 < size) (fuel : Nat) :
    (∀ cs, (IntoChunks.new values size).run fuel = some cs →
      ∀ c ∈ cs, c.display f
        = some (String.join (c.permutations.map (specLine f)))) ∧
    (values.length ≤ PERMUTATION_FIXED_LENGTH →
      ∀ cs, (IntoOptimizedChunks.new values size).run fuel = some cs →
      ∀ c ∈ cs, ∃ decoded : List (List T),
        c.permutations_compressed.mapM
            (decodePermutation c.index_to_value c.permutation_size)
          = some decoded ∧
        c.display f = some (String.join (decoded.map (specLine f)))) := by
  constructor
  · intro cs h c hc
    obtain ⟨css, hrun, rfl⟩ := general_run_elim h
    obtain ⟨s1, _, _⟩ := general_run_spec values size hsz fuel css hrun
    have hperm : css.flatten.Perm (jobOut Job.compute_next_jobs Job.is_ready
        Job.permutation (fun j => values.length - j.permutation.length)
        (Job.new (values_with_frequency values) values.length)) :=
      Multiset.coe_eq_coe.mp s1
    obtain ⟨ps, hps, rfl⟩ := List.mem_map.mp hc
    have hpne : ∀ p ∈ ps, p ≠ [] := by
      intro p hp hpnil
      apply hne
      have hpj := hperm.mem_iff.mp (List.mem_flatten.mpr ⟨ps, hps, hp⟩)
      have hlen0 := ((gRootOut_mem values hne p).mp hpj).length_eq
      rw [hpnil] at hlen0
      exact List.length_eq_zero.mp hlen0.symm
    have hmapm : ps.mapM (displayLine f) = some (ps.map (specLine f)) :=
      mapM_eq_some_map (displayLine f) (specLine f) ps
        (fun p hp => displayLine_eq f p (hpne p hp))
    show (ps.mapM (displayLine f)).map String.join
      = some (String.join (ps.map (specLine f)))
    rw [hmapm]
    rfl
  · intro hlen cs h c hc
    obtain ⟨css, hrun, rfl⟩ := optimized_run_elim h
    obtain ⟨t1, _, _⟩ := optimized_run_spec values hlen size hsz fuel css hrun
    have hperm : css.flatten.Perm (jobOut OptimizedJob.compute_next_jobs
        OptimizedJob.is_ready OptimizedJob.permutation
        (fun j => values.length - j.permutation_length)
        (OptimizedJob.new (compress_values values).1)) :=
      Multiset.coe_eq_coe.mp t1
    obtain ⟨ps, hps, rfl⟩ := List.mem_map.mp hc
    have hN : 1 ≤ values.length := List.length_pos.mpr hne
    have harrP : ∀ arr ∈ ps, ∃ l, decodePermutation (compress_values values).2
        values.length arr = some l := by
      intro arr harr
      obtain ⟨s, l, _, _, _, hdl, _⟩ := decode_jobOut_arr hlen hne
        (hperm.mem_iff.mp (List.mem_flatten.mpr ⟨ps, hps, harr⟩))
      exact ⟨l, hdl⟩
    obtain ⟨decoded, hdecoded⟩ := mapM_isSome_of_forall
      (decodePermutation (compress_values values).2 values.length) ps harrP
    refine ⟨decoded, hdecoded, ?_⟩
    have hdisp : ps.mapM
        (displayLineOptimized f (compress_values values).2 values.length)
        = some (decoded.map (specLine f)) := by
      apply mapM_compose_some
        (decodePermutation (compress_values values).2 values.length)
        (displayLineOptimized f (compress_values values).2 values.length)
        (specLine f) ps decoded hdecoded
      intro arr harr d hd
      obtain ⟨s, l, harr_eq, hslen, hsl, hdl, _⟩ := decode_jobOut_arr hlen hne
        (hperm.mem_iff.mp (List.mem_flatten.mpr ⟨ps, hps, harr⟩))
      rw [hdl] at hd
      obtain rfl := Option.some.inj hd
      subst harr_eq
      exact displayLineOptimized_eq f (compress_values values).2 values.length
        hN s (List.replicate (PERMUTATION_FIXED_LENGTH - values.length) 0)
        hslen l hsl
    show (ps.mapM
        (displayLineOptimized f (compress_values values).2 values.length)).map
        String.join = some (String.join (decoded.map (specLine f)))
    rw [hdisp]
    rfl

/-- C8 witness: the first chunk of the general run on `[1, 2]` renders as
the line for `[2, 1]`. -/
theorem c8_witness :
    (⟨[[2, 1]], 1⟩ : Chunk Nat).display (fun n : Nat => toString n)
      = some (String.join ([[2, 1]].map
          (specLine fun n : Nat => toString n))) :=
  (c8_display_renders_lines (fun n : Nat => toString n) [1, 2] 1 (by decide)
    (by decide) 20).1
    [⟨[[2, 1]], 1⟩, ⟨[[1, 2]], 1⟩] (by decide)
    ⟨[[2, 1]], 1⟩ (List.mem_cons_self _ _)

/-- C9: `compress_values` assigns ids in first-occurrence order: its
translation table is exactly the enumeration of the distinct values in
first-occurrence order (the k-th distinct value receives id k-1, the
assigned ids are exactly 0..distinct_count-1), the count array holds at an
assigned id the input count of that id's value, and every other entry is
0. -/
theorem c9_compress_values_first_occurrence_ids (values : List T)
    (hlen : values.length ≤ PERMUTATION_FIXED_LENGTH) :
    (compress_values values).2 = (distinctInOrder values).enum ∧
    (compress_values values).2.map Prod.fst
      = List.range (distinctInOrder values).length ∧
    (∀ i v, (distinctInOrder values).get? i = some v →
      (compress_values values).1.getD i 0 = values.count v) ∧
    (∀ i, (distinctInOrder values).length ≤ i →
      (compress_values values).1.getD i 0 = 0) := by
  have hcv := compress_values_eq values hlen
  have h2 : (compress_values values).2 = (distinctInOrder values).enum := by
    rw [hcv]
  have h1 : (compress_values values).1 = countsArr values := by
    rw [hcv]
  refine ⟨h2, ?_, ?_, ?_⟩
  · rw [h2, List.enum_map_fst]
  · intro i v hv
    have hilt : i < (distinctInOrder values).length := by
      by_contra hc
      rw [List.get?_eq_getElem?,
        List.getElem?_eq_none (l := distinctInOrder values) (by omega)] at hv
      exact absurd hv (by simp)
    have h128 : i < PERMUTATION_FIXED_LENGTH := by
      have hd := length_distinctInOrder values
      omega
    rw [h1, countsArr_getD values i, if_pos h128, hv]
    rfl
  · intro i hi
    rw [h1, countsArr_getD values i]
    by_cases h128 : i < PERMUTATION_FIXED_LENGTH
    · rw [if_pos h128, List.get?_eq_getElem?,
        List.getElem?_eq_none (l := distinctInOrder values) (by omega)]
      rfl
    · rw [if_neg h128]

/-- C9 witness: on `[1, 2, 1]` the table is the enumeration of `[1, 2]`
and id 0 counts the two occurrences of the value 1. -/
theorem c9_witness :
    (compress_values ([1, 2, 1] : List Nat)).2
      = (distinctInOrder ([1, 2, 1] : List Nat)).enum ∧
    (compress_values ([1, 2, 1] : List Nat)).1.getD 0 0
      = ([1, 2, 1] : List Nat).count 1 :=
  ⟨(c9_compress_values_first_occurrence_ids [1, 2, 1] (by decide)).1,
   (c9_compress_values_first_occurrence_ids [1, 2, 1] (by decide)).2.2.1
     0 1 (by decide)⟩

/-- C10: under the precondition that the input has length at most 128, no
fixed-array access of the compact engine is out of bounds and no count
decrement underflows: the bounds-checked `compress_values` agrees with the
total model, and on every reachable job the bounds- and underflow-checked
`with_new_value` succeeds at every id of positive count (exactly the ids
`compute_next_jobs` feeds it). -/
theorem c10_no_out_of_bounds_or_underflow (values : List T)
    (hlen : values.length ≤ PERMUTATION_FIXED_LENGTH) :
    compress_values_checked values = some (compress_values values) ∧
    ∀ j, OReachable values j → ∀ p ∈ j.compressed_values.enum, 0 < p.2 →
      j.with_new_value_checked p.1 = some (j.with_new_value p.1) := by
  refine ⟨compress_values_checked_eq values hlen, ?_⟩
  intro j hreach p hp hpos
  have hInv := oReachable_inv values hlen j hreach
  have hget := List.mem_enum_iff_getElem?.mp hp
  have hlt : p.1 < j.compressed_values.length :=
    (List.getElem?_eq_some_iff.mp hget).1
  have hgd : 0 < j.compressed_values.getD p.1 0 := by
    rw [List.getD_eq_getElem?_getD, hget]
    exact hpos
  exact with_new_value_checked_eq hInv (card_idM values hlen) hgd hlt

/-- C10 witness: the checked operations succeed on `[1, 2]`: checked
compression agrees with `compress_values`, and the checked
`with_new_value` succeeds at id 0 of the root job. -/
theorem c10_witness :
    compress_values_checked ([1, 2] : List Nat)
      = some (compress_values [1, 2]) ∧
    (OptimizedJob.new (compress_values ([1, 2] : List Nat)).1).with_new_value_checked 0
      = some ((OptimizedJob.new
          (compress_values ([1, 2] : List Nat)).1).with_new_value 0) :=
  ⟨(c10_no_out_of_bounds_or_underflow [1, 2] (by decide)).1,
   (c10_no_out_of_bounds_or_underflow [1, 2] (by decide)).2
     _ OReachable.root (0, 1) (by decide) (by decide)⟩
end PermEngine
